import Mathlib

/-!
# Treemap converter (`src/converter.js`): shallow embedding

The converter reads flat records `{id, parent, value, label}`, links them into a
tree (`processGraph`), aggregates values bottom-up (`calcValues`), computes a
slice-and-dice layout (`computeTreemapLayout`) and emits one diagram cell per
record (`generateDrawioXML`).

Modelling conventions.

* The pipeline is written twice.  `D.processGraph` and the definitions it is
  made of compute in the arithmetic of the source, IEEE 754 binary64 (`Dbl`:
  round to nearest, ties to even, `NaN` and the infinities).  `processGraph`
  and the definitions it is made of are the same program over exact rationals
  (`ℚ`): this is the arithmetic that the statements "in exact arithmetic" speak
  about.  The inputs at which `processGraph` is evaluated have small integer
  values, for which every intermediate result is a binary64 number
  (`abc_run_binary64` for the worked example).  A quotient by zero has no
  rational counterpart; every statement in exact arithmetic that relies on a
  quotient assumes a nonzero divisor.
* A record object is identified by its position in `flatNodes`; the array
  `children` of an object holds such positions.
* `nodeMap` is the plain object `{}` of the source.  `nodeMap k = some i` says
  that reading `nodeMap[k]` gives the record `i`: an own entry, or, for the key
  `__proto__`, the record that the assignment `nodeMap["__proto__"] = n` made
  the prototype of the object.  Reading a key that is no own entry walks the
  prototype chain (`inherited`): the fields of that prototype record, then the
  members of `Object.prototype`.
* The object graph below the root is read into an inductive `Tree`, on which
  `calcValues` and `computeTreemapLayout` recurse exactly as in the source; the
  fields they assign are written back to the objects by `writeBack`.
-/

namespace Treemap

/-! ## Data model -/

/-- A row as pushed by the CSV reader: `parent` is `null` (`none`) when the
column is empty, `value` is `parseFloat(data.value) || 0`. -/
structure Record where
  id : String
  parent : Option String
  value : ℚ
  label : String
deriving DecidableEq, Repr

/-- A record object once the first loop of `processGraph` has added `children`,
`x`, `y`, `w` and `h` to it. -/
structure Node where
  id : String
  parent : Option String
  value : ℚ
  label : String
  children : List Nat
  x : ℚ
  y : ℚ
  w : ℚ
  h : ℚ
deriving DecidableEq, Repr

/-- JavaScript truthiness of a string-or-null: `null` and the empty string are
falsy. -/
def truthy : Option String → Bool
  | some s => s != ""
  | none => false

/-- The dictionary `nodeMap`: id to object (position in `flatNodes`). -/
abbrev NodeMap := String → Option Nat

/-- The object created for a record by `n.children = []; n.x = 0; ...`. -/
def initNode (n : Record) : Node :=
  { id := n.id, parent := n.parent, value := n.value, label := n.label,
    children := [], x := 0, y := 0, w := 0, h := 0 }

/-- The objects after the first `forEach` of `processGraph`. -/
def initNodes (flatNodes : List Record) : List Node :=
  flatNodes.map initNode

/-- The assignments `nodeMap[n.id] = n` of the first `forEach`, in input order
(`i` is the position of the head of the list): a later record with the same id
overwrites an earlier one. -/
def buildMap : List Record → Nat → NodeMap → NodeMap
  | [], _, m => m
  | n :: rest, i, m => buildMap rest (i + 1) (fun k => if k = n.id then some i else m k)

/-- Apply `f` to the object at position `i`. -/
def modifyAt (f : Node → Node) : List Node → Nat → List Node
  | [], _ => []
  | o :: rest, 0 => f o :: rest
  | o :: rest, i + 1 => o :: modifyAt f rest i

/-- The record that `n.parent && nodeMap[n.parent]` evaluates to, when it
evaluates to a record: the parent object, if any. -/
def parentOf (nodeMap : NodeMap) (parent : Option String) : Option Nat :=
  if truthy parent then nodeMap (parent.getD "") else none

/-- The names of the members that every plain object inherits from
`Object.prototype` (all of them functions), `__proto__` apart. -/
def objectPrototypeKeys : List String :=
  ["constructor", "__defineGetter__", "__defineSetter__", "hasOwnProperty",
    "__lookupGetter__", "__lookupSetter__", "isPrototypeOf", "propertyIsEnumerable",
    "toString", "valueOf", "toLocaleString"]

/-- Truthiness of the field `k` of a record object, `none` when the object has
no such field.  The array `children` is truthy even when empty. -/
def fieldTruthy (o : Node) (k : String) : Option Bool :=
  if k = "id" then some (o.id != "")
  else if k = "parent" then some (truthy o.parent)
  else if k = "value" then some (o.value != 0)
  else if k = "label" then some (o.label != "")
  else if k = "children" then some true
  else if k = "x" then some (o.x != 0)
  else if k = "y" then some (o.y != 0)
  else if k = "w" then some (o.w != 0)
  else if k = "h" then some (o.h != 0)
  else none

/-- Truthiness of `nodeMap[k]` for a key `k` that is no entry of `nodeMap`
(`nodeMap k = none`): the value comes from the prototype chain and is never a
record; `none` stands for `undefined`.  Reading `__proto__` gives the prototype
itself, here `Object.prototype`; otherwise the fields of the record that was
made the prototype come first, then the members of `Object.prototype`. -/
def inherited (nodeMap : NodeMap) (heap : List Node) (k : String) : Option Bool :=
  if k = "__proto__" then some true
  else
    match ((nodeMap "__proto__").bind (fun p => heap[p]?)).bind (fun o => fieldTruthy o k) with
    | some b => some b
    | none => if k ∈ objectPrototypeKeys then some true else none

/-- The value of `n.parent && nodeMap[n.parent]` is truthy and is not a record:
its `children` is `undefined` and its `x` and `y` are `undefined`. -/
def parentIsForeign (nodeMap : NodeMap) (heap : List Node) (parent : Option String) : Bool :=
  truthy parent && (nodeMap (parent.getD "")).isNone
    && (inherited nodeMap heap (parent.getD "") == some true)

/-- Effect of `nodeMap[n.parent].children.push(n)`. -/
def pushChild (heap : List Node) (p i : Nat) : List Node :=
  modifyAt (fun o => { o with children := o.children ++ [i] }) heap p

/-- The second `forEach` of `processGraph` ("Build hierarchy"): the state is the
objects and `rootNode`; `none` is the TypeError that
`nodeMap[n.parent].children.push(n)` throws when `nodeMap[n.parent]` is truthy
and is not a record. -/
def linkAll (nodeMap : NodeMap) :
    List Record → Nat → List Node × Option Nat → Option (List Node × Option Nat)
  | [], _, st => some st
  | n :: rest, i, st =>
    match parentOf nodeMap n.parent with
    | some p => linkAll nodeMap rest (i + 1) (pushChild st.1 p i, st.2)
    | none =>
      if parentIsForeign nodeMap st.1 n.parent then none
      else linkAll nodeMap rest (i + 1) (st.1, if st.2.isNone then some i else st.2)

/-- The hierarchy loop with its exit by TypeError left out: the state that
`linkAll` returns whenever it returns one (`linkAll_eq`). -/
def linkAllPure (nodeMap : NodeMap) :
    List Record → Nat → List Node × Option Nat → List Node × Option Nat
  | [], _, st => st
  | n :: rest, i, st =>
    linkAllPure nodeMap rest (i + 1)
      (match parentOf nodeMap n.parent with
       | some p => (pushChild st.1 p i, st.2)
       | none => (st.1, if st.2.isNone then some i else st.2))

/-- The object graph below an object, as a tree: `ref` is the object, `value`,
`x`, `y`, `w`, `h` its mutable fields, `children` the trees of its children. -/
inductive Tree where
  | node (ref : Nat) (value x y w h : ℚ) (children : List Tree)
deriving Repr

namespace Tree

def ref : Tree → Nat
  | node r _ _ _ _ _ _ => r

def value : Tree → ℚ
  | node _ v _ _ _ _ _ => v

def x : Tree → ℚ
  | node _ _ x _ _ _ _ => x

def y : Tree → ℚ
  | node _ _ _ y _ _ _ => y

def w : Tree → ℚ
  | node _ _ _ _ w _ _ => w

def h : Tree → ℚ
  | node _ _ _ _ _ h _ => h

def children : Tree → List Tree
  | node _ _ _ _ _ _ cs => cs

end Tree

/-- All results of a list of walks, when every one of them ended. -/
def allSome : List (Option Tree) → Option (List Tree)
  | [] => some []
  | none :: _ => none
  | some t :: rest => (allSome rest).map (fun ts => t :: ts)

/-- Follow the `children` references from object `i`; `none` when the fuel runs
out before the walk ends. -/
def toTree (heap : List Node) : Nat → Nat → Option Tree
  | 0, _ => none
  | fuel + 1, i =>
    match heap[i]? with
    | none => none
    | some o =>
      (allSome (o.children.map (toTree heap fuel))).map (Tree.node i o.value o.x o.y o.w o.h)

/-! ## Aggregation -/

mutual
/-- Source `calcValues`: the first component is the node after the assignment to
`node.value`, the second the returned number `node.value || 1`. -/
def calcValues : Tree → Tree × ℚ
  | .node ref value x y w h children =>
    let r := calcChildren children 0
    let v := if children.length > 0 then r.2 else value
    (.node ref v x y w h r.1, if v = 0 then 1 else v)
/-- The `reduce((acc, child) => acc + calcValues(child), 0)` of `calcValues`,
started from `acc`. -/
def calcChildren : List Tree → ℚ → List Tree × ℚ
  | [], acc => ([], acc)
  | c :: cs, acc =>
    let r := calcValues c
    let rest := calcChildren cs (acc + r.2)
    (r.1 :: rest.1, rest.2)
end

/-! ## Layout -/

/-- The `reduce((acc, c) => acc + c.value, 0)` of `computeTreemapLayout`. -/
def totalValue (children : List Tree) : ℚ :=
  children.foldl (fun acc c => acc + c.value) 0

mutual
/-- Source `computeTreemapLayout`. -/
def computeTreemapLayout : Tree → ℚ → ℚ → ℚ → ℚ → Bool → Tree
  | .node ref value _ _ _ _ children, x, y, w, h, isVertical =>
    .node ref value x y w h
      (layoutChildren children (totalValue children) x y w h isVertical
        (if isVertical then y else x))
/-- The `node.children.forEach` loop of `computeTreemapLayout`, with the running
`currentPos`. -/
def layoutChildren : List Tree → ℚ → ℚ → ℚ → ℚ → ℚ → Bool → ℚ → List Tree
  | [], _, _, _, _, _, _, _ => []
  | child :: rest, total, x, y, w, h, isVertical, currentPos =>
    let ratio := child.value / total
    if isVertical then
      let childH := h * ratio
      computeTreemapLayout child x currentPos w childH (!isVertical)
        :: layoutChildren rest total x y w h isVertical (currentPos + childH)
    else
      let childW := w * ratio
      computeTreemapLayout child currentPos y childW h (!isVertical)
        :: layoutChildren rest total x y w h isVertical (currentPos + childW)
end

mutual
/-- Store the fields of every node of a tree on its object. -/
def writeBack : Tree → List Node → List Node
  | .node ref value x y w h children, heap =>
    writeBackList children
      (modifyAt (fun o => { o with value := value, x := x, y := y, w := w, h := h }) heap ref)
def writeBackList : List Tree → List Node → List Node
  | [], heap => heap
  | c :: cs, heap => writeBackList cs (writeBack c heap)
end

/-! ## Emission -/

/-- `Math.round`: the nearest integer, halves rounded up. -/
def mathRound (v : ℚ) : ℤ := ⌊v + 1 / 2⌋

/-- The `mxGeometry` element of a cell; `none` in `x` or `y` is `NaN`. -/
structure Geometry where
  x : Option ℤ
  y : Option ℤ
  width : ℤ
  height : ℤ
deriving DecidableEq, Repr

/-- An `mxCell` element.  `value` keeps the label and the number that the
source prints after it. -/
structure Cell where
  id : String
  value : Option (String × ℚ)
  style : Option String
  parent : Option String
  vertex : Bool
  geometry : Option Geometry
deriving DecidableEq, Repr

/-- The cell built for one record by the `forEach` of `generateDrawioXML`. -/
def emitCell (processedNodes : List Node) (nodeMap : NodeMap) (node : Node) : Cell :=
  let isLeaf : Bool := node.children.length == 0
  let color := if isLeaf then "#dae8fc" else "#f5f5f5"
  let stroke := if isLeaf then "#6c8ebf" else "#666666"
  let align := if isLeaf then "center" else "left"
  let vAlign := if isLeaf then "middle" else "top"
  let style := "html=1;whiteSpace=wrap;fillColor=" ++ color ++ ";strokeColor=" ++ stroke
    ++ ";align=" ++ align ++ ";verticalAlign=" ++ vAlign ++ ";spacing=5;fontStyle="
    ++ (if isLeaf then "0" else "1")
  let safeId := "cell_" ++ node.id
  let safeParent := if truthy node.parent then "cell_" ++ node.parent.getD "" else "1"
  let container : Option Node := (parentOf nodeMap node.parent).bind (fun p => processedNodes[p]?)
  let foreign := parentIsForeign nodeMap processedNodes node.parent
  let finalX : Option ℚ := match container with
    | some p => some (node.x - p.x)
    | none => if foreign then none else some node.x
  let finalY : Option ℚ := match container with
    | some p => some (node.y - p.y)
    | none => if foreign then none else some node.y
  { id := safeId, value := some (node.label, node.value), style := some style,
    parent := some safeParent, vertex := true,
    geometry := some { x := finalX.map mathRound, y := finalY.map mathRound,
                       width := mathRound node.w, height := mathRound node.h } }

/-- Source `generateDrawioXML`: the children of the `root` element, in order. -/
def generateDrawioXML (processedNodes : List Node) (nodeMap : NodeMap) : List Cell :=
  { id := "0", value := none, style := none, parent := none, vertex := false, geometry := none }
    :: { id := "1", value := none, style := none, parent := some "0", vertex := false,
         geometry := none }
    :: processedNodes.map (emitCell processedNodes nodeMap)

/-! ## The pipeline -/

/-- What a run of `processGraph` does. -/
inductive Outcome where
  -- the branch that prints "Error: No root node found (node with empty parent)."
  | noRoot
  -- the branch taken when rootNode is set: the objects after layout, the tree
  -- below the root after layout, and the emitted cells
  | done (heap : List Node) (tree : Tree) (cells : List Cell)
  -- the walk from the root did not end within the fuel
  | outOfFuel
  -- the hierarchy loop threw a TypeError: nothing is aggregated, laid out or
  -- emitted
  | typeError
deriving Repr

/-- The state after the two loops of `processGraph`: objects with their
`children`, and `rootNode`; `none` when the second loop throws. -/
def buildHierarchy (flatNodes : List Record) : Option (List Node × Option Nat) :=
  linkAll (buildMap flatNodes 0 (fun _ => none)) flatNodes 0 (initNodes flatNodes, none)

/-- The state after the two loops with the exit by TypeError left out: what
`buildHierarchy` returns whenever it returns a state (`buildHierarchy_eq`). -/
def pureHierarchy (flatNodes : List Record) : List Node × Option Nat :=
  linkAllPure (buildMap flatNodes 0 (fun _ => none)) flatNodes 0 (initNodes flatNodes, none)

/-- Some iteration of the hierarchy loop throws. -/
def throwsTypeError (flatNodes : List Record) : Bool :=
  flatNodes.any (fun n =>
    parentIsForeign (buildMap flatNodes 0 (fun _ => none)) (initNodes flatNodes) n.parent)

/-- Source `processGraph`, with `parseInt(options.width)` and
`parseInt(options.height)` as `width` and `height`. -/
def processGraph (flatNodes : List Record) (width height : ℤ) : Outcome :=
  let nodeMap := buildMap flatNodes 0 (fun _ => none)
  match buildHierarchy flatNodes with
  | none => .typeError
  | some st =>
    match st.2 with
    | none => .noRoot
    | some rootNode =>
      match toTree st.1 flatNodes.length rootNode with
      | none => .outOfFuel
      | some t =>
        let laid := computeTreemapLayout (calcValues t).1 0 0 width height true
        let heap := writeBack laid st.1
        .done heap laid (generateDrawioXML heap nodeMap)

/-- The tree below the root after a run that reached the layout. -/
def Outcome.tree : Outcome → Option Tree
  | .done _ tree _ => some tree
  | _ => none

/-- The objects after a run that reached the layout. -/
def Outcome.heap : Outcome → Option (List Node)
  | .done heap _ _ => some heap
  | _ => none

/-- The emitted cells of a run that reached the emitter. -/
def Outcome.cells : Outcome → Option (List Cell)
  | .done _ _ cells => some cells
  | _ => none

/-! ## Vocabulary of the statements -/

/-- A record lacks a resolvable parent: its parent is empty (`null` or `""`) or
is not the id of any record. -/
def unparented (flatNodes : List Record) (n : Record) : Bool :=
  !truthy n.parent || !flatNodes.any (fun m => m.id == n.parent.getD "")

/-- The positions, counted from `i`, of the records of a list whose parent
resolves to the object `p`, in input order. -/
def childrenOf (nodeMap : NodeMap) : List Record → Nat → Nat → List Nat
  | [], _, _ => []
  | n :: rest, i, p =>
    if parentOf nodeMap n.parent = some p then i :: childrenOf nodeMap rest (i + 1) p
    else childrenOf nodeMap rest (i + 1) p

/-- The position, counted from `i`, of the first record of a list whose parent
does not resolve. -/
def firstRoot (nodeMap : NodeMap) : List Record → Nat → Option Nat
  | [], _ => none
  | n :: rest, i =>
    if parentOf nodeMap n.parent = none then some i else firstRoot nodeMap rest (i + 1)

/-- The object that the parent of record `j` resolves to. -/
def parentIndex (flatNodes : List Record) (j : Nat) : Option Nat :=
  flatNodes[j]?.bind (fun n => parentOf (buildMap flatNodes 0 (fun _ => none)) n.parent)

/-- The object reached from `j` by `d` parent steps. -/
def ancestor (flatNodes : List Record) : Nat → Nat → Option Nat
  | 0, j => some j
  | d + 1, j => (parentIndex flatNodes j).bind (ancestor flatNodes d)

mutual
/-- Every node of a tree, as the subtree below it (the tree itself first). -/
def subtrees : Tree → List Tree
  | .node ref value x y w h children =>
    .node ref value x y w h children :: subtreesList children
/-- Every node of a list of trees. -/
def subtreesList : List Tree → List Tree
  | [] => []
  | c :: cs => subtrees c ++ subtreesList cs
end

/-- The objects that occur as nodes of a tree. -/
def refs (t : Tree) : List Nat :=
  (subtrees t).map Tree.ref

/-- A node with two leaves of values 3 and 1, before layout. -/
def exampleTree : Tree :=
  .node 0 4 0 0 0 0 [.node 1 3 0 0 0 0 [], .node 2 1 0 0 0 0 []]

/-- The object of a node after `calcValues` and `computeTreemapLayout` assigned
`value`, `x`, `y`, `w` and `h` of the node to it. -/
def storeOn (s : Tree) (o : Node) : Node :=
  { o with value := s.value, x := s.x, y := s.y, w := s.w, h := s.h }

/-- What identifies a node and what the aggregation keeps of it: its object, the
objects of its children, and its value when it is a leaf. -/
def leafInfo (s : Tree) : Nat × List Nat × Option ℚ :=
  (s.ref, s.children.map Tree.ref, if s.children.isEmpty then some s.value else none)

/-- The records A (no parent, value 0), B (parent A, value 3), C (parent A,
value 1) of the worked example. -/
def abcRecords : List Record :=
  [⟨"A", none, 0, "A"⟩, ⟨"B", some "A", 3, "B"⟩, ⟨"C", some "A", 1, "C"⟩]

/-- The objects of the worked example after a run on an 800 x 600 canvas. -/
def abcHeap : List Node :=
  [⟨"A", none, 4, "A", [1, 2], 0, 0, 800, 600⟩, ⟨"B", some "A", 3, "B", [], 0, 0, 800, 450⟩,
    ⟨"C", some "A", 1, "C", [], 0, 450, 800, 150⟩]

/-- The tree of the worked example after a run on an 800 x 600 canvas. -/
def abcTree : Tree :=
  .node 0 4 0 0 800 600 [.node 1 3 0 0 800 450 [], .node 2 1 0 450 800 150 []]

/-- The cells of the worked example. -/
def abcCells : List Cell :=
  generateDrawioXML abcHeap (buildMap abcRecords 0 (fun _ => none))

/-- The nodes of a tree at depth `d` (the root is at depth 0). -/
def atDepth : Nat → Tree → List Tree
  | 0, t => [t]
  | d + 1, t => t.children.foldr (fun c acc => atDepth d c ++ acc) []
/-- A tree of depth two, before layout: the root has an internal child with two
leaves and a leaf child. -/
def nestedTree : Tree :=
  .node 0 4 0 0 0 0 [.node 1 2 0 0 0 0 [.node 3 1 0 0 0 0 [], .node 4 1 0 0 0 0 []],
    .node 2 2 0 0 0 0 []]

/-- The positions, counted from `i`, of the records of a list whose parent field
equals `k`, in input order. -/
def recordsWithParent (k : String) : List Record → Nat → List Nat
  | [], _ => []
  | n :: rest, i =>
    if n.parent = some k then i :: recordsWithParent k rest (i + 1)
    else recordsWithParent k rest (i + 1)

mutual
/-- The sum, over the leaves of a subtree, of the floored leaf weight: the value
of the leaf if it is positive, otherwise 1. -/
def leafWeight : Tree → ℚ
  | .node _ value _ _ _ _ children =>
    if children.length > 0 then leafWeightList children
    else if 0 < value then value else 1
/-- The floored leaf weights of a list of subtrees, summed. -/
def leafWeightList : List Tree → ℚ
  | [] => 0
  | c :: cs => leafWeight c + leafWeightList cs
end

mutual
/-- The number of leaves of a subtree. -/
def leafCount : Tree → Nat
  | .node _ _ _ _ _ _ children =>
    if children.length > 0 then leafCountList children else 1
/-- The number of leaves of a list of subtrees. -/
def leafCountList : List Tree → Nat
  | [] => 0
  | c :: cs => leafCount c + leafCountList cs
end

/-- A root with two leaves of raw values 0 and 3, before aggregation. -/
def zeroLeafTree : Tree :=
  .node 0 0 0 0 0 0 [.node 1 0 0 0 0 0 [], .node 2 3 0 0 0 0 []]

mutual
/-- A tree with the stored value of every node that has children replaced by 0:
what `calcValues` reads of a tree. -/
def dropInternal : Tree → Tree
  | .node ref value x y w h children =>
    .node ref (if children.length > 0 then 0 else value) x y w h (dropInternalList children)
/-- The children of a node with the values of internal nodes replaced by 0. -/
def dropInternalList : List Tree → List Tree
  | [] => []
  | c :: cs => dropInternal c :: dropInternalList cs
end

/-- The record that an object is when `processGraph` receives it again: `id`,
`parent`, `value` and `label` as they stand; the first loop overwrites
`children`, `x`, `y`, `w` and `h`. -/
def toRecord (o : Node) : Record :=
  { id := o.id, parent := o.parent, value := o.value, label := o.label }

/-- The record list made of the objects of a finished run. -/
def toRecords (heap : List Node) : List Record :=
  heap.map toRecord

/-! ## IEEE 754 binary64: the arithmetic of the source -/

/-- The power `2 ^ u` of two as a rational number. -/
def pow2 (u : ℤ) : ℚ :=
  if u < 0 then 1 / ((2 ^ (-u).toNat : ℕ) : ℚ) else ((2 ^ u.toNat : ℕ) : ℚ)

/-- The number of binary digits of `n`, for `n ≤ fuel`. -/
def bitLength : Nat → Nat → Nat
  | 0, _ => 0
  | fuel + 1, n => if n = 0 then 0 else bitLength fuel (n / 2) + 1

/-- The integer `e` with `2 ^ e ≤ q < 2 ^ (e + 1)`, for a rational `q > 0`: the
difference `a` of the bit lengths of numerator and denominator has
`2 ^ (a - 1) < q < 2 ^ (a + 1)`. -/
def floorLog2 (q : ℚ) : ℤ :=
  let a : ℤ := (bitLength q.num.natAbs q.num.natAbs : ℤ) - (bitLength q.den q.den : ℤ)
  if pow2 a ≤ q then a else a - 1

/-- The integer nearest to a rational, a tie going to the even integer. -/
def roundHalfEven (s : ℚ) : ℤ :=
  let f := ⌊s⌋
  if s - f < 1 / 2 then f
  else if 1 / 2 < s - f then f + 1
  else if f % 2 = 0 then f else f + 1

/-- A JavaScript number (IEEE 754 binary64): a finite value is given by the
rational number it denotes, `inf true` is `-Infinity`.  The zeros `+0` and `-0`
are one value `fin 0`: the program never tells them apart (both are falsy, both
print as `0`, and its only divisor, `totalValue`, is a sum started from `+0`,
which is never `-0`). -/
inductive Dbl where
  | fin (q : ℚ)
  | inf (negative : Bool)
  | nan
deriving DecidableEq, Repr

namespace Dbl

/-- The binary64 value of an exact result: round to nearest, ties to even, with
53 significant bits, gradual underflow below `2 ^ (-1022)` and overflow to an
infinity from `2 ^ 1024` on. -/
def ofRat (q : ℚ) : Dbl :=
  if q = 0 then .fin 0
  else
    let ulp := pow2 (max (floorLog2 |q| - 52) (-1074))
    let r : ℚ := roundHalfEven (q / ulp) * ulp
    if pow2 1024 ≤ |r| then .inf (decide (q < 0)) else .fin r

/-- JavaScript truthiness of a number: `0` and `NaN` are falsy. -/
def truthy : Dbl → Bool
  | fin q => q != 0
  | inf _ => true
  | nan => false

/-- Unary minus. -/
def neg : Dbl → Dbl
  | fin q => fin (-q)
  | inf s => inf (!s)
  | nan => nan

/-- The operator `+`. -/
def add : Dbl → Dbl → Dbl
  | fin a, fin b => ofRat (a + b)
  | fin _, inf s => inf s
  | inf s, fin _ => inf s
  | inf s, inf t => if s = t then inf s else nan
  | fin _, nan => nan
  | inf _, nan => nan
  | nan, _ => nan

/-- The operator `-`. -/
def sub (a b : Dbl) : Dbl := add a (neg b)

/-- The operator `*`. -/
def mul : Dbl → Dbl → Dbl
  | fin a, fin b => ofRat (a * b)
  | fin a, inf s => if a = 0 then nan else inf (xor (decide (a < 0)) s)
  | inf s, fin b => if b = 0 then nan else inf (xor s (decide (b < 0)))
  | inf s, inf t => inf (xor s t)
  | fin _, nan => nan
  | inf _, nan => nan
  | nan, _ => nan

/-- The operator `/`; a zero divisor is `+0`. -/
def div : Dbl → Dbl → Dbl
  | fin a, fin b =>
    if b = 0 then (if a = 0 then nan else inf (decide (a < 0))) else ofRat (a / b)
  | fin _, inf _ => fin 0
  | inf s, fin b => inf (xor s (decide (b < 0)))
  | inf _, inf _ => nan
  | fin _, nan => nan
  | inf _, nan => nan
  | nan, _ => nan

/-- `Math.round`: the nearest integer, halves rounded up; `NaN` and the
infinities are returned as they are. -/
def round : Dbl → Dbl
  | fin q => fin (⌊q + 1 / 2⌋ : ℤ)
  | inf s => inf s
  | nan => nan

instance : Add Dbl := ⟨add⟩
instance : Sub Dbl := ⟨sub⟩
instance : Mul Dbl := ⟨mul⟩
instance : Div Dbl := ⟨div⟩
instance : OfNat Dbl 0 := ⟨fin 0⟩
instance : OfNat Dbl 1 := ⟨fin 1⟩

end Dbl

/-! ## The pipeline over binary64

The definitions of the pipeline once more, with `Dbl` for the type of numbers
and nothing else changed. -/

namespace D

/-- A row as pushed by the CSV reader; `value` is `parseFloat(data.value) || 0`,
which can be an infinity. -/
structure Record where
  id : String
  parent : Option String
  value : Dbl
  label : String
deriving DecidableEq, Repr

/-- A record object once the first loop of `processGraph` has added `children`,
`x`, `y`, `w` and `h` to it. -/
structure Node where
  id : String
  parent : Option String
  value : Dbl
  label : String
  children : List Nat
  x : Dbl
  y : Dbl
  w : Dbl
  h : Dbl
deriving DecidableEq, Repr

/-- The object created for a record by `n.children = []; n.x = 0; ...`. -/
def initNode (n : Record) : Node :=
  { id := n.id, parent := n.parent, value := n.value, label := n.label,
    children := [], x := 0, y := 0, w := 0, h := 0 }

/-- The objects after the first `forEach` of `processGraph`. -/
def initNodes (flatNodes : List Record) : List Node :=
  flatNodes.map initNode

/-- The assignments `nodeMap[n.id] = n` of the first `forEach`, in input order. -/
def buildMap : List Record → Nat → NodeMap → NodeMap
  | [], _, m => m
  | n :: rest, i, m => buildMap rest (i + 1) (fun k => if k = n.id then some i else m k)

/-- Apply `f` to the object at position `i`. -/
def modifyAt (f : Node → Node) : List Node → Nat → List Node
  | [], _ => []
  | o :: rest, 0 => f o :: rest
  | o :: rest, i + 1 => o :: modifyAt f rest i

/-- Truthiness of the field `k` of a record object, `none` when the object has
no such field. -/
def fieldTruthy (o : Node) (k : String) : Option Bool :=
  if k = "id" then some (o.id != "")
  else if k = "parent" then some (Treemap.truthy o.parent)
  else if k = "value" then some o.value.truthy
  else if k = "label" then some (o.label != "")
  else if k = "children" then some true
  else if k = "x" then some o.x.truthy
  else if k = "y" then some o.y.truthy
  else if k = "w" then some o.w.truthy
  else if k = "h" then some o.h.truthy
  else none

/-- Truthiness of `nodeMap[k]` for a key `k` that is no entry of `nodeMap`. -/
def inherited (nodeMap : NodeMap) (heap : List Node) (k : String) : Option Bool :=
  if k = "__proto__" then some true
  else
    match ((nodeMap "__proto__").bind (fun p => heap[p]?)).bind (fun o => fieldTruthy o k) with
    | some b => some b
    | none => if k ∈ objectPrototypeKeys then some true else none

/-- The value of `n.parent && nodeMap[n.parent]` is truthy and is not a record. -/
def parentIsForeign (nodeMap : NodeMap) (heap : List Node) (parent : Option String) : Bool :=
  Treemap.truthy parent && (nodeMap (parent.getD "")).isNone
    && (inherited nodeMap heap (parent.getD "") == some true)

/-- Effect of `nodeMap[n.parent].children.push(n)`. -/
def pushChild (heap : List Node) (p i : Nat) : List Node :=
  modifyAt (fun o => { o with children := o.children ++ [i] }) heap p

/-- The second `forEach` of `processGraph`; `none` is the TypeError. -/
def linkAll (nodeMap : NodeMap) :
    List Record → Nat → List Node × Option Nat → Option (List Node × Option Nat)
  | [], _, st => some st
  | n :: rest, i, st =>
    match parentOf nodeMap n.parent with
    | some p => linkAll nodeMap rest (i + 1) (pushChild st.1 p i, st.2)
    | none =>
      if parentIsForeign nodeMap st.1 n.parent then none
      else linkAll nodeMap rest (i + 1) (st.1, if st.2.isNone then some i else st.2)

/-- The object graph below an object, as a tree. -/
inductive Tree where
  | node (ref : Nat) (value x y w h : Dbl) (children : List Tree)
deriving Repr

namespace Tree

def ref : Tree → Nat
  | node r _ _ _ _ _ _ => r

def value : Tree → Dbl
  | node _ v _ _ _ _ _ => v

def x : Tree → Dbl
  | node _ _ x _ _ _ _ => x

def y : Tree → Dbl
  | node _ _ _ y _ _ _ => y

def w : Tree → Dbl
  | node _ _ _ _ w _ _ => w

def h : Tree → Dbl
  | node _ _ _ _ _ h _ => h

def children : Tree → List Tree
  | node _ _ _ _ _ _ cs => cs

end Tree

/-- All results of a list of walks, when every one of them ended. -/
def allSome : List (Option Tree) → Option (List Tree)
  | [] => some []
  | none :: _ => none
  | some t :: rest => (allSome rest).map (fun ts => t :: ts)

/-- Follow the `children` references from object `i`. -/
def toTree (heap : List Node) : Nat → Nat → Option Tree
  | 0, _ => none
  | fuel + 1, i =>
    match heap[i]? with
    | none => none
    | some o =>
      (allSome (o.children.map (toTree heap fuel))).map (Tree.node i o.value o.x o.y o.w o.h)

mutual
/-- Source `calcValues`: the node after the assignment to `node.value`, and the
returned number `node.value || 1`. -/
def calcValues : Tree → Tree × Dbl
  | .node ref value x y w h children =>
    let r := calcChildren children 0
    let v := if children.length > 0 then r.2 else value
    (.node ref v x y w h r.1, if v.truthy then v else 1)
/-- The `reduce((acc, child) => acc + calcValues(child), 0)` of `calcValues`,
started from `acc`. -/
def calcChildren : List Tree → Dbl → List Tree × Dbl
  | [], acc => ([], acc)
  | c :: cs, acc =>
    let r := calcValues c
    let rest := calcChildren cs (acc + r.2)
    (r.1 :: rest.1, rest.2)
end

/-- The `reduce((acc, c) => acc + c.value, 0)` of `computeTreemapLayout`. -/
def totalValue (children : List Tree) : Dbl :=
  children.foldl (fun acc c => acc + c.value) 0

mutual
/-- Source `computeTreemapLayout`. -/
def computeTreemapLayout : Tree → Dbl → Dbl → Dbl → Dbl → Bool → Tree
  | .node ref value _ _ _ _ children, x, y, w, h, isVertical =>
    .node ref value x y w h
      (layoutChildren children (totalValue children) x y w h isVertical
        (if isVertical then y else x))
/-- The `node.children.forEach` loop of `computeTreemapLayout`, with the running
`currentPos`. -/
def layoutChildren : List Tree → Dbl → Dbl → Dbl → Dbl → Dbl → Bool → Dbl → List Tree
  | [], _, _, _, _, _, _, _ => []
  | child :: rest, total, x, y, w, h, isVertical, currentPos =>
    let ratio := child.value / total
    if isVertical then
      let childH := h * ratio
      computeTreemapLayout child x currentPos w childH (!isVertical)
        :: layoutChildren rest total x y w h isVertical (currentPos + childH)
    else
      let childW := w * ratio
      computeTreemapLayout child currentPos y childW h (!isVertical)
        :: layoutChildren rest total x y w h isVertical (currentPos + childW)
end

mutual
/-- Store the fields of every node of a tree on its object. -/
def writeBack : Tree → List Node → List Node
  | .node ref value x y w h children, heap =>
    writeBackList children
      (modifyAt (fun o => { o with value := value, x := x, y := y, w := w, h := h }) heap ref)
def writeBackList : List Tree → List Node → List Node
  | [], heap => heap
  | c :: cs, heap => writeBackList cs (writeBack c heap)
end

/-- The `mxGeometry` element of a cell. -/
structure Geometry where
  x : Dbl
  y : Dbl
  width : Dbl
  height : Dbl
deriving DecidableEq, Repr

/-- An `mxCell` element. -/
structure Cell where
  id : String
  value : Option (String × Dbl)
  style : Option String
  parent : Option String
  vertex : Bool
  geometry : Option Geometry
deriving DecidableEq, Repr

/-- The cell built for one record by the `forEach` of `generateDrawioXML`;
`node.x - v.x` is `NaN` when `v` is not a record. -/
def emitCell (processedNodes : List Node) (nodeMap : NodeMap) (node : Node) : Cell :=
  let isLeaf : Bool := node.children.length == 0
  let color := if isLeaf then "#dae8fc" else "#f5f5f5"
  let stroke := if isLeaf then "#6c8ebf" else "#666666"
  let align := if isLeaf then "center" else "left"
  let vAlign := if isLeaf then "middle" else "top"
  let style := "html=1;whiteSpace=wrap;fillColor=" ++ color ++ ";strokeColor=" ++ stroke
    ++ ";align=" ++ align ++ ";verticalAlign=" ++ vAlign ++ ";spacing=5;fontStyle="
    ++ (if isLeaf then "0" else "1")
  let safeId := "cell_" ++ node.id
  let safeParent := if Treemap.truthy node.parent then "cell_" ++ node.parent.getD "" else "1"
  let container : Option Node := (parentOf nodeMap node.parent).bind (fun p => processedNodes[p]?)
  let foreign := parentIsForeign nodeMap processedNodes node.parent
  let finalX : Dbl := match container with
    | some p => node.x - p.x
    | none => if foreign then .nan else node.x
  let finalY : Dbl := match container with
    | some p => node.y - p.y
    | none => if foreign then .nan else node.y
  { id := safeId, value := some (node.label, node.value), style := some style,
    parent := some safeParent, vertex := true,
    geometry := some { x := finalX.round, y := finalY.round,
                       width := node.w.round, height := node.h.round } }

/-- Source `generateDrawioXML`: the children of the `root` element, in order. -/
def generateDrawioXML (processedNodes : List Node) (nodeMap : NodeMap) : List Cell :=
  { id := "0", value := none, style := none, parent := none, vertex := false, geometry := none }
    :: { id := "1", value := none, style := none, parent := some "0", vertex := false,
         geometry := none }
    :: processedNodes.map (emitCell processedNodes nodeMap)

/-- What a run of `processGraph` does. -/
inductive Outcome where
  | noRoot
  | done (heap : List Node) (tree : Tree) (cells : List Cell)
  | outOfFuel
  | typeError
deriving Repr

/-- The state after the two loops of `processGraph`. -/
def buildHierarchy (flatNodes : List Record) : Option (List Node × Option Nat) :=
  linkAll (buildMap flatNodes 0 (fun _ => none)) flatNodes 0 (initNodes flatNodes, none)

/-- Source `processGraph`, with `parseInt(options.width)` and
`parseInt(options.height)` as `width` and `height`. -/
def processGraph (flatNodes : List Record) (width height : ℤ) : Outcome :=
  let nodeMap := buildMap flatNodes 0 (fun _ => none)
  match buildHierarchy flatNodes with
  | none => .typeError
  | some st =>
    match st.2 with
    | none => .noRoot
    | some rootNode =>
      match toTree st.1 flatNodes.length rootNode with
      | none => .outOfFuel
      | some t =>
        let laid := computeTreemapLayout (calcValues t).1 0 0
          (Dbl.ofRat width) (Dbl.ofRat height) true
        let heap := writeBack laid st.1
        .done heap laid (generateDrawioXML heap nodeMap)

/-- The tree below the root after a run that reached the layout. -/
def Outcome.tree : Outcome → Option Tree
  | .done _ tree _ => some tree
  | _ => none

/-- The objects after a run that reached the layout. -/
def Outcome.heap : Outcome → Option (List Node)
  | .done heap _ _ => some heap
  | _ => none

/-- The emitted cells of a run that reached the emitter. -/
def Outcome.cells : Outcome → Option (List Cell)
  | .done _ _ cells => some cells
  | _ => none

end D

/-- A root with three leaves of raw value 1, before aggregation (binary64). -/
def threeLeaves : D.Tree :=
  .node 0 0 0 0 0 0 [.node 1 1 0 0 0 0 [], .node 2 1 0 0 0 0 [], .node 3 1 0 0 0 0 []]

/-- The records R (no parent) and a, b, c (children of R, value 1 each). -/
def threeLeafRecords : List D.Record :=
  [⟨"R", none, 0, "R"⟩, ⟨"a", some "R", 1, "a"⟩, ⟨"b", some "R", 1, "b"⟩, ⟨"c", some "R", 1, "c"⟩]

/-- The records R (no parent), A (child of R, value `Infinity`) and B (child of
R, value 1). -/
def infiniteLeafRecords : List D.Record :=
  [⟨"R", none, 0, "R"⟩, ⟨"A", some "R", .inf false, "A"⟩, ⟨"B", some "R", 1, "B"⟩]

/-- The records R (no parent), A (child of R, value 0.1), M (child of R) and B, C
(children of M, values 0.2 and 0.3); the values are the binary64 numbers that
`parseFloat` gives for "0.1", "0.2" and "0.3". -/
def decimalLeafRecords : List D.Record :=
  [⟨"R", none, 0, "R"⟩, ⟨"A", some "R", Dbl.ofRat (1 / 10), "A"⟩, ⟨"M", some "R", 0, "M"⟩,
    ⟨"B", some "M", Dbl.ofRat (2 / 10), "B"⟩, ⟨"C", some "M", Dbl.ofRat (3 / 10), "C"⟩]

/-! ## Aggregation: the floor of 1 is returned but not stored -/

/-- C1 (code evaluated at the failing input): for the records A (root, value 0),
B (child of A, value 0) and C (child of A, value 3) on an 800 x 600 canvas the
leaf B ends with height 0, and its emitted cell has height 0: the floor of 1 is
only returned by `calcValues`, the layout reads the stored 0. -/
theorem C1_zero_value_leaf_has_zero_height :
    ∃ heap tree cells,
      processGraph [⟨"A", none, 0, "A"⟩, ⟨"B", some "A", 0, "B"⟩, ⟨"C", some "A", 3, "C"⟩]
          800 600 = .done heap tree cells ∧
      heap[1]?.map Node.id = some "B" ∧ heap[1]?.map Node.h = some 0 ∧
      (cells[3]?.bind Cell.geometry).map Geometry.height = some 0 := by
  refine ⟨_, _, _, rfl, ?_⟩
  simp [buildHierarchy, linkAll, parentIsForeign, initNodes, initNode, parentOf, truthy, toTree,
    allSome, calcValues, calcChildren, computeTreemapLayout, layoutChildren, writeBack,
    writeBackList, modifyAt, buildMap, pushChild, totalValue, Tree.value, generateDrawioXML,
    emitCell, mathRound]
  norm_num

/-- C2 (code evaluated at the failing input): a single unparented record A with
no children and raw value 0 becomes the root with the full canvas box, but the
value stored on it, which the emitter prints, stays 0 and is not floored to 1;
the floored 1 is only the number returned by `calcValues`. -/
theorem C2_leaf_value_stays_raw :
    processGraph [⟨"A", none, 0, "A"⟩] 800 600 =
      .done [⟨"A", none, 0, "A", [], 0, 0, 800, 600⟩] (.node 0 0 0 0 800 600 [])
        (generateDrawioXML [⟨"A", none, 0, "A", [], 0, 0, 800, 600⟩]
          (buildMap [⟨"A", none, 0, "A"⟩] 0 (fun _ => none))) ∧
    (calcValues (.node 0 0 0 0 0 0 [])).1.value = 0 ∧
    (calcValues (.node 0 0 0 0 0 0 [])).2 = 1 := by
  refine ⟨?_, ?_, ?_⟩
  · simp [processGraph, buildHierarchy, linkAll, initNodes, initNode, parentOf, truthy, toTree,
      allSome, calcValues, calcChildren, computeTreemapLayout, layoutChildren, writeBack,
      writeBackList, modifyAt, parentIsForeign]
  · simp [calcValues, calcChildren, Tree.value]
  · simp [calcValues, calcChildren]

/-- C3 (code evaluated at the failing input): for the records A (root), B (child
of A, value 0) and C (child of A, value 3) the value stored on A is 4 while the
values stored on its children sum to 3, the total that the layout divides by. -/
theorem C3_parent_value_differs_from_children_total :
    ∃ heap tree cells,
      processGraph [⟨"A", none, 0, "A"⟩, ⟨"B", some "A", 0, "B"⟩, ⟨"C", some "A", 3, "C"⟩]
          800 600 = .done heap tree cells ∧
      tree.value = 4 ∧ tree.children.map Tree.value = [0, 3] ∧
      totalValue tree.children = 3 := by
  refine ⟨_, _, _, rfl, ?_⟩
  simp [buildHierarchy, linkAll, parentIsForeign, initNodes, initNode, parentOf, truthy, toTree,
    allSome, calcValues, calcChildren, computeTreemapLayout, layoutChildren,
    buildMap, pushChild, modifyAt, totalValue, Tree.value, Tree.children]
  norm_num

/-- C4 (code evaluated at the failing input): for the records A (root) and B
(child of A, value 0), both with non-negative raw values, the root has a child
and the stored values of its children sum to 0, so the layout computes
`child.value / totalValue` with `totalValue = 0`. -/
theorem C4_children_total_can_be_zero :
    ∃ heap tree cells,
      processGraph [⟨"A", none, 0, "A"⟩, ⟨"B", some "A", 0, "B"⟩] 800 600
        = .done heap tree cells ∧
      tree.children.length = 1 ∧ totalValue tree.children = 0 := by
  refine ⟨_, _, _, rfl, ?_⟩
  simp [buildHierarchy, linkAll, parentIsForeign, initNodes, initNode, parentOf, truthy, toTree,
    allSome, calcValues, calcChildren, computeTreemapLayout, layoutChildren,
    buildMap, pushChild, modifyAt, totalValue, Tree.value, Tree.children]

/-! ## Layout: basic facts -/

theorem foldl_add_value (cs : List Tree) (a : ℚ) :
    cs.foldl (fun acc c => acc + c.value) a = a + (cs.map Tree.value).sum := by
  induction cs generalizing a with
  | nil => simp
  | cons c cs ih => simp [ih, add_assoc]

theorem totalValue_eq_sum (cs : List Tree) : totalValue cs = (cs.map Tree.value).sum := by
  simp [totalValue, foldl_add_value]

@[simp] theorem layout_ref (t : Tree) (x y w h : ℚ) (b : Bool) :
    (computeTreemapLayout t x y w h b).ref = t.ref := by
  cases t; simp [computeTreemapLayout, Tree.ref]

@[simp] theorem layout_value (t : Tree) (x y w h : ℚ) (b : Bool) :
    (computeTreemapLayout t x y w h b).value = t.value := by
  cases t; simp [computeTreemapLayout, Tree.value]

@[simp] theorem layout_x (t : Tree) (x y w h : ℚ) (b : Bool) :
    (computeTreemapLayout t x y w h b).x = x := by
  cases t; simp [computeTreemapLayout, Tree.x]

@[simp] theorem layout_y (t : Tree) (x y w h : ℚ) (b : Bool) :
    (computeTreemapLayout t x y w h b).y = y := by
  cases t; simp [computeTreemapLayout, Tree.y]

@[simp] theorem layout_w (t : Tree) (x y w h : ℚ) (b : Bool) :
    (computeTreemapLayout t x y w h b).w = w := by
  cases t; simp [computeTreemapLayout, Tree.w]

@[simp] theorem layout_h (t : Tree) (x y w h : ℚ) (b : Bool) :
    (computeTreemapLayout t x y w h b).h = h := by
  cases t; simp [computeTreemapLayout, Tree.h]

theorem layout_children (t : Tree) (x y w h : ℚ) (b : Bool) :
    (computeTreemapLayout t x y w h b).children =
      layoutChildren t.children (totalValue t.children) x y w h b (if b then y else x) := by
  cases t; simp [computeTreemapLayout, Tree.children]

theorem layoutChildren_nil (T x y w h : ℚ) (b : Bool) (pos : ℚ) :
    layoutChildren [] T x y w h b pos = [] := by
  simp [layoutChildren]

theorem layoutChildren_cons_vertical (c : Tree) (cs : List Tree) (T x y w h pos : ℚ) :
    layoutChildren (c :: cs) T x y w h true pos =
      computeTreemapLayout c x pos w (h * (c.value / T)) false
        :: layoutChildren cs T x y w h true (pos + h * (c.value / T)) := by
  simp [layoutChildren]

theorem layoutChildren_cons_horizontal (c : Tree) (cs : List Tree) (T x y w h pos : ℚ) :
    layoutChildren (c :: cs) T x y w h false pos =
      computeTreemapLayout c pos y (w * (c.value / T)) h true
        :: layoutChildren cs T x y w h false (pos + w * (c.value / T)) := by
  simp [layoutChildren]

theorem layoutChildren_length (cs : List Tree) (T x y w h : ℚ) (b : Bool) (pos : ℚ) :
    (layoutChildren cs T x y w h b pos).length = cs.length := by
  induction cs generalizing pos with
  | nil => simp [layoutChildren_nil]
  | cons c cs ih =>
    cases b
    · simp [layoutChildren_cons_horizontal, ih]
    · simp [layoutChildren_cons_vertical, ih]

theorem layoutChildren_get_vertical (cs : List Tree) (T x y w h pos : ℚ) (i : Nat) (c : Tree)
    (hc : (layoutChildren cs T x y w h true pos)[i]? = some c) :
    ∃ c0, cs[i]? = some c0 ∧
      c = computeTreemapLayout c0 x (pos + h * (((cs.take i).map Tree.value).sum / T)) w
            (h * (c0.value / T)) false := by
  induction cs generalizing pos i with
  | nil => simp [layoutChildren_nil] at hc
  | cons d ds ih =>
    rw [layoutChildren_cons_vertical] at hc
    cases i with
    | zero =>
      simp at hc
      exact ⟨d, by simp, by simp [← hc]⟩
    | succ i =>
      simp at hc
      obtain ⟨c0, h0, h1⟩ := ih _ _ hc
      refine ⟨c0, by simpa using h0, ?_⟩
      rw [h1]
      congr 1
      simp
      ring

theorem layoutChildren_get_horizontal (cs : List Tree) (T x y w h pos : ℚ) (i : Nat) (c : Tree)
    (hc : (layoutChildren cs T x y w h false pos)[i]? = some c) :
    ∃ c0, cs[i]? = some c0 ∧
      c = computeTreemapLayout c0 (pos + w * (((cs.take i).map Tree.value).sum / T)) y
            (w * (c0.value / T)) h true := by
  induction cs generalizing pos i with
  | nil => simp [layoutChildren_nil] at hc
  | cons d ds ih =>
    rw [layoutChildren_cons_horizontal] at hc
    cases i with
    | zero =>
      simp at hc
      exact ⟨d, by simp, by simp [← hc]⟩
    | succ i =>
      simp at hc
      obtain ⟨c0, h0, h1⟩ := ih _ _ hc
      refine ⟨c0, by simpa using h0, ?_⟩
      rw [h1]
      congr 1
      simp
      ring

theorem layoutChildren_map_h_vertical (cs : List Tree) (T x y w h pos : ℚ) :
    (layoutChildren cs T x y w h true pos).map Tree.h = cs.map (fun c => h * (c.value / T)) := by
  induction cs generalizing pos with
  | nil => simp [layoutChildren_nil]
  | cons d ds ih => simp [layoutChildren_cons_vertical, ih]

theorem layoutChildren_map_w_horizontal (cs : List Tree) (T x y w h pos : ℚ) :
    (layoutChildren cs T x y w h false pos).map Tree.w = cs.map (fun c => w * (c.value / T)) := by
  induction cs generalizing pos with
  | nil => simp [layoutChildren_nil]
  | cons d ds ih => simp [layoutChildren_cons_horizontal, ih]

theorem sum_map_scaled (cs : List Tree) (e T : ℚ) :
    (cs.map (fun c => e * (c.value / T))).sum = e * ((cs.map Tree.value).sum / T) := by
  induction cs with
  | nil => simp
  | cons d ds ih => simp [ih]; ring

theorem take_succ_sum (cs : List Tree) (i : Nat) (a : Tree) (ha : cs[i]? = some a) :
    ((cs.take (i + 1)).map Tree.value).sum = ((cs.take i).map Tree.value).sum + a.value := by
  induction cs generalizing i with
  | nil => simp at ha
  | cons d ds ih =>
    cases i with
    | zero => simp at ha; simp [ha]
    | succ i =>
      simp at ha
      have := ih i ha
      show (List.map Tree.value (d :: List.take (i + 1) ds)).sum = (List.map Tree.value (d :: List.take i ds)).sum + a.value
      simp only [List.map_cons, List.sum_cons, this, add_assoc]
/-! ## Tiling along the split axis -/

/-- C5: in `computeTreemapLayout`, for a node with at least one child whose
children's values sum to a nonzero total, the children's boxes tile the node's
box along the split axis: the first child starts at the node's origin on that
axis, each next child starts where the previous one ends, the extents on that
axis (heights when `isVertical`, widths otherwise) sum to the node's extent,
and every child has the node's origin and full extent on the other axis. -/
theorem C5_children_tile_split_axis (t : Tree) (x y w h : ℚ) (isVertical : Bool)
    (hne : t.children ≠ []) (htot : totalValue t.children ≠ 0) :
    let p := computeTreemapLayout t x y w h isVertical
    (p.x = x ∧ p.y = y ∧ p.w = w ∧ p.h = h) ∧
    p.children.length = t.children.length ∧
    (isVertical = true →
      p.children.head?.map Tree.y = some p.y ∧
      (∀ i a b, p.children[i]? = some a → p.children[i + 1]? = some b → b.y = a.y + a.h) ∧
      (p.children.map Tree.h).sum = p.h ∧
      (∀ c ∈ p.children, c.x = p.x ∧ c.w = p.w)) ∧
    (isVertical = false →
      p.children.head?.map Tree.x = some p.x ∧
      (∀ i a b, p.children[i]? = some a → p.children[i + 1]? = some b → b.x = a.x + a.w) ∧
      (p.children.map Tree.w).sum = p.w ∧
      (∀ c ∈ p.children, c.y = p.y ∧ c.h = p.h)) := by
  intro p
  have hT : (t.children.map Tree.value).sum ≠ 0 := by rwa [← totalValue_eq_sum]
  refine ⟨⟨layout_x .., layout_y .., layout_w .., layout_h ..⟩, ?_, ?_, ?_⟩
  · simp only [p, layout_children, layoutChildren_length]
  · intro hv
    subst hv
    simp only [p, layout_children, layout_x, layout_y, layout_w, layout_h, if_true]
    refine ⟨?_, ?_, ?_, ?_⟩
    · cases hcs : t.children with
      | nil => exact absurd hcs hne
      | cons d ds => simp [layoutChildren_cons_vertical]
    · intro i a b ha hb
      obtain ⟨a0, ha0, rfl⟩ := layoutChildren_get_vertical _ _ _ _ _ _ _ _ _ ha
      obtain ⟨b0, hb0, rfl⟩ := layoutChildren_get_vertical _ _ _ _ _ _ _ _ _ hb
      simp only [layout_y, layout_h]
      rw [take_succ_sum _ _ _ ha0]
      ring
    · rw [layoutChildren_map_h_vertical, sum_map_scaled, totalValue_eq_sum, div_self hT, mul_one]
    · intro c hc
      obtain ⟨i, hi⟩ := List.getElem?_of_mem hc
      obtain ⟨c0, _, rfl⟩ := layoutChildren_get_vertical _ _ _ _ _ _ _ _ _ hi
      simp
  · intro hv
    subst hv
    simp only [p, layout_children, layout_x, layout_y, layout_w, layout_h, Bool.false_eq_true,
      if_false]
    refine ⟨?_, ?_, ?_, ?_⟩
    · cases hcs : t.children with
      | nil => exact absurd hcs hne
      | cons d ds => simp [layoutChildren_cons_horizontal]
    · intro i a b ha hb
      obtain ⟨a0, ha0, rfl⟩ := layoutChildren_get_horizontal _ _ _ _ _ _ _ _ _ ha
      obtain ⟨b0, hb0, rfl⟩ := layoutChildren_get_horizontal _ _ _ _ _ _ _ _ _ hb
      simp only [layout_x, layout_w]
      rw [take_succ_sum _ _ _ ha0]
      ring
    · rw [layoutChildren_map_w_horizontal, sum_map_scaled, totalValue_eq_sum, div_self hT, mul_one]
    · intro c hc
      obtain ⟨i, hi⟩ := List.getElem?_of_mem hc
      obtain ⟨c0, _, rfl⟩ := layoutChildren_get_horizontal _ _ _ _ _ _ _ _ _ hi
      simp

/-- Witness for C5: a node with two leaves of values 3 and 1 in the box
(0, 0, 800, 600), split vertically. -/
theorem C5_children_tile_split_axis_witness :
    (Tree.node 0 4 0 0 0 0 [.node 1 3 0 0 0 0 [], .node 2 1 0 0 0 0 []]).children ≠ [] ∧
    totalValue (Tree.node 0 4 0 0 0 0 [.node 1 3 0 0 0 0 [], .node 2 1 0 0 0 0 []]).children ≠ 0 ∧
    ((computeTreemapLayout (.node 0 4 0 0 0 0 [.node 1 3 0 0 0 0 [], .node 2 1 0 0 0 0 []])
        0 0 800 600 true).children.map Tree.h).sum = 600 :=
  ⟨by simp [Tree.children], by simp [Tree.children, totalValue, Tree.value]; norm_num,
   by
    have key := C5_children_tile_split_axis
      (.node 0 4 0 0 0 0 [.node 1 3 0 0 0 0 [], .node 2 1 0 0 0 0 []]) 0 0 800 600 true
      (by simp [Tree.children]) (by simp [Tree.children, totalValue, Tree.value]; norm_num)
    have h3 := (key.2.2.1 rfl).2.2.1
    rw [h3]
    exact layout_h ..⟩
/-! ## Induction on trees and the nodes of a tree -/

theorem Tree.induct {P : Tree → Prop}
    (step : ∀ r v x y w h cs, (∀ c ∈ cs, P c) → P (.node r v x y w h cs)) : ∀ t, P t := by
  intro t
  exact @Tree.rec P (fun cs => ∀ c ∈ cs, P c)
    (fun r v x y w h cs ih => step r v x y w h cs ih)
    (fun c hc => by cases hc)
    (fun hd tl h1 h2 c hc => by
      rcases List.mem_cons.1 hc with rfl | hc
      · exact h1
      · exact h2 c hc) t

theorem mem_subtreesList {s : Tree} {cs : List Tree} :
    s ∈ subtreesList cs ↔ ∃ c ∈ cs, s ∈ subtrees c := by
  induction cs with
  | nil => simp [subtreesList]
  | cons d ds ih => simp [subtreesList, ih]

theorem subtrees_eq (t : Tree) : subtrees t = t :: subtreesList t.children := by
  cases t; simp [subtrees, Tree.children]

theorem mem_subtrees {s t : Tree} :
    s ∈ subtrees t ↔ s = t ∨ ∃ c ∈ t.children, s ∈ subtrees c := by
  rw [subtrees_eq, List.mem_cons, mem_subtreesList]

theorem self_mem_subtrees (t : Tree) : t ∈ subtrees t := by
  rw [subtrees_eq]; exact List.mem_cons_self _ _

theorem subtrees_child {s c t : Tree} (hc : c ∈ t.children) (hs : s ∈ subtrees c) :
    s ∈ subtrees t :=
  mem_subtrees.2 (Or.inr ⟨c, hc, hs⟩)

theorem take_sum_le (cs : List Tree) (i : Nat) (hpos : ∀ c ∈ cs, 0 ≤ c.value) :
    ((cs.take i).map Tree.value).sum ≤ (cs.map Tree.value).sum := by
  have h1 : (cs.map Tree.value).sum
      = ((cs.take i).map Tree.value).sum + ((cs.drop i).map Tree.value).sum := by
    rw [← List.sum_append, ← List.map_append, List.take_append_drop]
  have h2 : 0 ≤ ((cs.drop i).map Tree.value).sum := by
    apply List.sum_nonneg
    intro v hv
    obtain ⟨c, hc, rfl⟩ := List.mem_map.1 hv
    exact hpos c (List.mem_of_mem_drop hc)
  linarith

theorem take_sum_nonneg (cs : List Tree) (i : Nat) (hpos : ∀ c ∈ cs, 0 ≤ c.value) :
    0 ≤ ((cs.take i).map Tree.value).sum := by
  apply List.sum_nonneg
  intro v hv
  obtain ⟨c, hc, rfl⟩ := List.mem_map.1 hv
  exact hpos c (List.mem_of_mem_take hc)
/-! ## Containment -/

theorem child_box (t : Tree) (x y w h : ℚ) (b : Bool) (c : Tree)
    (hc : c ∈ (computeTreemapLayout t x y w h b).children) :
    ∃ i c0, t.children[i]? = some c0 ∧
      c = (if b then
             computeTreemapLayout c0 x
               (y + h * (((t.children.take i).map Tree.value).sum / totalValue t.children)) w
               (h * (c0.value / totalValue t.children)) false
           else
             computeTreemapLayout c0
               (x + w * (((t.children.take i).map Tree.value).sum / totalValue t.children)) y
               (w * (c0.value / totalValue t.children)) h true) := by
  rw [layout_children] at hc
  obtain ⟨i, hi⟩ := List.getElem?_of_mem hc
  cases b
  · obtain ⟨c0, h0, h1⟩ := layoutChildren_get_horizontal _ _ _ _ _ _ _ _ _ hi
    exact ⟨i, c0, h0, by simpa using h1⟩
  · obtain ⟨c0, h0, h1⟩ := layoutChildren_get_vertical _ _ _ _ _ _ _ _ _ hi
    exact ⟨i, c0, h0, by simpa using h1⟩

theorem share_bounds (cs : List Tree) (i : Nat) (c0 : Tree) (e : ℚ) (h0 : cs[i]? = some c0)
    (hpos : ∀ c ∈ cs, 0 ≤ c.value) (hT : 0 < totalValue cs) (he : 0 ≤ e) :
    0 ≤ e * (((cs.take i).map Tree.value).sum / totalValue cs) ∧
    0 ≤ e * (c0.value / totalValue cs) ∧
    e * (((cs.take i).map Tree.value).sum / totalValue cs) + e * (c0.value / totalValue cs) ≤ e := by
  have hmem : c0 ∈ cs := List.getElem?_mem h0
  have h1 := take_sum_nonneg cs i hpos
  have h2 := take_sum_le cs (i + 1) hpos
  rw [take_succ_sum cs i c0 h0, ← totalValue_eq_sum cs] at h2
  refine ⟨mul_nonneg he (div_nonneg h1 hT.le), mul_nonneg he (div_nonneg (hpos c0 hmem) hT.le), ?_⟩
  rw [← mul_add, ← add_div]
  calc e * ((((cs.take i).map Tree.value).sum + c0.value) / totalValue cs)
      ≤ e * 1 := mul_le_mul_of_nonneg_left ((div_le_one hT).2 h2) he
    _ = e := mul_one e

theorem layout_inside (t : Tree) :
    ∀ (x y w h : ℚ) (b : Bool),
      (∀ n ∈ subtrees t, 0 ≤ n.value ∧ (n.children ≠ [] → 0 < totalValue n.children)) →
      0 ≤ w → 0 ≤ h →
      ∀ p ∈ subtrees (computeTreemapLayout t x y w h b), ∀ c ∈ p.children,
        p.x ≤ c.x ∧ p.y ≤ c.y ∧ c.x + c.w ≤ p.x + p.w ∧ c.y + c.h ≤ p.y + p.h := by
  induction t using Tree.induct with
  | step r v x0 y0 w0 h0 cs ih =>
    intro x y w h b hval hw hh p hp c hc
    have hcs : ∀ d ∈ cs, 0 ≤ d.value := fun d hd =>
      (hval d (subtrees_child (by simpa [Tree.children] using hd) (self_mem_subtrees d))).1
    rcases mem_subtrees.1 hp with rfl | ⟨d, hd, hpd⟩
    · obtain ⟨i, c0, h0, rfl⟩ := child_box _ _ _ _ _ _ _ hc
      simp only [Tree.children] at h0
      have hne : cs ≠ [] := by
        intro h; simp [h] at h0
      have hT : 0 < totalValue cs := by
        simpa [Tree.children] using (hval _ (self_mem_subtrees _)).2 (by simpa [Tree.children] using hne)
      cases b
      · obtain ⟨a1, a2, a3⟩ := share_bounds cs i c0 w h0 hcs hT hw
        simp only [Tree.children, layout_x, layout_y, layout_w, layout_h, Bool.false_eq_true,
          if_false]
        refine ⟨by linarith, le_refl _, by linarith, le_refl _⟩
      · obtain ⟨a1, a2, a3⟩ := share_bounds cs i c0 h h0 hcs hT hh
        simp only [Tree.children, layout_x, layout_y, layout_w, layout_h, if_true]
        refine ⟨le_refl _, by linarith, le_refl _, by linarith⟩
    · obtain ⟨i, d0, h0, rfl⟩ := child_box _ _ _ _ _ _ _ hd
      simp only [Tree.children] at h0
      have hmem : d0 ∈ cs := List.getElem?_mem h0
      have hne : cs ≠ [] := by
        intro h; simp [h] at h0
      have hT : 0 < totalValue cs := by
        simpa [Tree.children] using (hval _ (self_mem_subtrees _)).2 (by simpa [Tree.children] using hne)
      have hval0 : ∀ n ∈ subtrees d0,
          0 ≤ n.value ∧ (n.children ≠ [] → 0 < totalValue n.children) := fun n hn =>
        hval n (subtrees_child (by simpa [Tree.children] using hmem) hn)
      cases b
      · obtain ⟨a1, a2, a3⟩ := share_bounds cs i d0 w h0 hcs hT hw
        simp only [Tree.children, Bool.false_eq_true, if_false] at hpd
        exact ih d0 hmem _ _ _ _ _ hval0 a2 hh p hpd c hc
      · obtain ⟨a1, a2, a3⟩ := share_bounds cs i d0 h h0 hcs hT hh
        simp only [Tree.children, if_true] at hpd
        exact ih d0 hmem _ _ _ _ _ hval0 hw a2 p hpd c hc
theorem exampleTree_values :
    ∀ n ∈ subtrees exampleTree,
      0 ≤ n.value ∧ (n.children ≠ [] → 0 < totalValue n.children) := by
  intro n hn
  simp [exampleTree, subtrees, subtreesList] at hn
  rcases hn with rfl | rfl | rfl <;> norm_num [Tree.value, Tree.children, totalValue]

/-- C6: for a tree whose node values are all non-negative and whose internal
nodes all have a positive children total, and a box of non-negative width and
height, `computeTreemapLayout` places every non-root node inside the box of its
parent: parent.x <= x, parent.y <= y, x + w <= parent.x + parent.w and
y + h <= parent.y + parent.h; equivalently the relative position x - parent.x,
y - parent.y is non-negative and relative position plus size stays within the
parent's size. -/
theorem C6_child_inside_parent (t : Tree) (x y w h : ℚ) (isVertical : Bool)
    (hval : ∀ n ∈ subtrees t, 0 ≤ n.value ∧ (n.children ≠ [] → 0 < totalValue n.children))
    (hw : 0 ≤ w) (hh : 0 ≤ h) :
    ∀ p ∈ subtrees (computeTreemapLayout t x y w h isVertical), ∀ c ∈ p.children,
      (p.x ≤ c.x ∧ p.y ≤ c.y ∧ c.x + c.w ≤ p.x + p.w ∧ c.y + c.h ≤ p.y + p.h) ∧
      (0 ≤ c.x - p.x ∧ 0 ≤ c.y - p.y ∧ (c.x - p.x) + c.w ≤ p.w ∧ (c.y - p.y) + c.h ≤ p.h) := by
  intro p hp c hc
  obtain ⟨h1, h2, h3, h4⟩ := layout_inside t x y w h isVertical hval hw hh p hp c hc
  exact ⟨⟨h1, h2, h3, h4⟩, by linarith, by linarith, by linarith, by linarith⟩

/-- Witness for C6: the example tree on an 800 x 600 canvas. -/
theorem C6_child_inside_parent_witness :
    (∀ n ∈ subtrees exampleTree,
      0 ≤ n.value ∧ (n.children ≠ [] → 0 < totalValue n.children)) ∧
    (0 : ℚ) ≤ 800 ∧ (0 : ℚ) ≤ 600 ∧
    ∀ p ∈ subtrees (computeTreemapLayout exampleTree 0 0 800 600 true), ∀ c ∈ p.children,
      (p.x ≤ c.x ∧ p.y ≤ c.y ∧ c.x + c.w ≤ p.x + p.w ∧ c.y + c.h ≤ p.y + p.h) ∧
      (0 ≤ c.x - p.x ∧ 0 ≤ c.y - p.y ∧ (c.x - p.x) + c.w ≤ p.w ∧ (c.y - p.y) + c.h ≤ p.h) :=
  ⟨exampleTree_values, by norm_num, by norm_num,
    C6_child_inside_parent exampleTree 0 0 800 600 true exampleTree_values
      (by norm_num) (by norm_num)⟩
/-! ## The top-level call -/

theorem layoutChildren_map_value (cs : List Tree) (T x y w h : ℚ) (b : Bool) (pos : ℚ) :
    (layoutChildren cs T x y w h b pos).map Tree.value = cs.map Tree.value := by
  induction cs generalizing pos with
  | nil => simp [layoutChildren_nil]
  | cons d ds ih =>
    cases b
    · simp [layoutChildren_cons_horizontal, ih]
    · simp [layoutChildren_cons_vertical, ih]

theorem layout_children_values (t : Tree) (x y w h : ℚ) (b : Bool) :
    (computeTreemapLayout t x y w h b).children.map Tree.value = t.children.map Tree.value := by
  rw [layout_children, layoutChildren_map_value]

theorem layout_totalValue (t : Tree) (x y w h : ℚ) (b : Bool) :
    totalValue (computeTreemapLayout t x y w h b).children = totalValue t.children := by
  rw [totalValue_eq_sum, totalValue_eq_sum, layout_children_values]

theorem modifyAt_get (f : Node → Node) (l : List Node) (q p : Nat) :
    (modifyAt f l q)[p]? = if p = q then l[p]?.map f else l[p]? := by
  induction l generalizing q p with
  | nil => simp [modifyAt]
  | cons a rest ih =>
    cases q with
    | zero => cases p <;> simp [modifyAt]
    | succ q => cases p <;> simp [modifyAt, ih]

/-! ## The hierarchy loop either throws or returns the state of the pure loop -/

theorem inherited_pushChild (nodeMap : NodeMap) (heap : List Node) (p i : Nat) (k : String) :
    inherited nodeMap (pushChild heap p i) k = inherited nodeMap heap k := by
  unfold inherited
  have h : ((nodeMap "__proto__").bind (fun q => (pushChild heap p i)[q]?)).bind
        (fun o => fieldTruthy o k) =
      ((nodeMap "__proto__").bind (fun q => heap[q]?)).bind (fun o => fieldTruthy o k) := by
    cases nodeMap "__proto__" with
    | none => rfl
    | some q =>
      simp only [Option.some_bind, pushChild, modifyAt_get]
      split
      · cases heap[q]? with
        | none => rfl
        | some o => rfl
      · rfl
  rw [h]

theorem parentIsForeign_pushChild (nodeMap : NodeMap) (heap : List Node) (p i : Nat)
    (parent : Option String) :
    parentIsForeign nodeMap (pushChild heap p i) parent = parentIsForeign nodeMap heap parent := by
  simp only [parentIsForeign, inherited_pushChild]

theorem parentIsForeign_of_parentOf {nodeMap : NodeMap} {heap : List Node}
    {parent : Option String} {p : Nat} (h : parentOf nodeMap parent = some p) :
    parentIsForeign nodeMap heap parent = false := by
  unfold parentOf at h
  split at h
  · simp [parentIsForeign, h]
  · cases h

theorem linkAll_eq (nodeMap : NodeMap) (l : List Record) (i : Nat)
    (st : List Node × Option Nat) :
    linkAll nodeMap l i st =
      if l.any (fun n => parentIsForeign nodeMap st.1 n.parent) then none
      else some (linkAllPure nodeMap l i st) := by
  induction l generalizing i st with
  | nil => simp [linkAll, linkAllPure]
  | cons n rest ih =>
    unfold linkAll linkAllPure
    cases hp : parentOf nodeMap n.parent with
    | some p =>
      simp only [ih, List.any_cons, parentIsForeign_of_parentOf hp, Bool.false_or,
        parentIsForeign_pushChild]
    | none =>
      simp only [List.any_cons]
      cases hf : parentIsForeign nodeMap st.1 n.parent with
      | true => simp
      | false => simp only [ih, Bool.false_or, Bool.false_eq_true, if_false]

theorem buildHierarchy_eq (flatNodes : List Record) :
    buildHierarchy flatNodes =
      if throwsTypeError flatNodes then none else some (pureHierarchy flatNodes) := by
  simp only [buildHierarchy, pureHierarchy, throwsTypeError, linkAll_eq]

theorem buildHierarchy_some {flatNodes : List Record} {st : List Node × Option Nat}
    (h : buildHierarchy flatNodes = some st) :
    throwsTypeError flatNodes = false ∧ st = pureHierarchy flatNodes := by
  rw [buildHierarchy_eq] at h
  split at h
  · cases h
  · rename_i hf
    injection h with h
    exact ⟨by simpa using hf, h.symm⟩

theorem processGraph_typeError_iff (flatNodes : List Record) (W H : ℤ) :
    processGraph flatNodes W H = .typeError ↔ throwsTypeError flatNodes = true := by
  unfold processGraph
  rw [buildHierarchy_eq]
  cases throwsTypeError flatNodes with
  | true => simp
  | false =>
    simp only [Bool.false_eq_true, if_false, iff_false]
    intro h
    split at h
    · cases h
    · split at h <;> cases h

theorem processGraph_done {flatNodes : List Record} {W H : ℤ} {heap : List Node} {tree : Tree}
    {cells : List Cell} (hrun : processGraph flatNodes W H = .done heap tree cells) :
    ∃ rootNode t, (pureHierarchy flatNodes).2 = some rootNode ∧
      toTree (pureHierarchy flatNodes).1 flatNodes.length rootNode = some t ∧
      tree = computeTreemapLayout (calcValues t).1 0 0 W H true ∧
      heap = writeBack tree (pureHierarchy flatNodes).1 ∧
      cells = generateDrawioXML heap (buildMap flatNodes 0 (fun _ => none)) := by
  unfold processGraph at hrun
  rw [buildHierarchy_eq] at hrun
  cases hthrow : throwsTypeError flatNodes with
  | true => rw [hthrow] at hrun; cases hrun
  | false =>
    rw [hthrow] at hrun
    simp only [Bool.false_eq_true, if_false] at hrun
    split at hrun
    · cases hrun
    · rename_i rootNode hroot
      split at hrun
      · cases hrun
      · rename_i t ht
        injection hrun with h1 h2 h3
        subst h1 h2 h3
        exact ⟨rootNode, t, hroot, ht, rfl, rfl, rfl⟩

theorem processGraph_done_completes {flatNodes : List Record} {W H : ℤ} {heap : List Node}
    {tree : Tree} {cells : List Cell} (hrun : processGraph flatNodes W H = .done heap tree cells) :
    throwsTypeError flatNodes = false := by
  cases hthrow : throwsTypeError flatNodes with
  | false => rfl
  | true =>
    rw [(processGraph_typeError_iff flatNodes W H).mpr hthrow] at hrun
    cases hrun

/-- C7 (amended): in exact arithmetic, whenever `processGraph` reaches the
layout on a canvas W x H (the hierarchy loop did not throw and a root was
found), the root gets the box (0, 0, W, H) and, when the values v_1..v_n of its
children sum to a nonzero total T, child i gets x = 0, width = W,
height = H * v_i / T and y = H * (v_1 + ... + v_(i-1)) / T (vertical split at
depth 0).  For the records A (no parent, value 0), B (parent A, value 3),
C (parent A, value 1) on an 800 x 600 canvas: A.value = 4,
B = (0, 0, 800, 450), C = (0, 450, 800, 150). -/
theorem C7_root_split_is_vertical_and_proportional :
    (∀ (flatNodes : List Record) (W H : ℤ) (heap : List Node) (tree : Tree) (cells : List Cell),
      processGraph flatNodes W H = .done heap tree cells →
      (tree.x = 0 ∧ tree.y = 0 ∧ tree.w = (W : ℚ) ∧ tree.h = (H : ℚ)) ∧
      (totalValue tree.children ≠ 0 →
        ∀ i c, tree.children[i]? = some c →
          c.x = 0 ∧ c.w = (W : ℚ) ∧ c.h = (H : ℚ) * c.value / totalValue tree.children ∧
          c.y = (H : ℚ) * ((tree.children.take i).map Tree.value).sum / totalValue tree.children)) ∧
    (processGraph [⟨"A", none, 0, "A"⟩, ⟨"B", some "A", 3, "B"⟩, ⟨"C", some "A", 1, "C"⟩]
        800 600).tree =
      some (.node 0 4 0 0 800 600 [.node 1 3 0 0 800 450 [], .node 2 1 0 450 800 150 []]) := by
  constructor
  · intro flatNodes W H heap tree cells hrun
    obtain ⟨rootNode, t, -, -, rfl, -, -⟩ := processGraph_done hrun
    refine ⟨⟨layout_x .., layout_y .., layout_w .., layout_h ..⟩, ?_⟩
    intro _ i c hc
    have hvals := layout_children_values (calcValues t).1 0 0 W H true
    have htake : ((computeTreemapLayout (calcValues t).1 0 0 W H true).children.take i).map
        Tree.value = (((calcValues t).1.children).take i).map Tree.value := by
      rw [List.map_take, List.map_take, hvals]
    rw [htake, layout_totalValue]
    rw [layout_children] at hc
    obtain ⟨c0, -, rfl⟩ := layoutChildren_get_vertical _ _ _ _ _ _ _ _ _ hc
    simp only [layout_x, layout_y, layout_w, layout_h, layout_value, if_true, zero_add,
      mul_div_assoc, and_self]
  · simp [Outcome.tree, processGraph, buildHierarchy, linkAll, parentIsForeign, inherited, fieldTruthy, objectPrototypeKeys, initNodes, initNode, parentOf, truthy, toTree,
      allSome, calcValues, calcChildren, computeTreemapLayout, layoutChildren, writeBack,
      writeBackList, modifyAt, buildMap, pushChild, totalValue, Tree.value]
    norm_num
theorem abc_run :
    processGraph [⟨"A", none, 0, "A"⟩, ⟨"B", some "A", 3, "B"⟩, ⟨"C", some "A", 1, "C"⟩] 800 600 =
      .done
        [⟨"A", none, 4, "A", [1, 2], 0, 0, 800, 600⟩, ⟨"B", some "A", 3, "B", [], 0, 0, 800, 450⟩,
          ⟨"C", some "A", 1, "C", [], 0, 450, 800, 150⟩]
        (.node 0 4 0 0 800 600 [.node 1 3 0 0 800 450 [], .node 2 1 0 450 800 150 []])
        (generateDrawioXML
          [⟨"A", none, 4, "A", [1, 2], 0, 0, 800, 600⟩, ⟨"B", some "A", 3, "B", [], 0, 0, 800, 450⟩,
            ⟨"C", some "A", 1, "C", [], 0, 450, 800, 150⟩]
          (buildMap [⟨"A", none, 0, "A"⟩, ⟨"B", some "A", 3, "B"⟩, ⟨"C", some "A", 1, "C"⟩] 0
            (fun _ => none))) := by
  simp [processGraph, buildHierarchy, linkAll, parentIsForeign, inherited, fieldTruthy, objectPrototypeKeys, initNodes, initNode, parentOf, truthy, toTree,
    allSome, calcValues, calcChildren, computeTreemapLayout, layoutChildren, writeBack,
    writeBackList, modifyAt, buildMap, pushChild, totalValue, Tree.value]
  norm_num

/-- Witness for C7 (amended): the general statement applied to the run on the records A,
B, C with an 800 x 600 canvas. -/
theorem C7_root_split_is_vertical_and_proportional_witness :
    processGraph [⟨"A", none, 0, "A"⟩, ⟨"B", some "A", 3, "B"⟩, ⟨"C", some "A", 1, "C"⟩] 800 600 =
      .done
        [⟨"A", none, 4, "A", [1, 2], 0, 0, 800, 600⟩, ⟨"B", some "A", 3, "B", [], 0, 0, 800, 450⟩,
          ⟨"C", some "A", 1, "C", [], 0, 450, 800, 150⟩]
        (.node 0 4 0 0 800 600 [.node 1 3 0 0 800 450 [], .node 2 1 0 450 800 150 []])
        (generateDrawioXML
          [⟨"A", none, 4, "A", [1, 2], 0, 0, 800, 600⟩, ⟨"B", some "A", 3, "B", [], 0, 0, 800, 450⟩,
            ⟨"C", some "A", 1, "C", [], 0, 450, 800, 150⟩]
          (buildMap [⟨"A", none, 0, "A"⟩, ⟨"B", some "A", 3, "B"⟩, ⟨"C", some "A", 1, "C"⟩] 0
            (fun _ => none))) ∧
    (Tree.node 0 4 0 0 800 600 [.node 1 3 0 0 800 450 [], .node 2 1 0 450 800 150 []]).w
      = ((800 : ℤ) : ℚ) :=
  ⟨abc_run, (C7_root_split_is_vertical_and_proportional.1 _ 800 600 _ _ _ abc_run).1.2.2.1⟩
/-! ## The dictionary and the hierarchy loop -/

theorem buildMap_some (l : List Record) (i : Nat) (m : NodeMap) (k : String) (j : Nat)
    (h : buildMap l i m k = some j) :
    m k = some j ∨ (i ≤ j ∧ ∃ n, l[j - i]? = some n ∧ n.id = k) := by
  induction l generalizing i m with
  | nil => exact Or.inl h
  | cons a rest ih =>
    rw [buildMap] at h
    rcases ih _ _ h with h1 | ⟨h1, n, h2, h3⟩
    · by_cases hk : k = a.id
      · simp only [hk, if_true, Option.some.injEq] at h1
        subst h1
        exact Or.inr ⟨le_refl _, a, by simp, hk.symm⟩
      · simp only [hk, if_false] at h1
        exact Or.inl h1
    · refine Or.inr ⟨by omega, n, ?_, h3⟩
      have : j - i = (j - (i + 1)) + 1 := by omega
      rw [this]
      simpa using h2

theorem buildMap_isSome (l : List Record) (i : Nat) (m : NodeMap) (k : String) :
    (buildMap l i m k).isSome = ((m k).isSome || l.any (fun n => n.id == k)) := by
  induction l generalizing i m with
  | nil => simp [buildMap]
  | cons a rest ih =>
    rw [buildMap, ih]
    by_cases hk : k = a.id
    · simp [hk]
    · have : (a.id == k) = false := by simpa using fun h => hk h.symm
      simp [hk, this]

theorem parentOf_eq_none (flatNodes : List Record) (n : Record) :
    parentOf (buildMap flatNodes 0 (fun _ => none)) n.parent = none ↔
      unparented flatNodes n = true := by
  unfold parentOf unparented
  by_cases ht : truthy n.parent = true
  · have h := buildMap_isSome flatNodes 0 (fun _ => none) (n.parent.getD "")
    simp only [ht, if_true, Bool.not_true, Bool.false_or, Bool.not_eq_true']
    rw [← Option.not_isSome_iff_eq_none, h]
    simp
  · simp [ht]

theorem parentOf_lt (flatNodes : List Record) (parent : Option String) (p : Nat)
    (h : parentOf (buildMap flatNodes 0 (fun _ => none)) parent = some p) :
    p < flatNodes.length := by
  unfold parentOf at h
  split at h
  · rcases buildMap_some _ _ _ _ _ h with h1 | ⟨_, n, h2, _⟩
    · cases h1
    · have := List.getElem?_eq_some.1 h2
      obtain ⟨hlt, _⟩ := this
      omega
  · cases h

theorem modifyAt_length (f : Node → Node) (l : List Node) (q : Nat) :
    (modifyAt f l q).length = l.length := by
  induction l generalizing q with
  | nil => simp [modifyAt]
  | cons a rest ih => cases q <;> simp [modifyAt, ih]

theorem linkAll_snd (nodeMap : NodeMap) (l : List Record) (i : Nat)
    (st : List Node × Option Nat) :
    (linkAllPure nodeMap l i st).2 = (match st.2 with
      | some r => some r
      | none => firstRoot nodeMap l i) := by
  induction l generalizing i st with
  | nil => cases h : st.2 <;> simp [linkAllPure, firstRoot, h]
  | cons a rest ih =>
    rw [linkAllPure, ih]
    cases hp : parentOf nodeMap a.parent with
    | none => cases h : st.2 <;> simp [firstRoot, hp, h]
    | some q => cases h : st.2 <;> simp [firstRoot, hp, h]

theorem linkAll_fst_get (nodeMap : NodeMap) (l : List Record) (i : Nat)
    (st : List Node × Option Nat) (p : Nat) :
    (linkAllPure nodeMap l i st).1[p]? =
      st.1[p]?.map (fun o => { o with children := o.children ++ childrenOf nodeMap l i p }) := by
  induction l generalizing i st with
  | nil => cases h : st.1[p]? <;> simp [linkAllPure, childrenOf, h]
  | cons a rest ih =>
    rw [linkAllPure, ih]
    cases hp : parentOf nodeMap a.parent with
    | none => simp [childrenOf, hp]
    | some q =>
      simp only [pushChild, modifyAt_get, childrenOf, hp, Option.some.injEq]
      by_cases hq : p = q
      · subst hq
        cases h : st.1[p]? <;> simp [h]
      · have hq2 : ¬ q = p := fun h => hq h.symm
        simp [hq, hq2]

theorem mem_childrenOf (nodeMap : NodeMap) (l : List Record) (i p c : Nat) :
    c ∈ childrenOf nodeMap l i p ↔
      i ≤ c ∧ ∃ n, l[c - i]? = some n ∧ parentOf nodeMap n.parent = some p := by
  induction l generalizing i with
  | nil => simp [childrenOf]
  | cons a rest ih =>
    have step : ∀ n, (i + 1 ≤ c ∧ rest[c - (i + 1)]? = some n) ↔
        (i ≤ c ∧ c ≠ i ∧ (a :: rest)[c - i]? = some n) := by
      intro n
      constructor
      · rintro ⟨h1, h2⟩
        have : c - i = (c - (i + 1)) + 1 := by omega
        exact ⟨by omega, by omega, by rw [this]; simpa using h2⟩
      · rintro ⟨h1, h2, h3⟩
        have : c - i = (c - (i + 1)) + 1 := by omega
        rw [this] at h3
        exact ⟨by omega, by simpa using h3⟩
    rw [childrenOf]
    by_cases hp : parentOf nodeMap a.parent = some p
    · rw [if_pos hp, List.mem_cons, ih]
      constructor
      · rintro (rfl | ⟨h1, n, h2, h3⟩)
        · exact ⟨le_refl _, a, by simp, hp⟩
        · exact ⟨by omega, n, ((step n).1 ⟨h1, h2⟩).2.2, h3⟩
      · rintro ⟨h1, n, h2, h3⟩
        by_cases hc : c = i
        · exact Or.inl hc
        · exact Or.inr ⟨by omega, n, ((step n).2 ⟨h1, hc, h2⟩).2, h3⟩
    · rw [if_neg hp, ih]
      constructor
      · rintro ⟨h1, n, h2, h3⟩
        exact ⟨by omega, n, ((step n).1 ⟨h1, h2⟩).2.2, h3⟩
      · rintro ⟨h1, n, h2, h3⟩
        have hc : c ≠ i := by
          rintro rfl
          simp at h2
          subst h2
          exact hp h3
        exact ⟨by omega, n, ((step n).2 ⟨h1, hc, h2⟩).2, h3⟩
theorem firstRoot_eq_some (nodeMap : NodeMap) (l : List Record) (i r : Nat) :
    firstRoot nodeMap l i = some r ↔
      i ≤ r ∧ (∃ n, l[r - i]? = some n ∧ parentOf nodeMap n.parent = none) ∧
      ∀ j n, i ≤ j → j < r → l[j - i]? = some n → parentOf nodeMap n.parent ≠ none := by
  induction l generalizing i with
  | nil => simp [firstRoot]
  | cons a rest ih =>
    rw [firstRoot]
    by_cases hp : parentOf nodeMap a.parent = none
    · rw [if_pos hp]
      constructor
      · intro h
        simp only [Option.some.injEq] at h
        subst h
        exact ⟨le_refl _, ⟨a, by simp, hp⟩, fun j n h1 h2 => by omega⟩
      · rintro ⟨h1, _, h3⟩
        by_cases hr : r = i
        · rw [hr]
        · exact absurd hp (h3 i a (le_refl _) (by omega) (by simp))
    · rw [if_neg hp, ih]
      constructor
      · rintro ⟨h1, ⟨n, h2, h3⟩, h4⟩
        have e : r - i = (r - (i + 1)) + 1 := by omega
        refine ⟨by omega, ⟨n, by rw [e]; simpa using h2, h3⟩, ?_⟩
        intro j m hj1 hj2 hj3
        by_cases hj : j = i
        · subst hj
          simp at hj3
          subst hj3
          exact hp
        · have e2 : j - i = (j - (i + 1)) + 1 := by omega
          rw [e2] at hj3
          exact h4 j m (by omega) hj2 (by simpa using hj3)
      · rintro ⟨h1, ⟨n, h2, h3⟩, h4⟩
        have hr : r ≠ i := by
          rintro rfl
          simp at h2
          subst h2
          exact hp h3
        have e : r - i = (r - (i + 1)) + 1 := by omega
        rw [e] at h2
        refine ⟨by omega, ⟨n, by simpa using h2, h3⟩, ?_⟩
        intro j m hj1 hj2 hj3
        have e2 : j - i = (j - (i + 1)) + 1 := by omega
        exact h4 j m (by omega) hj2 (by rw [e2]; simpa using hj3)

theorem firstRoot_eq_none (nodeMap : NodeMap) (l : List Record) (i : Nat) :
    firstRoot nodeMap l i = none ↔ ∀ n ∈ l, parentOf nodeMap n.parent ≠ none := by
  induction l generalizing i with
  | nil => simp [firstRoot]
  | cons a rest ih =>
    rw [firstRoot]
    by_cases hp : parentOf nodeMap a.parent = none
    · simp [hp]
    · simp [hp, ih]

theorem hierarchy_root (flatNodes : List Record) :
    (pureHierarchy flatNodes).2 = firstRoot (buildMap flatNodes 0 (fun _ => none)) flatNodes 0 := by
  simp [pureHierarchy, linkAll_snd]

theorem hierarchy_get (flatNodes : List Record) (p : Nat) :
    (pureHierarchy flatNodes).1[p]? =
      flatNodes[p]?.map (fun n =>
        { initNode n with
          children := childrenOf (buildMap flatNodes 0 (fun _ => none)) flatNodes 0 p }) := by
  simp only [pureHierarchy, linkAll_fst_get, initNodes, List.getElem?_map, Option.map_map]
  cases flatNodes[p]? <;> simp [initNode]

theorem hierarchy_child (flatNodes : List Record) (p c : Nat) (o : Node)
    (ho : (pureHierarchy flatNodes).1[p]? = some o) :
    c ∈ o.children ↔ parentIndex flatNodes c = some p := by
  rw [hierarchy_get] at ho
  cases hn : flatNodes[p]? with
  | none => simp [hn] at ho
  | some n =>
    simp only [hn, Option.map_some', Option.some.injEq] at ho
    subst ho
    simp only [mem_childrenOf, Nat.zero_le, Nat.sub_zero, true_and, parentIndex]
    constructor
    · rintro ⟨m, h1, h2⟩
      simp [h1, h2]
    · intro h
      cases hm : flatNodes[c]? with
      | none => simp [hm] at h
      | some m =>
        simp only [hm, Option.some_bind] at h
        exact ⟨m, rfl, h⟩

theorem hierarchy_root_spec (flatNodes : List Record) (r : Nat) :
    (pureHierarchy flatNodes).2 = some r ↔
      (∃ n, flatNodes[r]? = some n ∧ unparented flatNodes n = true) ∧
      ∀ j n, j < r → flatNodes[j]? = some n → unparented flatNodes n = false := by
  rw [hierarchy_root, firstRoot_eq_some]
  simp only [Nat.zero_le, Nat.sub_zero, true_and, parentOf_eq_none, ne_eq,
    Bool.not_eq_true, true_implies]

theorem parentIndex_lt (flatNodes : List Record) (j p : Nat)
    (h : parentIndex flatNodes j = some p) : j < flatNodes.length ∧ p < flatNodes.length := by
  unfold parentIndex at h
  cases hn : flatNodes[j]? with
  | none => simp [hn] at h
  | some n =>
    simp only [hn, Option.some_bind] at h
    exact ⟨(List.getElem?_eq_some.1 hn).1, parentOf_lt _ _ _ h⟩

theorem parentIndex_root (flatNodes : List Record) (r : Nat)
    (h : (pureHierarchy flatNodes).2 = some r) :
    parentIndex flatNodes r = none ∧ r < flatNodes.length := by
  obtain ⟨⟨n, h1, h2⟩, _⟩ := (hierarchy_root_spec flatNodes r).1 h
  refine ⟨?_, (List.getElem?_eq_some.1 h1).1⟩
  simp [parentIndex, h1, parentOf_eq_none, h2]
/-! ## The walk from the root ends: every parent chain to the root is simple -/

theorem ancestor_add (flatNodes : List Record) (s t j : Nat) :
    ancestor flatNodes (s + t) j = (ancestor flatNodes s j).bind (ancestor flatNodes t) := by
  induction s generalizing j with
  | zero => simp [ancestor]
  | succ s ih =>
    have e : s + 1 + t = (s + t) + 1 := by omega
    rw [e, ancestor, ancestor]
    cases parentIndex flatNodes j with
    | none => simp
    | some m => simp [ih]

theorem ancestor_of_root (flatNodes : List Record) (r t : Nat)
    (hr : parentIndex flatNodes r = none) (ht : 0 < t) : ancestor flatNodes t r = none := by
  cases t with
  | zero => omega
  | succ t => simp [ancestor, hr]

theorem ancestor_split (flatNodes : List Record) (d s i r : Nat) (hs : s ≤ d)
    (h : ancestor flatNodes d i = some r) :
    ∃ m, ancestor flatNodes s i = some m ∧ ancestor flatNodes (d - s) m = some r := by
  have e : d = s + (d - s) := by omega
  rw [e, ancestor_add] at h
  cases hm : ancestor flatNodes s i with
  | none => simp [hm] at h
  | some m =>
    simp only [hm, Option.some_bind] at h
    exact ⟨m, rfl, h⟩

theorem ancestor_lt (flatNodes : List Record) (d i m : Nat) (hi : i < flatNodes.length)
    (h : ancestor flatNodes d i = some m) : m < flatNodes.length := by
  induction d generalizing i with
  | zero =>
    simp only [ancestor, Option.some.injEq] at h
    omega
  | succ d ih =>
    rw [ancestor] at h
    cases hp : parentIndex flatNodes i with
    | none => simp [hp] at h
    | some q =>
      simp only [hp, Option.some_bind] at h
      exact ih q (parentIndex_lt _ _ _ hp).2 h

theorem ancestor_src_lt (flatNodes : List Record) (d i r : Nat) (hr : r < flatNodes.length)
    (h : ancestor flatNodes d i = some r) : i < flatNodes.length := by
  cases d with
  | zero =>
    simp only [ancestor, Option.some.injEq] at h
    omega
  | succ d =>
    rw [ancestor] at h
    cases hp : parentIndex flatNodes i with
    | none => simp [hp] at h
    | some q => exact (parentIndex_lt _ _ _ hp).1

theorem depth_lt (flatNodes : List Record) (d i r : Nat)
    (hr : parentIndex flatNodes r = none) (hi : i < flatNodes.length)
    (h : ancestor flatNodes d i = some r) : d < flatNodes.length := by
  by_contra hge
  have hge : flatNodes.length ≤ d := Nat.le_of_not_lt hge
  have hcard : (Finset.range flatNodes.length).card < (Finset.range (flatNodes.length + 1)).card := by
    simp
  have hmaps : ∀ s ∈ Finset.range (flatNodes.length + 1),
      (ancestor flatNodes s i).getD 0 ∈ Finset.range flatNodes.length := by
    intro s hs
    have hs : s ≤ d := by
      have := Finset.mem_range.1 hs
      omega
    obtain ⟨m, hm, _⟩ := ancestor_split flatNodes d s i r hs h
    rw [hm]
    exact Finset.mem_range.2 (ancestor_lt flatNodes s i m hi hm)
  obtain ⟨s, hs, s', hs', hne, heq⟩ :=
    Finset.exists_ne_map_eq_of_card_lt_of_maps_to hcard hmaps
  have key : ∀ a b, a < b → b ≤ d →
      (ancestor flatNodes a i).getD 0 = (ancestor flatNodes b i).getD 0 → False := by
    intro a b hab hbd hval
    obtain ⟨m, hm, _⟩ := ancestor_split flatNodes d a i r (by omega) h
    obtain ⟨m', hm', hrest⟩ := ancestor_split flatNodes d b i r hbd h
    rw [hm, hm'] at hval
    simp only [Option.getD_some] at hval
    subst hval
    have h1 : ancestor flatNodes (a + (d - b)) i = some r := by
      rw [ancestor_add, hm]
      exact hrest
    have h2 : ancestor flatNodes d i = none := by
      have e : d = (a + (d - b)) + (b - a) := by omega
      rw [e, ancestor_add, h1]
      exact ancestor_of_root flatNodes r (b - a) hr (by omega)
    rw [h2] at h
    cases h
  have hs := Finset.mem_range.1 hs
  have hs' := Finset.mem_range.1 hs'
  rcases Nat.lt_or_gt_of_ne hne with hlt | hgt
  · exact key s s' hlt (by omega) heq
  · exact key s' s hgt (by omega) heq.symm

theorem allSome_isSome (l : List (Option Tree)) (h : ∀ o ∈ l, o.isSome = true) :
    (allSome l).isSome = true := by
  induction l with
  | nil => simp [allSome]
  | cons a rest ih =>
    have ha := h a (List.mem_cons_self _ _)
    cases a with
    | none => simp at ha
    | some t =>
      have := ih (fun o ho => h o (List.mem_cons_of_mem _ ho))
      cases hr : allSome rest with
      | none => simp [hr] at this
      | some ts => simp [allSome, hr]

theorem toTree_isSome (flatNodes : List Record) (r : Nat)
    (hroot : (pureHierarchy flatNodes).2 = some r) :
    ∀ fuel i d, ancestor flatNodes d i = some r → flatNodes.length ≤ fuel + d →
      (toTree (pureHierarchy flatNodes).1 fuel i).isSome = true := by
  obtain ⟨hr, hrlt⟩ := parentIndex_root flatNodes r hroot
  intro fuel
  induction fuel with
  | zero =>
    intro i d h hle
    have hi := ancestor_src_lt flatNodes d i r hrlt h
    have := depth_lt flatNodes d i r hr hi h
    omega
  | succ fuel ih =>
    intro i d h hle
    have hi := ancestor_src_lt flatNodes d i r hrlt h
    have hget := hierarchy_get flatNodes i
    rw [List.getElem?_eq_getElem hi] at hget
    simp only [Option.map_some'] at hget
    rw [toTree, hget]
    simp only [Option.isSome_map']
    apply allSome_isSome
    intro o ho
    obtain ⟨c, hc, rfl⟩ := List.mem_map.1 ho
    have hpar := (hierarchy_child flatNodes i c _ hget).1 hc
    apply ih c (d + 1)
    · rw [ancestor, hpar]
      exact h
    · omega

theorem toTree_root (flatNodes : List Record) (r : Nat)
    (hroot : (pureHierarchy flatNodes).2 = some r) :
    ∃ t, toTree (pureHierarchy flatNodes).1 flatNodes.length r = some t := by
  have := toTree_isSome flatNodes r hroot flatNodes.length r 0 rfl (by omega)
  exact Option.isSome_iff_exists.1 this
/-! ## Root selection and the no-root error -/

theorem processGraph_of_completes {flatNodes : List Record} (W H : ℤ)
    (hc : throwsTypeError flatNodes = false) :
    processGraph flatNodes W H =
      (match (pureHierarchy flatNodes).2 with
       | none => .noRoot
       | some rootNode =>
         match toTree (pureHierarchy flatNodes).1 flatNodes.length rootNode with
         | none => .outOfFuel
         | some t =>
           .done (writeBack (computeTreemapLayout (calcValues t).1 0 0 W H true)
               (pureHierarchy flatNodes).1)
             (computeTreemapLayout (calcValues t).1 0 0 W H true)
             (generateDrawioXML
               (writeBack (computeTreemapLayout (calcValues t).1 0 0 W H true)
                 (pureHierarchy flatNodes).1)
               (buildMap flatNodes 0 (fun _ => none)))) := by
  unfold processGraph
  rw [buildHierarchy_eq, hc]
  rfl

theorem processGraph_noRoot_iff (flatNodes : List Record) (W H : ℤ) :
    processGraph flatNodes W H = .noRoot ↔
      throwsTypeError flatNodes = false ∧ (pureHierarchy flatNodes).2 = none := by
  cases hc : throwsTypeError flatNodes with
  | true =>
    rw [(processGraph_typeError_iff flatNodes W H).2 hc]
    simp
  | false =>
    rw [processGraph_of_completes W H hc]
    cases hroot : (pureHierarchy flatNodes).2 with
    | none => simp
    | some r =>
      obtain ⟨t, ht⟩ := toTree_root flatNodes r hroot
      simp [ht]

theorem processGraph_runs (flatNodes : List Record) (W H : ℤ) (r : Nat)
    (hc : throwsTypeError flatNodes = false)
    (hroot : (pureHierarchy flatNodes).2 = some r) :
    ∃ heap tree cells, processGraph flatNodes W H = .done heap tree cells := by
  obtain ⟨t, ht⟩ := toTree_root flatNodes r hroot
  rw [processGraph_of_completes W H hc]
  simp only [hroot, ht]
  exact ⟨_, _, _, rfl⟩

theorem hierarchy_no_root_iff (flatNodes : List Record) :
    (pureHierarchy flatNodes).2 = none ↔ ∀ n ∈ flatNodes, unparented flatNodes n = false := by
  rw [hierarchy_root, firstRoot_eq_none]
  simp only [ne_eq, parentOf_eq_none, Bool.not_eq_true]

theorem unparented_eq_false (flatNodes : List Record) (n : Record) :
    unparented flatNodes n = false ↔
      ∃ s, n.parent = some s ∧ s ≠ "" ∧ ∃ m ∈ flatNodes, m.id = s := by
  unfold unparented
  cases hp : n.parent with
  | none => simp [truthy]
  | some s => simp [truthy]

/-- Whenever the hierarchy loop returns, the root it chose is the first record
in input order whose parent is empty or is not the id of any record; every
record with no parent or an unresolvable parent is in no children list, and
when such a record exists the no-root error is not reported. -/
theorem root_is_first_unparented_record (flatNodes : List Record)
    (st : List Node × Option Nat) (hst : buildHierarchy flatNodes = some st) :
    (∀ r, st.2 = some r ↔
      (∃ n, flatNodes[r]? = some n ∧ unparented flatNodes n = true) ∧
      ∀ j n, j < r → flatNodes[j]? = some n → unparented flatNodes n = false) ∧
    (∀ j n, flatNodes[j]? = some n → unparented flatNodes n = true →
      ∀ o ∈ st.1, j ∉ o.children) ∧
    ((∃ n ∈ flatNodes, unparented flatNodes n = true) →
      ∀ W H, processGraph flatNodes W H ≠ .noRoot) := by
  obtain ⟨-, rfl⟩ := buildHierarchy_some hst
  refine ⟨hierarchy_root_spec flatNodes, ?_, ?_⟩
  · intro j n hj hun o ho hmem
    obtain ⟨p, hp⟩ := List.getElem?_of_mem ho
    have hpar := (hierarchy_child flatNodes p j o hp).1 hmem
    simp [parentIndex, hj, (parentOf_eq_none flatNodes n).2 hun] at hpar
  · rintro ⟨n, hn, hun⟩ W H hno
    have h1 := (hierarchy_no_root_iff flatNodes).1
      ((processGraph_noRoot_iff flatNodes W H).1 hno).2
    rw [h1 n hn] at hun
    cases hun

/-- C8 (code evaluated at the failing input): of the records B (parent
"toString") and A (no parent), B is the first record whose parent is not the id
of any record, so B is the root that the claim names.  The code chooses no
root: `nodeMap["toString"]` is the function that the plain object `nodeMap`
inherits from `Object.prototype`, it is truthy, and
`nodeMap[n.parent].children.push(n)` throws a TypeError at B. -/
theorem C8_inherited_parent_key_throws_before_a_root_is_chosen :
    unparented [⟨"B", some "toString", 1, "B"⟩, ⟨"A", none, 1, "A"⟩]
      ⟨"B", some "toString", 1, "B"⟩ = true ∧
    buildHierarchy [⟨"B", some "toString", 1, "B"⟩, ⟨"A", none, 1, "A"⟩] = none ∧
    processGraph [⟨"B", some "toString", 1, "B"⟩, ⟨"A", none, 1, "A"⟩] 800 600 = .typeError := by
  refine ⟨by decide, ?_, ?_⟩
  · simp [buildHierarchy, linkAll, parentIsForeign, inherited, fieldTruthy, objectPrototypeKeys,
      initNodes, initNode, parentOf, truthy, buildMap]
  · simp [processGraph, buildHierarchy, linkAll, parentIsForeign, inherited, fieldTruthy,
      objectPrototypeKeys, initNodes, initNode, parentOf, truthy, buildMap]

/-- Whenever the hierarchy loop does not throw: `processGraph` reports the
no-root error, and then runs neither the aggregation, the layout nor the
emitter, exactly when every record has a non-empty parent that is the id of
some record (the empty record list included); in every other case it runs
aggregation, layout and emission to the end. -/
theorem no_root_error_iff_all_parents_resolve (flatNodes : List Record) (W H : ℤ)
    (hc : throwsTypeError flatNodes = false) :
    (processGraph flatNodes W H = .noRoot ↔
      ∀ n ∈ flatNodes, ∃ s, n.parent = some s ∧ s ≠ "" ∧ ∃ m ∈ flatNodes, m.id = s) ∧
    ((processGraph flatNodes W H = .noRoot ∧ (processGraph flatNodes W H).tree = none ∧
        (processGraph flatNodes W H).cells = none) ∨
      ∃ heap tree cells, processGraph flatNodes W H = .done heap tree cells) := by
  constructor
  · rw [processGraph_noRoot_iff, hierarchy_no_root_iff]
    simp only [hc, true_and]
    exact forall_congr' fun n => forall_congr' fun _ => unparented_eq_false flatNodes n
  · cases hroot : (pureHierarchy flatNodes).2 with
    | none =>
      have := (processGraph_noRoot_iff flatNodes W H).2 ⟨hc, hroot⟩
      exact Or.inl ⟨this, by simp [this, Outcome.tree], by simp [this, Outcome.cells]⟩
    | some r => exact Or.inr (processGraph_runs flatNodes W H r hc hroot)

/-- C9 (code evaluated at the failing input): the single record A with parent
"constructor" does not have a parent that is the id of some record, so the
claim promises aggregation, layout and emission without error.  The code
throws a TypeError in the hierarchy loop: `nodeMap["constructor"]` is the
function `Object` inherited from `Object.prototype`, which has no `children`.
Nothing is aggregated, laid out or emitted, and the no-root error is not
reported either. -/
theorem C9_inherited_parent_key_is_a_type_error :
    (¬ ∃ m ∈ [(⟨"A", some "constructor", 1, "A"⟩ : Record)], m.id = "constructor") ∧
    processGraph [⟨"A", some "constructor", 1, "A"⟩] 800 600 = .typeError ∧
    (processGraph [⟨"A", some "constructor", 1, "A"⟩] 800 600).tree = none ∧
    (processGraph [⟨"A", some "constructor", 1, "A"⟩] 800 600).cells = none := by
  have h : processGraph [⟨"A", some "constructor", 1, "A"⟩] 800 600 = .typeError := by
    simp [processGraph, buildHierarchy, linkAll, parentIsForeign, inherited, fieldTruthy,
      objectPrototypeKeys, initNodes, initNode, parentOf, truthy, buildMap]
  refine ⟨by simp, h, ?_, ?_⟩
  · rw [h]; rfl
  · rw [h]; rfl

/-! ## Which objects the aggregation and the layout reach -/

theorem mem_refs {j : Nat} {t : Tree} :
    j ∈ refs t ↔ j = t.ref ∨ ∃ c ∈ t.children, j ∈ refs c := by
  simp only [refs, List.mem_map]
  constructor
  · rintro ⟨s, hs, rfl⟩
    rcases mem_subtrees.1 hs with rfl | ⟨c, hc, hsc⟩
    · exact Or.inl rfl
    · exact Or.inr ⟨c, hc, s, hsc, rfl⟩
  · rintro (rfl | ⟨c, hc, s, hsc, rfl⟩)
    · exact ⟨t, self_mem_subtrees t, rfl⟩
    · exact ⟨s, subtrees_child hc hsc, rfl⟩

theorem calcChildren_fst (cs : List Tree) (acc : ℚ) :
    (calcChildren cs acc).1 = cs.map (fun c => (calcValues c).1) := by
  induction cs generalizing acc with
  | nil => simp [calcChildren]
  | cons d ds ih => simp [calcChildren, ih]

theorem calcChildren_snd (cs : List Tree) (acc : ℚ) :
    (calcChildren cs acc).2 = acc + (cs.map (fun c => (calcValues c).2)).sum := by
  induction cs generalizing acc with
  | nil => simp [calcChildren]
  | cons d ds ih => simp [calcChildren, ih, add_assoc]

@[simp] theorem calcValues_ref (t : Tree) : (calcValues t).1.ref = t.ref := by
  cases t; simp [calcValues, Tree.ref]

theorem calcValues_children (t : Tree) :
    (calcValues t).1.children = t.children.map (fun c => (calcValues c).1) := by
  cases t; simp [calcValues, Tree.children, calcChildren_fst]

theorem refs_calcValues (t : Tree) : ∀ j, j ∈ refs (calcValues t).1 ↔ j ∈ refs t := by
  induction t using Tree.induct with
  | step r v x y w h cs ih =>
    intro j
    rw [mem_refs, mem_refs, calcValues_ref, calcValues_children]
    simp only [Tree.children, List.mem_map]
    constructor
    · rintro (h | ⟨c, ⟨c0, hc0, rfl⟩, hj⟩)
      · exact Or.inl h
      · exact Or.inr ⟨c0, hc0, (ih c0 hc0 j).1 hj⟩
    · rintro (h | ⟨c0, hc0, hj⟩)
      · exact Or.inl h
      · exact Or.inr ⟨_, ⟨c0, hc0, rfl⟩, (ih c0 hc0 j).2 hj⟩

theorem refs_layout (t : Tree) :
    ∀ (x y w h : ℚ) (b : Bool) (j : Nat),
      j ∈ refs (computeTreemapLayout t x y w h b) → j ∈ refs t := by
  induction t using Tree.induct with
  | step r v x0 y0 w0 h0 cs ih =>
    intro x y w h b j hj
    rw [mem_refs] at hj ⊢
    rcases hj with hj | ⟨c, hc, hjc⟩
    · exact Or.inl (by simpa using hj)
    · obtain ⟨i, c0, h0, rfl⟩ := child_box _ _ _ _ _ _ _ hc
      have hmem : c0 ∈ cs := List.getElem?_mem h0
      refine Or.inr ⟨c0, hmem, ?_⟩
      cases b
      · exact ih c0 hmem _ _ _ _ _ j (by simpa using hjc)
      · exact ih c0 hmem _ _ _ _ _ j (by simpa using hjc)

theorem allSome_mem (l : List (Option Tree)) (ts : List Tree) (h : allSome l = some ts) :
    ∀ s ∈ ts, some s ∈ l := by
  induction l generalizing ts with
  | nil =>
    simp only [allSome, Option.some.injEq] at h
    subst h
    simp
  | cons a rest ih =>
    cases a with
    | none => simp [allSome] at h
    | some t =>
      cases hr : allSome rest with
      | none => simp [allSome, hr] at h
      | some us =>
        simp only [allSome, hr, Option.map_some', Option.some.injEq] at h
        subst h
        intro s hs
        rcases List.mem_cons.1 hs with rfl | hs
        · exact List.mem_cons_self _ _
        · exact List.mem_cons_of_mem _ (ih us hr s hs)

theorem toTree_eq_some (heap : List Node) (fuel i : Nat) (t : Tree)
    (h : toTree heap fuel i = some t) :
    t.ref = i ∧ ∃ o, heap[i]? = some o ∧
      ∀ c ∈ t.children, ∃ k ∈ o.children, ∃ g, toTree heap g k = some c := by
  cases fuel with
  | zero => simp [toTree] at h
  | succ fuel =>
    rw [toTree] at h
    cases ho : heap[i]? with
    | none => simp [ho] at h
    | some o =>
      simp only [ho] at h
      cases hts : allSome (o.children.map (toTree heap fuel)) with
      | none => simp [hts] at h
      | some ts =>
        simp only [hts, Option.map_some', Option.some.injEq] at h
        subst h
        refine ⟨rfl, o, rfl, ?_⟩
        intro c hc
        have := allSome_mem _ _ hts c (by simpa [Tree.children] using hc)
        obtain ⟨k, hk, hkc⟩ := List.mem_map.1 this
        exact ⟨k, hk, fuel, hkc⟩

theorem refs_toTree (heap : List Node) (t : Tree) :
    ∀ (fuel i : Nat), toTree heap fuel i = some t →
      ∀ j ∈ refs t, j = i ∨ ∃ (p : Nat) (o : Node), heap[p]? = some o ∧ j ∈ o.children := by
  induction t using Tree.induct with
  | step r v x y w h cs ih =>
    intro fuel i ht j hj
    obtain ⟨hr, o, ho, hch⟩ := toTree_eq_some heap fuel i _ ht
    rcases mem_refs.1 hj with hj | ⟨c, hc, hjc⟩
    · exact Or.inl (hj.trans hr)
    · obtain ⟨k, hk, g, hg⟩ := hch c hc
      rcases ih c (by simpa [Tree.children] using hc) g k hg j hjc with rfl | hrest
      · exact Or.inr ⟨i, o, ho, hk⟩
      · exact Or.inr hrest
/-! ## What the emitter walks -/

theorem writeBackList_untouched (j : Nat) (cs : List Tree)
    (ih : ∀ c ∈ cs, ∀ heap : List Node, j ∉ refs c → (writeBack c heap)[j]? = heap[j]?)
    (hj : ∀ c ∈ cs, j ∉ refs c) (heap : List Node) :
    (writeBackList cs heap)[j]? = heap[j]? := by
  induction cs generalizing heap with
  | nil => simp [writeBackList]
  | cons d ds ihds =>
    rw [writeBackList,
      ihds (fun c hc => ih c (List.mem_cons_of_mem _ hc))
        (fun c hc => hj c (List.mem_cons_of_mem _ hc)),
      ih d (List.mem_cons_self _ _) heap (hj d (List.mem_cons_self _ _))]

theorem writeBack_untouched (j : Nat) (t : Tree) :
    ∀ heap : List Node, j ∉ refs t → (writeBack t heap)[j]? = heap[j]? := by
  induction t using Tree.induct with
  | step r v x y w h cs ih =>
    intro heap hj
    have hr : j ≠ r := fun e => hj (mem_refs.2 (Or.inl (by simpa [Tree.ref] using e)))
    have hcs : ∀ c ∈ cs, j ∉ refs c := fun c hc hjc =>
      hj (mem_refs.2 (Or.inr ⟨c, by simpa [Tree.children] using hc, hjc⟩))
    rw [writeBack, writeBackList_untouched j cs ih hcs, modifyAt_get, if_neg hr]

theorem modifyAt_map_id (f : Node → Node) (hf : ∀ o, (f o).id = o.id) (l : List Node) (q : Nat) :
    (modifyAt f l q).map Node.id = l.map Node.id := by
  induction l generalizing q with
  | nil => simp [modifyAt]
  | cons a rest ih => cases q <;> simp [modifyAt, ih, hf]

theorem writeBackList_map_id (cs : List Tree)
    (ih : ∀ c ∈ cs, ∀ heap : List Node, (writeBack c heap).map Node.id = heap.map Node.id)
    (heap : List Node) :
    (writeBackList cs heap).map Node.id = heap.map Node.id := by
  induction cs generalizing heap with
  | nil => simp [writeBackList]
  | cons d ds ihds =>
    rw [writeBackList, ihds (fun c hc => ih c (List.mem_cons_of_mem _ hc)),
      ih d (List.mem_cons_self _ _)]

theorem writeBack_map_id (t : Tree) :
    ∀ heap : List Node, (writeBack t heap).map Node.id = heap.map Node.id := by
  induction t using Tree.induct with
  | step r v x y w h cs ih =>
    intro heap
    rw [writeBack, writeBackList_map_id cs ih]
    apply modifyAt_map_id
    intro o
    rfl

theorem hierarchy_map_id (flatNodes : List Record) :
    (pureHierarchy flatNodes).1.map Node.id = flatNodes.map Record.id := by
  apply List.ext_getElem?
  intro p
  rw [List.getElem?_map, List.getElem?_map, hierarchy_get]
  cases flatNodes[p]? <;> simp [initNode]

theorem generateDrawioXML_ids (heap : List Node) (nodeMap : NodeMap) :
    (generateDrawioXML heap nodeMap).map Cell.id
      = "0" :: "1" :: (heap.map Node.id).map (fun s => "cell_" ++ s) := by
  simp [generateDrawioXML, emitCell]

theorem tree_refs_of_run {flatNodes : List Record} {W H : ℤ} {heap : List Node} {tree : Tree}
    {cells : List Cell} (hrun : processGraph flatNodes W H = .done heap tree cells) :
    ∀ j ∈ refs tree, (pureHierarchy flatNodes).2 = some j ∨
      ∃ p, parentIndex flatNodes j = some p := by
  obtain ⟨rootNode, t, hroot, ht, rfl, -, -⟩ := processGraph_done hrun
  intro j hj
  have h1 := (refs_calcValues t j).1 (refs_layout _ _ _ _ _ _ j hj)
  rcases refs_toTree _ t _ _ ht j h1 with rfl | ⟨p, o, ho, hmem⟩
  · exact Or.inl hroot
  · exact Or.inr ⟨p, (hierarchy_child flatNodes p j o ho).1 hmem⟩

/-- C10 (counterexample): for the records A and B, both without a parent, the
emitter produces a cell for the second unparented record B as well. -/
theorem C10_second_unparented_record_is_emitted :
    unparented [⟨"A", none, 1, "A"⟩, ⟨"B", none, 2, "B"⟩] ⟨"A", none, 1, "A"⟩ = true ∧
    unparented [⟨"A", none, 1, "A"⟩, ⟨"B", none, 2, "B"⟩] ⟨"B", none, 2, "B"⟩ = true ∧
    ((processGraph [⟨"A", none, 1, "A"⟩, ⟨"B", none, 2, "B"⟩] 800 600).cells.getD []).map Cell.id
      = ["0", "1", "cell_A", "cell_B"] := by
  refine ⟨by decide, by decide, ?_⟩
  simp [processGraph, Outcome.cells, buildHierarchy, linkAll, parentIsForeign, inherited, fieldTruthy, objectPrototypeKeys, initNodes, initNode, parentOf, truthy,
    toTree, allSome, calcValues, calcChildren, computeTreemapLayout, layoutChildren, writeBack,
    writeBackList, modifyAt, generateDrawioXML, emitCell]

/-- C10 (amended): on every run of `processGraph` that reaches the emitter (the
hierarchy loop did not throw and a root was found), `generateDrawioXML` emits
one cell per record, in input order, after the two fixed cells "0" and "1", so
every unparented record has a cell, not only the first.  An unparented record
that comes after another unparented record is excluded from the tree below the
root only: it is not the root, it is no node of that tree, and aggregation and
layout leave its object as the two loops of `processGraph` made it (raw value,
box 0, 0, 0, 0). -/
theorem C10_every_record_is_emitted_later_roots_are_not_laid_out
    (flatNodes : List Record) (W H : ℤ) (heap : List Node) (tree : Tree) (cells : List Cell)
    (hrun : processGraph flatNodes W H = .done heap tree cells) :
    cells.map Cell.id = "0" :: "1" :: flatNodes.map (fun n => "cell_" ++ n.id) ∧
    ∀ i m j n, i < j → flatNodes[i]? = some m → unparented flatNodes m = true →
      flatNodes[j]? = some n → unparented flatNodes n = true →
      cells[j + 2]?.map Cell.id = some ("cell_" ++ n.id) ∧
      (∃ st, buildHierarchy flatNodes = some st ∧ st.2 ≠ some j ∧ heap[j]? = st.1[j]?) ∧
      j ≠ tree.ref ∧
      j ∉ refs tree ∧
      heap[j]?.map (fun o => (o.value, o.x, o.y, o.w, o.h)) = some (n.value, 0, 0, 0, 0) := by
  have hrefs := tree_refs_of_run hrun
  have hst : buildHierarchy flatNodes = some (pureHierarchy flatNodes) := by
    rw [buildHierarchy_eq, processGraph_done_completes hrun]
    rfl
  obtain ⟨rootNode, t, hroot, ht, htree, hheap, hcells⟩ := processGraph_done hrun
  have hids : cells.map Cell.id = "0" :: "1" :: flatNodes.map (fun n => "cell_" ++ n.id) := by
    rw [hcells, generateDrawioXML_ids, hheap, writeBack_map_id, hierarchy_map_id, List.map_map]
    rfl
  refine ⟨hids, ?_⟩
  intro i m j n hij hi hm hj hn
  have hnotroot : (pureHierarchy flatNodes).2 ≠ some j := by
    intro h
    have := ((hierarchy_root_spec flatNodes j).1 h).2 i m hij hi
    rw [this] at hm
    cases hm
  have hpar : parentIndex flatNodes j = none := by
    simp [parentIndex, hj, (parentOf_eq_none flatNodes n).2 hn]
  have hnotin : j ∉ refs tree := by
    intro h
    rcases hrefs j h with h1 | ⟨p, hp⟩
    · exact hnotroot h1
    · rw [hpar] at hp
      cases hp
  have hsame : heap[j]? = (pureHierarchy flatNodes).1[j]? := by
    rw [hheap]
    exact writeBack_untouched j tree _ hnotin
  refine ⟨?_, ⟨_, hst, hnotroot, hsame⟩, ?_, hnotin, ?_⟩
  · have := congrArg (fun l => l[j + 2]?) hids
    simp only [List.getElem?_map] at this
    rw [this]
    simp [hj]
  · intro h
    exact hnotin (h ▸ mem_refs.2 (Or.inl rfl))
  · rw [hsame, hierarchy_get, hj]
    simp [initNode]

/-- Witness for C10 (amended): the records A and B, both without a parent, on
an 800 x 600 canvas. -/
theorem C10_every_record_is_emitted_later_roots_are_not_laid_out_witness :
    processGraph [⟨"A", none, 1, "A"⟩, ⟨"B", none, 2, "B"⟩] 800 600 =
      .done [⟨"A", none, 1, "A", [], 0, 0, 800, 600⟩, ⟨"B", none, 2, "B", [], 0, 0, 0, 0⟩]
        (.node 0 1 0 0 800 600 [])
        (generateDrawioXML
          [⟨"A", none, 1, "A", [], 0, 0, 800, 600⟩, ⟨"B", none, 2, "B", [], 0, 0, 0, 0⟩]
          (buildMap [⟨"A", none, 1, "A"⟩, ⟨"B", none, 2, "B"⟩] 0 (fun _ => none))) ∧
    (generateDrawioXML
        [⟨"A", none, 1, "A", [], 0, 0, 800, 600⟩, ⟨"B", none, 2, "B", [], 0, 0, 0, 0⟩]
        (buildMap [⟨"A", none, 1, "A"⟩, ⟨"B", none, 2, "B"⟩] 0 (fun _ => none))).map Cell.id
      = "0" :: "1" ::
          [⟨"A", none, 1, "A"⟩, ⟨"B", none, 2, "B"⟩].map (fun n : Record => "cell_" ++ n.id) ∧
    1 ∉ refs (.node 0 1 0 0 800 600 []) := by
  have hrun : processGraph [⟨"A", none, 1, "A"⟩, ⟨"B", none, 2, "B"⟩] 800 600 =
      .done [⟨"A", none, 1, "A", [], 0, 0, 800, 600⟩, ⟨"B", none, 2, "B", [], 0, 0, 0, 0⟩]
        (.node 0 1 0 0 800 600 [])
        (generateDrawioXML
          [⟨"A", none, 1, "A", [], 0, 0, 800, 600⟩, ⟨"B", none, 2, "B", [], 0, 0, 0, 0⟩]
          (buildMap [⟨"A", none, 1, "A"⟩, ⟨"B", none, 2, "B"⟩] 0 (fun _ => none))) := by
    simp [processGraph, buildHierarchy, linkAll, parentIsForeign, inherited, fieldTruthy, objectPrototypeKeys, initNodes, initNode, parentOf, truthy, toTree,
      allSome, calcValues, calcChildren, computeTreemapLayout, layoutChildren, writeBack,
      writeBackList, modifyAt]
  have key := C10_every_record_is_emitted_later_roots_are_not_laid_out _ 800 600 _ _ _ hrun
  exact ⟨hrun, key.1,
    (key.2 0 ⟨"A", none, 1, "A"⟩ 1 ⟨"B", none, 2, "B"⟩ (by decide) rfl (by decide) rfl
      (by decide)).2.2.2.1⟩

/-! ## The tree below the root: every object occurs once -/

theorem allSome_eq_some (l : List (Option Tree)) (ts : List Tree) :
    allSome l = some ts ↔ l = ts.map some := by
  induction l generalizing ts with
  | nil =>
    cases ts <;> simp [allSome]
  | cons a rest ih =>
    cases a with
    | none => cases ts <;> simp [allSome]
    | some t =>
      cases hr : allSome rest with
      | none =>
        simp only [allSome, hr, Option.map_none']
        refine ⟨fun h => (by cases h), fun h => ?_⟩
        cases ts with
        | nil => simp at h
        | cons u us =>
          simp only [List.map_cons, List.cons.injEq] at h
          have := (ih us).2 h.2
          rw [hr] at this
          cases this
      | some us =>
        have hus := (ih us).1 hr
        simp only [allSome, hr, Option.map_some', Option.some.injEq]
        constructor
        · rintro rfl
          simp [hus]
        · intro h
          cases ts with
          | nil => simp at h
          | cons v vs =>
            simp only [List.map_cons, List.cons.injEq, Option.some.injEq] at h
            obtain ⟨rfl, h2⟩ := h
            have := (ih vs).2 h2
            rw [hr] at this
            simp only [Option.some.injEq] at this
            rw [this]

theorem refs_of_map_some (l : List Nat) (ts : List Tree) (f : Nat → Option Tree)
    (h : l.map f = ts.map some) (hf : ∀ k t, f k = some t → t.ref = k) :
    ts.map Tree.ref = l := by
  induction l generalizing ts with
  | nil =>
    cases ts with
    | nil => rfl
    | cons u us => simp at h
  | cons a rest ih =>
    cases ts with
    | nil => simp at h
    | cons u us =>
      simp only [List.map_cons, List.cons.injEq] at h
      simp only [List.map_cons, List.cons.injEq]
      exact ⟨hf a u h.1, ih us h.2⟩

theorem toTree_node (heap : List Node) (fuel i : Nat) (t : Tree)
    (h : toTree heap fuel i = some t) :
    ∃ o, heap[i]? = some o ∧ t.ref = i ∧ t.value = o.value ∧
      t.x = o.x ∧ t.y = o.y ∧ t.w = o.w ∧ t.h = o.h ∧
      t.children.map Tree.ref = o.children ∧
      ∀ c ∈ t.children, ∃ g, toTree heap g c.ref = some c := by
  cases fuel with
  | zero => simp [toTree] at h
  | succ fuel =>
    rw [toTree] at h
    cases ho : heap[i]? with
    | none => simp [ho] at h
    | some o =>
      simp only [ho] at h
      cases hts : allSome (o.children.map (toTree heap fuel)) with
      | none => simp [hts] at h
      | some ts =>
        simp only [hts, Option.map_some', Option.some.injEq] at h
        subst h
        have hmap := (allSome_eq_some _ _).1 hts
        have hrefs := refs_of_map_some _ _ _ hmap
          (fun k t hk => (toTree_eq_some heap fuel k t hk).1)
        refine ⟨o, rfl, rfl, rfl, rfl, rfl, rfl, rfl, hrefs, ?_⟩
        intro c hc
        have := allSome_mem _ _ hts c (by simpa [Tree.children] using hc)
        obtain ⟨k, _, hkc⟩ := List.mem_map.1 this
        have hk := (toTree_eq_some heap fuel k c hkc).1
        exact ⟨fuel, by rw [hk]; exact hkc⟩

theorem childrenOf_ge (nodeMap : NodeMap) (l : List Record) (i p c : Nat)
    (h : c ∈ childrenOf nodeMap l i p) : i ≤ c :=
  ((mem_childrenOf nodeMap l i p c).1 h).1

theorem childrenOf_nodup (nodeMap : NodeMap) (l : List Record) (i p : Nat) :
    (childrenOf nodeMap l i p).Nodup := by
  induction l generalizing i with
  | nil => simp [childrenOf]
  | cons a rest ih =>
    rw [childrenOf]
    split
    · refine List.nodup_cons.2 ⟨?_, ih _⟩
      intro hmem
      have := childrenOf_ge _ _ _ _ _ hmem
      omega
    · exact ih _

theorem hierarchy_children_nodup (flatNodes : List Record) (p : Nat) (o : Node)
    (ho : (pureHierarchy flatNodes).1[p]? = some o) : o.children.Nodup := by
  rw [hierarchy_get] at ho
  cases hn : flatNodes[p]? with
  | none => simp [hn] at ho
  | some n =>
    simp only [hn, Option.map_some', Option.some.injEq] at ho
    subst ho
    exact childrenOf_nodup _ _ _ _

theorem ancestor_step (flatNodes : List Record) (e j k i : Nat)
    (h : ancestor flatNodes e j = some k) (hp : parentIndex flatNodes k = some i) :
    ancestor flatNodes (e + 1) j = some i := by
  rw [ancestor_add, h]
  simp [ancestor, hp]

theorem ancestor_trans (flatNodes : List Record) (a b j k i : Nat)
    (h1 : ancestor flatNodes a j = some k) (h2 : ancestor flatNodes b k = some i) :
    ancestor flatNodes (a + b) j = some i := by
  rw [ancestor_add, h1]
  exact h2

theorem depth_unique (flatNodes : List Record) (a b j r : Nat)
    (hr : parentIndex flatNodes r = none)
    (ha : ancestor flatNodes a j = some r) (hb : ancestor flatNodes b j = some r) : a = b := by
  have key : ∀ a b, a < b → ancestor flatNodes a j = some r →
      ancestor flatNodes b j = some r → False := by
    intro a b hab ha hb
    have e : b = a + (b - a) := by omega
    rw [e, ancestor_add, ha] at hb
    have := ancestor_of_root flatNodes r (b - a) hr (by omega)
    simp only [Option.some_bind] at hb
    rw [this] at hb
    cases hb
  rcases Nat.lt_trichotomy a b with h | h | h
  · exact (key a b h ha hb).elim
  · exact h
  · exact (key b a h hb ha).elim

theorem descendant_of_mem_refs (flatNodes : List Record) (t : Tree) :
    ∀ (fuel i : Nat), toTree (pureHierarchy flatNodes).1 fuel i = some t →
      ∀ j ∈ refs t, ∃ e, ancestor flatNodes e j = some i := by
  induction t using Tree.induct with
  | step r v x y w h cs ih =>
    intro fuel i ht j hj
    obtain ⟨o, ho, hr, -, -, -, -, -, hch, hsub⟩ := toTree_node _ fuel i _ ht
    rcases mem_refs.1 hj with hj | ⟨c, hc, hjc⟩
    · exact ⟨0, by rw [hj, hr]; rfl⟩
    · obtain ⟨g, hg⟩ := hsub c hc
      obtain ⟨e, he⟩ := ih c (by simpa [Tree.children] using hc) g c.ref hg j hjc
      have hmem : c.ref ∈ o.children := by
        rw [← hch]
        exact List.mem_map.2 ⟨c, hc, rfl⟩
      have hp := (hierarchy_child flatNodes i c.ref o ho).1 hmem
      exact ⟨e + 1, ancestor_step flatNodes e j c.ref i he hp⟩
theorem refs_eq (t : Tree) : refs t = t.ref :: (subtreesList t.children).map Tree.ref := by
  simp [refs, subtrees_eq]

theorem mem_refsList {j : Nat} {cs : List Tree} :
    j ∈ (subtreesList cs).map Tree.ref ↔ ∃ c ∈ cs, j ∈ refs c := by
  simp only [List.mem_map, mem_subtreesList, refs]
  constructor
  · rintro ⟨s, ⟨c, hc, hs⟩, rfl⟩
    exact ⟨c, hc, s, hs, rfl⟩
  · rintro ⟨c, hc, s, hs, rfl⟩
    exact ⟨s, ⟨c, hc, hs⟩, rfl⟩

theorem refsList_cons (c : Tree) (cs : List Tree) :
    (subtreesList (c :: cs)).map Tree.ref = refs c ++ (subtreesList cs).map Tree.ref := by
  simp [subtreesList, refs]

theorem refsList_nodup (cs : List Tree) (h1 : ∀ c ∈ cs, (refs c).Nodup)
    (h2 : (cs.map Tree.ref).Nodup)
    (h3 : ∀ c1 ∈ cs, ∀ c2 ∈ cs, ∀ j, j ∈ refs c1 → j ∈ refs c2 → c1.ref = c2.ref) :
    ((subtreesList cs).map Tree.ref).Nodup := by
  induction cs with
  | nil => simp [subtreesList]
  | cons c rest ih =>
    rw [refsList_cons, List.nodup_append]
    rw [List.map_cons, List.nodup_cons] at h2
    refine ⟨h1 c (List.mem_cons_self _ _), ?_, ?_⟩
    · exact ih (fun d hd => h1 d (List.mem_cons_of_mem _ hd)) h2.2
        (fun c1 hc1 c2 hc2 => h3 c1 (List.mem_cons_of_mem _ hc1) c2 (List.mem_cons_of_mem _ hc2))
    · intro j hj1 hj2
      obtain ⟨d, hd, hjd⟩ := mem_refsList.1 hj2
      have := h3 c (List.mem_cons_self _ _) d (List.mem_cons_of_mem _ hd) j hj1 hjd
      exact h2.1 (by rw [this]; exact List.mem_map.2 ⟨d, hd, rfl⟩)

theorem toTree_refs_nodup (flatNodes : List Record) (r : Nat)
    (hr : parentIndex flatNodes r = none) (t : Tree) :
    ∀ (fuel i d : Nat), toTree (pureHierarchy flatNodes).1 fuel i = some t →
      ancestor flatNodes d i = some r → (refs t).Nodup := by
  induction t using Tree.induct with
  | step ref v x y w h cs ih =>
    intro fuel i d ht hd
    obtain ⟨o, ho, hri, -, -, -, -, -, hch, hsub⟩ := toTree_node _ fuel i _ ht
    simp only [Tree.children, Tree.ref] at hch hsub hri
    have hpar : ∀ c ∈ cs, parentIndex flatNodes c.ref = some i := by
      intro c hc
      apply (hierarchy_child flatNodes i c.ref o ho).1
      rw [← hch]
      exact List.mem_map.2 ⟨c, hc, rfl⟩
    have hdepth : ∀ c ∈ cs, ancestor flatNodes (d + 1) c.ref = some r := by
      intro c hc
      rw [ancestor, hpar c hc]
      exact hd
    have hdesc : ∀ c ∈ cs, ∀ j ∈ refs c, ∃ e, ancestor flatNodes e j = some c.ref := by
      intro c hc j hj
      obtain ⟨g, hg⟩ := hsub c hc
      exact descendant_of_mem_refs flatNodes c g c.ref hg j hj
    rw [refs_eq, List.nodup_cons]
    simp only [Tree.children, Tree.ref]
    constructor
    · intro hmem
      obtain ⟨c, hc, hjc⟩ := mem_refsList.1 hmem
      obtain ⟨e, he⟩ := hdesc c hc ref hjc
      rw [hri] at he
      have h1 := ancestor_trans flatNodes e (d + 1) i c.ref r he (hdepth c hc)
      have := depth_unique flatNodes _ _ i r hr h1 hd
      omega
    · apply refsList_nodup
      · intro c hc
        obtain ⟨g, hg⟩ := hsub c hc
        exact ih c hc g c.ref (d + 1) hg (hdepth c hc)
      · rw [hch]
        exact hierarchy_children_nodup flatNodes i o ho
      · intro c1 hc1 c2 hc2 j hj1 hj2
        obtain ⟨e1, he1⟩ := hdesc c1 hc1 j hj1
        obtain ⟨e2, he2⟩ := hdesc c2 hc2 j hj2
        have h1 := ancestor_trans flatNodes e1 (d + 1) j c1.ref r he1 (hdepth c1 hc1)
        have h2 := ancestor_trans flatNodes e2 (d + 1) j c2.ref r he2 (hdepth c2 hc2)
        have : e1 = e2 := by
          have := depth_unique flatNodes _ _ j r hr h1 h2
          omega
        subst this
        rw [he1] at he2
        exact Option.some.inj he2

/-! ## What `writeBack` stores -/

theorem writeBackList_get (cs : List Tree)
    (ih : ∀ c ∈ cs, ∀ heap : List Node, (refs c).Nodup →
      ∀ s ∈ subtrees c, (writeBack c heap)[s.ref]? = heap[s.ref]?.map (storeOn s))
    (hnd : ((subtreesList cs).map Tree.ref).Nodup) (heap : List Node) :
    ∀ s ∈ subtreesList cs, (writeBackList cs heap)[s.ref]? = heap[s.ref]?.map (storeOn s) := by
  induction cs generalizing heap with
  | nil => simp [subtreesList]
  | cons c rest ihrest =>
    rw [refsList_cons, List.nodup_append] at hnd
    obtain ⟨hc, hrest, hdisj⟩ := hnd
    intro s hs
    simp only [subtreesList, List.mem_append] at hs
    rw [writeBackList]
    rcases hs with hs | hs
    · have hnot : ∀ d ∈ rest, s.ref ∉ refs d := by
        intro d hd hmem
        exact hdisj (List.mem_map.2 ⟨s, hs, rfl⟩) (mem_refsList.2 ⟨d, hd, hmem⟩)
      rw [writeBackList_untouched s.ref rest
        (fun d _ hp hn => writeBack_untouched s.ref d hp hn) hnot]
      exact ih c (List.mem_cons_self _ _) heap hc s hs
    · rw [ihrest (fun d hd => ih d (List.mem_cons_of_mem _ hd)) hrest _ s hs]
      have hnot : s.ref ∉ refs c := by
        intro hmem
        exact hdisj hmem (List.mem_map.2 ⟨s, hs, rfl⟩)
      rw [writeBack_untouched s.ref c heap hnot]

theorem writeBack_get (t : Tree) :
    ∀ heap : List Node, (refs t).Nodup →
      ∀ s ∈ subtrees t, (writeBack t heap)[s.ref]? = heap[s.ref]?.map (storeOn s) := by
  induction t using Tree.induct with
  | step r v x y w h cs ih =>
    intro heap hnd s hs
    rw [refs_eq, List.nodup_cons] at hnd
    simp only [Tree.children, Tree.ref] at hnd
    rw [writeBack]
    rcases mem_subtrees.1 hs with rfl | ⟨c, hc, hsc⟩
    · have hnot : ∀ d ∈ cs, r ∉ refs d := fun d hd hmem =>
        hnd.1 (mem_refsList.2 ⟨d, hd, hmem⟩)
      simp only [Tree.ref]
      rw [writeBackList_untouched r cs (fun d _ hp hn => writeBack_untouched r d hp hn) hnot,
        modifyAt_get, if_pos rfl]
      rfl
    · have hmem : s ∈ subtreesList cs := mem_subtreesList.2 ⟨c, hc, hsc⟩
      rw [writeBackList_get cs ih hnd.2 _ s hmem]
      have hne : s.ref ≠ r := by
        intro e
        exact hnd.1 (e ▸ List.mem_map.2 ⟨s, hmem, rfl⟩)
      rw [modifyAt_get, if_neg hne]

/-! ## Aggregation and layout keep the shape of the tree and the values of leaves -/

theorem calcValues_value_leaf (t : Tree) (h : t.children = []) :
    (calcValues t).1.value = t.value := by
  cases t with
  | node r v x y w h cs =>
    simp only [Tree.children] at h
    subst h
    simp [calcValues, calcChildren, Tree.value]

theorem leafInfo_calcValues (t : Tree) : leafInfo (calcValues t).1 = leafInfo t := by
  unfold leafInfo
  rw [calcValues_ref, calcValues_children, List.map_map]
  have h1 : (Tree.ref ∘ fun c => (calcValues c).1) = Tree.ref := by
    funext c
    simp
  rw [h1]
  cases hc : t.children with
  | nil => simp [calcValues_value_leaf t hc]
  | cons d ds => simp

theorem subtreesList_map_calc (cs : List Tree)
    (ih : ∀ c ∈ cs, subtrees (calcValues c).1 = (subtrees c).map (fun s => (calcValues s).1)) :
    subtreesList (cs.map (fun c => (calcValues c).1))
      = (subtreesList cs).map (fun s => (calcValues s).1) := by
  induction cs with
  | nil => simp [subtreesList]
  | cons d ds ihds =>
    simp only [List.map_cons, subtreesList, List.map_append]
    rw [ih d (List.mem_cons_self _ _), ihds (fun c hc => ih c (List.mem_cons_of_mem _ hc))]

theorem subtrees_calcValues (t : Tree) :
    subtrees (calcValues t).1 = (subtrees t).map (fun s => (calcValues s).1) := by
  induction t using Tree.induct with
  | step r v x y w h cs ih =>
    rw [subtrees_eq, calcValues_children, subtrees_eq (Tree.node r v x y w h cs)]
    simp only [Tree.children, List.map_cons]
    rw [subtreesList_map_calc cs ih]

theorem layoutChildren_map_ref (cs : List Tree) (T x y w h : ℚ) (b : Bool) (pos : ℚ) :
    (layoutChildren cs T x y w h b pos).map Tree.ref = cs.map Tree.ref := by
  induction cs generalizing pos with
  | nil => simp [layoutChildren_nil]
  | cons d ds ih =>
    cases b
    · simp [layoutChildren_cons_horizontal, ih]
    · simp [layoutChildren_cons_vertical, ih]

theorem leafInfo_layout (t : Tree) (x y w h : ℚ) (b : Bool) :
    leafInfo (computeTreemapLayout t x y w h b) = leafInfo t := by
  unfold leafInfo
  have hlen : (computeTreemapLayout t x y w h b).children.length = t.children.length := by
    rw [layout_children, layoutChildren_length]
  have hemp : (computeTreemapLayout t x y w h b).children.isEmpty = t.children.isEmpty := by
    cases h1 : (computeTreemapLayout t x y w h b).children with
    | nil =>
      rw [h1] at hlen
      cases h2 : t.children with
      | nil => rfl
      | cons d ds => rw [h2] at hlen; simp at hlen
    | cons c cs =>
      rw [h1] at hlen
      cases h2 : t.children with
      | nil => rw [h2] at hlen; simp at hlen
      | cons d ds => rfl
  rw [hemp, layout_ref, layout_value, layout_children, layoutChildren_map_ref]

theorem subtreesList_layout (cs : List Tree)
    (ih : ∀ c ∈ cs, ∀ (x y w h : ℚ) (b : Bool),
      (subtrees (computeTreemapLayout c x y w h b)).map leafInfo = (subtrees c).map leafInfo)
    (T x y w h : ℚ) (b : Bool) (pos : ℚ) :
    (subtreesList (layoutChildren cs T x y w h b pos)).map leafInfo
      = (subtreesList cs).map leafInfo := by
  induction cs generalizing pos with
  | nil => simp [layoutChildren_nil]
  | cons d ds ihds =>
    have h2 := fun p => ihds (fun c hc => ih c (List.mem_cons_of_mem _ hc)) p
    cases b
    · rw [layoutChildren_cons_horizontal]
      simp only [subtreesList, List.map_append]
      rw [ih d (List.mem_cons_self _ _), h2]
    · rw [layoutChildren_cons_vertical]
      simp only [subtreesList, List.map_append]
      rw [ih d (List.mem_cons_self _ _), h2]

theorem subtrees_layout (t : Tree) :
    ∀ (x y w h : ℚ) (b : Bool),
      (subtrees (computeTreemapLayout t x y w h b)).map leafInfo = (subtrees t).map leafInfo := by
  induction t using Tree.induct with
  | step r v x0 y0 w0 h0 cs ih =>
    intro x y w h b
    rw [subtrees_eq, subtrees_eq (Tree.node r v x0 y0 w0 h0 cs), List.map_cons, List.map_cons,
      leafInfo_layout, layout_children]
    simp only [Tree.children]
    rw [subtreesList_layout cs ih]

theorem subtrees_run (t : Tree) (x y w h : ℚ) (b : Bool) :
    (subtrees (computeTreemapLayout (calcValues t).1 x y w h b)).map leafInfo
      = (subtrees t).map leafInfo := by
  rw [subtrees_layout, subtrees_calcValues, List.map_map]
  congr 1
  funext s
  exact leafInfo_calcValues s

theorem refs_eq_map_leafInfo (t : Tree) : refs t = ((subtrees t).map leafInfo).map Prod.fst := by
  simp [refs, leafInfo, Function.comp_def]

theorem refs_run (t : Tree) (x y w h : ℚ) (b : Bool) :
    refs (computeTreemapLayout (calcValues t).1 x y w h b) = refs t := by
  rw [refs_eq_map_leafInfo, refs_eq_map_leafInfo, subtrees_run]

/-! ## The objects after a run -/

theorem toTree_subtrees (heap : List Node) (t : Tree) :
    ∀ (fuel i : Nat), toTree heap fuel i = some t →
      ∀ s ∈ subtrees t, ∃ o, heap[s.ref]? = some o ∧ s.children.map Tree.ref = o.children ∧
        s.value = o.value ∧ s.x = o.x ∧ s.y = o.y ∧ s.w = o.w ∧ s.h = o.h := by
  induction t using Tree.induct with
  | step r v x y w h cs ih =>
    intro fuel i ht s hs
    obtain ⟨o, ho, hr, hv, hx, hy, hw, hh, hch, hsub⟩ := toTree_node _ fuel i _ ht
    rcases mem_subtrees.1 hs with rfl | ⟨c, hc, hsc⟩
    · exact ⟨o, by rw [hr]; exact ho, hch, hv, hx, hy, hw, hh⟩
    · obtain ⟨g, hg⟩ := hsub c hc
      exact ih c (by simpa [Tree.children] using hc) g c.ref hg s hsc

theorem leafInfo_eq {s s0 : Tree} (h : leafInfo s0 = leafInfo s) :
    s0.ref = s.ref ∧ s0.children.map Tree.ref = s.children.map Tree.ref ∧
      (s.children = [] → s0.value = s.value) := by
  unfold leafInfo at h
  simp only [Prod.mk.injEq] at h
  obtain ⟨h1, h2, h3⟩ := h
  refine ⟨h1, h2, ?_⟩
  intro hs
  have hs0 : s0.children = [] := by
    rw [hs] at h2
    simpa using h2
  rw [hs, hs0] at h3
  simpa using h3

theorem run_nodes {flatNodes : List Record} {W H : ℤ} {heap : List Node} {tree : Tree}
    {cells : List Cell} (hrun : processGraph flatNodes W H = .done heap tree cells) :
    (refs tree).Nodup ∧ (pureHierarchy flatNodes).2 = some tree.ref ∧
    ∀ s ∈ subtrees tree, ∃ o, (pureHierarchy flatNodes).1[s.ref]? = some o ∧
      s.children.map Tree.ref = o.children ∧ (s.children = [] → s.value = o.value) ∧
      heap[s.ref]? = some (storeOn s o) := by
  obtain ⟨rootNode, t, hroot, ht, rfl, rfl, -⟩ := processGraph_done hrun
  obtain ⟨hr, -⟩ := parentIndex_root flatNodes rootNode hroot
  have hnd : (refs (computeTreemapLayout (calcValues t).1 0 0 W H true)).Nodup := by
    rw [refs_run]
    exact toTree_refs_nodup flatNodes rootNode hr t _ rootNode 0 ht rfl
  refine ⟨hnd, ?_, ?_⟩
  · rw [layout_ref, calcValues_ref, (toTree_eq_some _ _ _ _ ht).1]
    exact hroot
  · intro s hs
    have hmem : leafInfo s ∈ (subtrees t).map leafInfo := by
      rw [← subtrees_run t 0 0 W H true]
      exact List.mem_map.2 ⟨s, hs, rfl⟩
    obtain ⟨s0, hs0, he⟩ := List.mem_map.1 hmem
    obtain ⟨e1, e2, e3⟩ := leafInfo_eq he
    obtain ⟨o, ho, hch, hv, -⟩ := toTree_subtrees _ t _ _ ht s0 hs0
    refine ⟨o, by rw [← e1]; exact ho, by rw [← e2]; exact hch, ?_, ?_⟩
    · intro hleaf
      rw [← e3 hleaf]
      exact hv
    · rw [writeBack_get _ _ hnd s hs, ← e1, ho]
      rfl

theorem generateDrawioXML_get (heap : List Node) (nodeMap : NodeMap) (j : Nat) :
    (generateDrawioXML heap nodeMap)[j + 2]? = heap[j]?.map (emitCell heap nodeMap) := by
  simp [generateDrawioXML]

theorem mathRound_intCast (n : ℤ) : mathRound (n : ℚ) = n := by
  unfold mathRound
  rw [Int.floor_eq_iff]
  constructor
  · norm_num
  · norm_num

theorem mathRound_zero : mathRound 0 = 0 := by
  have := mathRound_intCast 0
  simpa using this

theorem emitCell_geometry (heap : List Node) (nodeMap : NodeMap) (node : Node) :
    (emitCell heap nodeMap node).geometry =
      some { x := (match (parentOf nodeMap node.parent).bind (fun p => heap[p]?) with
                   | some p => some (node.x - p.x)
                   | none =>
                     if parentIsForeign nodeMap heap node.parent then none
                     else some node.x).map mathRound,
             y := (match (parentOf nodeMap node.parent).bind (fun p => heap[p]?) with
                   | some p => some (node.y - p.y)
                   | none =>
                     if parentIsForeign nodeMap heap node.parent then none
                     else some node.y).map mathRound,
             width := mathRound node.w, height := mathRound node.h } := by
  rfl

theorem hierarchy_node (flatNodes : List Record) (j : Nat) (o : Node)
    (ho : (pureHierarchy flatNodes).1[j]? = some o) :
    ∃ n, flatNodes[j]? = some n ∧ o.id = n.id ∧ o.parent = n.parent ∧ o.value = n.value ∧
      o.label = n.label ∧ o.x = 0 ∧ o.y = 0 ∧ o.w = 0 ∧ o.h = 0 := by
  rw [hierarchy_get] at ho
  cases hn : flatNodes[j]? with
  | none => simp [hn] at ho
  | some n =>
    simp only [hn, Option.map_some', Option.some.injEq] at ho
    subst ho
    exact ⟨n, rfl, rfl, rfl, rfl, rfl, rfl, rfl, rfl, rfl⟩

theorem child_mem_subtrees {p c t : Tree} (hp : p ∈ subtrees t) (hc : c ∈ p.children) :
    c ∈ subtrees t := by
  induction t using Tree.induct with
  | step r v x y w h cs ih =>
    rcases mem_subtrees.1 hp with rfl | ⟨d, hd, hpd⟩
    · exact subtrees_child hc (self_mem_subtrees c)
    · exact subtrees_child hd (ih d (by simpa [Tree.children] using hd) hpd)

theorem emitted_child {flatNodes : List Record} {W H : ℤ} {heap : List Node} {tree : Tree}
    {cells : List Cell} (hrun : processGraph flatNodes W H = .done heap tree cells)
    (p : Tree) (hp : p ∈ subtrees tree) (c : Tree) (hc : c ∈ p.children) :
    ∃ n, flatNodes[c.ref]? = some n ∧ parentIndex flatNodes c.ref = some p.ref ∧
      cells[c.ref + 2]?.map Cell.id = some ("cell_" ++ n.id) ∧
      cells[c.ref + 2]?.bind Cell.geometry =
        some { x := some (mathRound (c.x - p.x)), y := some (mathRound (c.y - p.y)),
               width := mathRound c.w, height := mathRound c.h } := by
  obtain ⟨-, -, hnodes⟩ := run_nodes hrun
  obtain ⟨op, hop, hpch, -, hheapp⟩ := hnodes p hp
  obtain ⟨oc, hoc, -, -, hheapc⟩ := hnodes c (child_mem_subtrees hp hc)
  obtain ⟨n, hn, hid, hpar, -⟩ := hierarchy_node flatNodes c.ref oc hoc
  have hmem : c.ref ∈ op.children := by
    rw [← hpch]
    exact List.mem_map.2 ⟨c, hc, rfl⟩
  have hpi := (hierarchy_child flatNodes p.ref c.ref op hop).1 hmem
  have hpo : parentOf (buildMap flatNodes 0 (fun _ => none)) (storeOn c oc).parent
      = some p.ref := by
    have : (storeOn c oc).parent = n.parent := hpar
    rw [this]
    simpa [parentIndex, hn] using hpi
  obtain ⟨-, -, -, -, -, -, hcells⟩ := processGraph_done hrun
  refine ⟨n, hn, hpi, ?_, ?_⟩
  · rw [hcells, generateDrawioXML_get, hheapc]
    simp [emitCell, storeOn, hid]
  · rw [hcells, generateDrawioXML_get, hheapc]
    simp only [Option.map_some', Option.some_bind, emitCell_geometry, hpo, hheapp]
    rfl

theorem emitted_root {flatNodes : List Record} {W H : ℤ} {heap : List Node} {tree : Tree}
    {cells : List Cell} (hrun : processGraph flatNodes W H = .done heap tree cells) :
    ∃ n, flatNodes[tree.ref]? = some n ∧ (pureHierarchy flatNodes).2 = some tree.ref ∧
      cells[tree.ref + 2]?.map Cell.id = some ("cell_" ++ n.id) ∧
      cells[tree.ref + 2]?.bind Cell.geometry =
        some { x := if parentIsForeign (buildMap flatNodes 0 (fun _ => none)) heap n.parent
                    then none else some 0,
               y := if parentIsForeign (buildMap flatNodes 0 (fun _ => none)) heap n.parent
                    then none else some 0,
               width := W, height := H } := by
  obtain ⟨-, hroot, hnodes⟩ := run_nodes hrun
  obtain ⟨o, ho, -, -, hheap⟩ := hnodes tree (self_mem_subtrees tree)
  obtain ⟨n, hn, hid, hpar, -⟩ := hierarchy_node flatNodes tree.ref o ho
  obtain ⟨hpi, -⟩ := parentIndex_root flatNodes tree.ref hroot
  have hsp : (storeOn tree o).parent = n.parent := hpar
  have hpo : parentOf (buildMap flatNodes 0 (fun _ => none)) n.parent = none := by
    simpa [parentIndex, hn] using hpi
  obtain ⟨r0, t0, -, -, htree, -, hcells⟩ := processGraph_done hrun
  have hx : tree.x = 0 := by rw [htree]; exact layout_x ..
  have hy : tree.y = 0 := by rw [htree]; exact layout_y ..
  have hw : tree.w = (W : ℚ) := by rw [htree]; exact layout_w ..
  have hh : tree.h = (H : ℚ) := by rw [htree]; exact layout_h ..
  refine ⟨n, hn, hroot, ?_, ?_⟩
  · rw [hcells, generateDrawioXML_get, hheap]
    simp [emitCell, storeOn, hid]
  · rw [hcells, generateDrawioXML_get, hheap]
    simp only [Option.map_some', Option.some_bind, emitCell_geometry, hsp, hpo, Option.none_bind]
    simp only [storeOn, hx, hy, hw, hh, mathRound_intCast]
    split <;> simp [mathRound_zero]

/-! ## Emitted geometry -/

/-- C11 (code evaluated at the failing input): the single record with id
"__proto__" and parent "w" (unique ids).  The assignment
`nodeMap["__proto__"] = n` makes the record the prototype of `nodeMap`, so
`nodeMap["w"]` reads the field `w` of the record: 0 in the hierarchy loop,
where the record therefore becomes the root, and 800 after the layout.  The
emitter then takes the number 800 for the parent container and computes
`node.x - (800).x`, which is `NaN`: the root, laid out at (0, 0, 800, 600), is
emitted with x = NaN and y = NaN instead of (0, 0). -/
theorem C11_root_below_prototype_record_is_emitted_at_NaN :
    ∃ heap tree cells,
      processGraph [⟨"__proto__", some "w", 0, "__proto__"⟩] 800 600 = .done heap tree cells ∧
      tree = .node 0 0 0 0 800 600 [] ∧
      cells[2]?.map Cell.id = some "cell___proto__" ∧
      cells[2]?.bind Cell.geometry = some { x := none, y := none, width := 800, height := 600 } := by
  refine ⟨_, _, _, rfl, ?_⟩
  simp [buildHierarchy, linkAll, parentIsForeign, inherited, fieldTruthy, objectPrototypeKeys, initNodes, initNode,
    parentOf, truthy, toTree, allSome, calcValues, calcChildren, computeTreemapLayout,
    layoutChildren, writeBack, writeBackList, modifyAt, buildMap, pushChild, totalValue,
    Tree.value, generateDrawioXML, emitCell, mathRound]
  norm_num

/-! ## Rounded containment -/

theorem subtreesList_layout_map {α : Type} (f : Tree → α) (cs : List Tree)
    (ih : ∀ c ∈ cs, ∀ (x y w h : ℚ) (b : Bool),
      (subtrees (computeTreemapLayout c x y w h b)).map f = (subtrees c).map f)
    (T x y w h : ℚ) (b : Bool) (pos : ℚ) :
    (subtreesList (layoutChildren cs T x y w h b pos)).map f = (subtreesList cs).map f := by
  induction cs generalizing pos with
  | nil => simp [layoutChildren_nil]
  | cons d ds ihds =>
    have h2 := fun p => ihds (fun c hc => ih c (List.mem_cons_of_mem _ hc)) p
    cases b
    · rw [layoutChildren_cons_horizontal]
      simp only [subtreesList, List.map_append]
      rw [ih d (List.mem_cons_self _ _), h2]
    · rw [layoutChildren_cons_vertical]
      simp only [subtreesList, List.map_append]
      rw [ih d (List.mem_cons_self _ _), h2]

theorem subtrees_layout_map {α : Type} (f : Tree → α)
    (hf : ∀ (t : Tree) (x y w h : ℚ) (b : Bool), f (computeTreemapLayout t x y w h b) = f t)
    (t : Tree) :
    ∀ (x y w h : ℚ) (b : Bool),
      (subtrees (computeTreemapLayout t x y w h b)).map f = (subtrees t).map f := by
  induction t using Tree.induct with
  | step r v x0 y0 w0 h0 cs ih =>
    intro x y w h b
    rw [subtrees_eq, subtrees_eq (Tree.node r v x0 y0 w0 h0 cs), List.map_cons, List.map_cons,
      hf, layout_children]
    simp only [Tree.children]
    rw [subtreesList_layout_map f cs ih]

theorem layout_values_transfer (t : Tree) (x y w h : ℚ) (b : Bool)
    (hval : ∀ n ∈ subtrees (computeTreemapLayout t x y w h b),
      0 ≤ n.value ∧ (n.children ≠ [] → 0 < totalValue n.children)) :
    ∀ n ∈ subtrees t, 0 ≤ n.value ∧ (n.children ≠ [] → 0 < totalValue n.children) := by
  intro n0 hn0
  have key := subtrees_layout_map (fun s => (s.value, s.children.map Tree.value))
    (fun t x y w h b => by simp only [layout_value, layout_children_values]) t x y w h b
  have hmem : (n0.value, n0.children.map Tree.value) ∈
      (subtrees (computeTreemapLayout t x y w h b)).map
        (fun s => (s.value, s.children.map Tree.value)) := by
    rw [key]
    exact List.mem_map.2 ⟨n0, hn0, rfl⟩
  obtain ⟨n, hn, he⟩ := List.mem_map.1 hmem
  simp only [Prod.mk.injEq] at he
  obtain ⟨h1, h2⟩ := hval n hn
  refine ⟨by rw [← he.1]; exact h1, ?_⟩
  intro hne
  have hne' : n.children ≠ [] := by
    intro hnil
    rw [hnil] at he
    apply hne
    simpa using he.2.symm
  have := h2 hne'
  rwa [totalValue_eq_sum, he.2, ← totalValue_eq_sum] at this

theorem mathRound_nonneg (a : ℚ) (ha : 0 ≤ a) : 0 ≤ mathRound a := by
  unfold mathRound
  apply Int.floor_nonneg.2
  linarith

theorem mathRound_add_le (a b p : ℚ) (h : a + b ≤ p) :
    mathRound a + mathRound b ≤ mathRound p + 1 := by
  unfold mathRound
  have h1 := Int.floor_le (a + 1 / 2)
  have h2 := Int.floor_le (b + 1 / 2)
  have h3 := Int.lt_floor_add_one (p + 1 / 2)
  by_contra hcon
  have h4 : ⌊p + 1 / 2⌋ + 2 ≤ ⌊a + 1 / 2⌋ + ⌊b + 1 / 2⌋ := by omega
  have h5 : ((⌊p + 1 / 2⌋ + 2 : ℤ) : ℚ) ≤ ((⌊a + 1 / 2⌋ + ⌊b + 1 / 2⌋ : ℤ) : ℚ) := by
    exact_mod_cast h4
  push_cast at h5
  linarith

theorem emitted_size {flatNodes : List Record} {W H : ℤ} {heap : List Node} {tree : Tree}
    {cells : List Cell} (hrun : processGraph flatNodes W H = .done heap tree cells)
    (s : Tree) (hs : s ∈ subtrees tree) :
    ∃ g, cells[s.ref + 2]?.bind Cell.geometry = some g ∧
      g.width = mathRound s.w ∧ g.height = mathRound s.h := by
  obtain ⟨-, -, hnodes⟩ := run_nodes hrun
  obtain ⟨o, -, -, -, hheap⟩ := hnodes s hs
  obtain ⟨-, -, -, -, -, -, hcells⟩ := processGraph_done hrun
  have hg : cells[s.ref + 2]?.bind Cell.geometry
      = (emitCell heap (buildMap flatNodes 0 (fun _ => none)) (storeOn s o)).geometry := by
    rw [hcells, generateDrawioXML_get, hheap]
    rfl
  rw [hg, emitCell_geometry]
  exact ⟨_, rfl, rfl, rfl⟩

/-- C12 (amended): in exact arithmetic, when a run of `processGraph` laid out a
tree with non-negative (finite) node values and positive children totals at
every internal node on a canvas of non-negative width and height, the rounded
integers emitted for a non-root node and for its parent satisfy containment
with a slack of one unit: the emitted X and Y are numbers (not `NaN`),
0 <= X, 0 <= Y, X + Width <= ParentWidth + 1 and Y + Height <= ParentHeight + 1. -/
theorem C12_rounded_containment_with_slack_one
    (flatNodes : List Record) (W H : ℤ) (heap : List Node) (tree : Tree) (cells : List Cell)
    (hrun : processGraph flatNodes W H = .done heap tree cells)
    (hval : ∀ n ∈ subtrees tree, 0 ≤ n.value ∧ (n.children ≠ [] → 0 < totalValue n.children))
    (hW : 0 ≤ W) (hH : 0 ≤ H) :
    ∀ p ∈ subtrees tree, ∀ c ∈ p.children,
      ∃ gc gp X Y, cells[c.ref + 2]?.bind Cell.geometry = some gc ∧
        cells[p.ref + 2]?.bind Cell.geometry = some gp ∧
        gc = { x := some X, y := some Y,
               width := mathRound c.w, height := mathRound c.h } ∧
        X = mathRound (c.x - p.x) ∧ Y = mathRound (c.y - p.y) ∧
        0 ≤ X ∧ 0 ≤ Y ∧
        X + gc.width ≤ gp.width + 1 ∧ Y + gc.height ≤ gp.height + 1 := by
  intro p hp c hc
  obtain ⟨n, -, -, -, hgc⟩ := emitted_child hrun p hp c hc
  obtain ⟨gp, hgp, hgw, hgh⟩ := emitted_size hrun p hp
  obtain ⟨r0, t0, -, -, htree, -, -⟩ := processGraph_done hrun
  have hval0 := layout_values_transfer (calcValues t0).1 0 0 W H true (by rw [← htree]; exact hval)
  have hin := layout_inside (calcValues t0).1 0 0 W H true hval0
    (by exact_mod_cast hW) (by exact_mod_cast hH) p (by rw [← htree]; exact hp) c hc
  obtain ⟨h1, h2, h3, h4⟩ := hin
  refine ⟨_, gp, _, _, hgc, hgp, rfl, rfl, rfl, ?_, ?_, ?_, ?_⟩
  · exact mathRound_nonneg _ (by linarith)
  · exact mathRound_nonneg _ (by linarith)
  · rw [hgw]
    exact mathRound_add_le _ _ _ (by linarith)
  · rw [hgh]
    exact mathRound_add_le _ _ _ (by linarith)
theorem abc_done : processGraph abcRecords 800 600 = .done abcHeap abcTree abcCells :=
  abc_run

theorem abcTree_values :
    ∀ n ∈ subtrees abcTree, 0 ≤ n.value ∧ (n.children ≠ [] → 0 < totalValue n.children) := by
  intro n hn
  simp [abcTree, subtrees, subtreesList] at hn
  rcases hn with rfl | rfl | rfl <;> norm_num [Tree.value, Tree.children, totalValue]

/-- Witness for C12 (amended): the worked example A, B, C on an 800 x 600 canvas. -/
theorem C12_rounded_containment_with_slack_one_witness :
    processGraph abcRecords 800 600 = .done abcHeap abcTree abcCells ∧
    (∀ n ∈ subtrees abcTree, 0 ≤ n.value ∧ (n.children ≠ [] → 0 < totalValue n.children)) ∧
    (0 : ℤ) ≤ 800 ∧ (0 : ℤ) ≤ 600 ∧
    ∀ p ∈ subtrees abcTree, ∀ c ∈ p.children,
      ∃ gc gp X Y, abcCells[c.ref + 2]?.bind Cell.geometry = some gc ∧
        abcCells[p.ref + 2]?.bind Cell.geometry = some gp ∧
        gc = { x := some X, y := some Y,
               width := mathRound c.w, height := mathRound c.h } ∧
        X = mathRound (c.x - p.x) ∧ Y = mathRound (c.y - p.y) ∧
        0 ≤ X ∧ 0 ≤ Y ∧
        X + gc.width ≤ gp.width + 1 ∧ Y + gc.height ≤ gp.height + 1 :=
  ⟨abc_done, abcTree_values, by decide, by decide,
    C12_rounded_containment_with_slack_one abcRecords 800 600 abcHeap abcTree abcCells abc_done
      abcTree_values (by decide) (by decide)⟩

/-! ## Areas are proportional to the aggregated weights -/

theorem calcValues_value (t : Tree) :
    (calcValues t).1.value =
      if t.children.length > 0 then (t.children.map (fun c => (calcValues c).2)).sum
      else t.value := by
  cases t with
  | node r v x y w h cs =>
    simp [calcValues, Tree.value, Tree.children, calcChildren_snd]

theorem calcValues_snd (t : Tree) :
    (calcValues t).2 = if (calcValues t).1.value = 0 then 1 else (calcValues t).1.value := by
  cases t with
  | node r v x y w h cs =>
    simp [calcValues, Tree.value]

theorem sum_pos_of_pos (l : List ℚ) (hne : l ≠ []) (hpos : ∀ a ∈ l, 0 < a) : 0 < l.sum := by
  induction l with
  | nil => exact absurd rfl hne
  | cons a rest ih =>
    rw [List.sum_cons]
    have ha := hpos a (List.mem_cons_self _ _)
    by_cases hr : rest = []
    · subst hr
      simpa using ha
    · have := ih hr (fun b hb => hpos b (List.mem_cons_of_mem _ hb))
      linarith

theorem calcValues_pos (t : Tree) :
    (∀ n ∈ subtrees t, n.children = [] → 0 < n.value) →
      (calcValues t).2 = (calcValues t).1.value ∧
      ∀ n ∈ subtrees (calcValues t).1,
        0 < n.value ∧ (n.children ≠ [] → totalValue n.children = n.value) := by
  induction t using Tree.induct with
  | step r v x y w h cs ih =>
    intro hleaf
    have hch : ∀ c ∈ cs, (calcValues c).2 = (calcValues c).1.value ∧
        ∀ n ∈ subtrees (calcValues c).1,
          0 < n.value ∧ (n.children ≠ [] → totalValue n.children = n.value) := fun c hc =>
      ih c hc (fun n hn => hleaf n (subtrees_child (by simpa [Tree.children] using hc) hn))
    have htot : totalValue (calcValues (Tree.node r v x y w h cs)).1.children
        = (cs.map (fun c => (calcValues c).2)).sum := by
      rw [totalValue_eq_sum, calcValues_children, List.map_map]
      simp only [Tree.children]
      congr 1
      apply List.map_congr_left
      intro c hc
      exact ((hch c hc).1).symm
    have hval : 0 < (calcValues (Tree.node r v x y w h cs)).1.value := by
      rw [calcValues_value]
      simp only [Tree.children, Tree.value]
      by_cases hcs : cs = []
      · subst hcs
        simpa [Tree.children, Tree.value] using
          hleaf _ (self_mem_subtrees _) (by simp [Tree.children])
      · have hlen : cs.length > 0 := List.length_pos.2 hcs
        rw [if_pos hlen]
        apply sum_pos_of_pos
        · simpa using hcs
        · intro a ha
          obtain ⟨c, hc, rfl⟩ := List.mem_map.1 ha
          rw [(hch c hc).1]
          exact ((hch c hc).2 _ (self_mem_subtrees _)).1
    refine ⟨?_, ?_⟩
    · rw [calcValues_snd, if_neg (ne_of_gt hval)]
    · intro n hn
      rcases mem_subtrees.1 hn with rfl | ⟨c, hc, hnc⟩
      · refine ⟨hval, ?_⟩
        intro hne
        rw [htot, calcValues_value]
        simp only [Tree.children]
        have hcs : cs ≠ [] := by
          intro hnil
          apply hne
          rw [calcValues_children]
          simp [Tree.children, hnil]
        rw [if_pos (List.length_pos.2 hcs)]
      · rw [calcValues_children] at hc
        obtain ⟨c0, hc0, rfl⟩ := List.mem_map.1 hc
        exact (hch c0 (by simpa [Tree.children] using hc0)).2 n hnc

theorem layout_area (t : Tree) :
    (∀ n ∈ subtrees t, 0 < n.value ∧ (n.children ≠ [] → totalValue n.children = n.value)) →
      ∀ (x y w h : ℚ) (b : Bool), ∀ n ∈ subtrees (computeTreemapLayout t x y w h b),
        n.w * n.h = w * h * n.value / t.value := by
  induction t using Tree.induct with
  | step r v x0 y0 w0 h0 cs ih =>
    intro hval x y w h b n hn
    have hv : 0 < v := by
      simpa [Tree.value] using (hval _ (self_mem_subtrees _)).1
    have hrv : (Tree.node r v x0 y0 w0 h0 cs).value = v := rfl
    have hrc : (Tree.node r v x0 y0 w0 h0 cs).children = cs := rfl
    rcases mem_subtrees.1 hn with rfl | ⟨c, hc, hnc⟩
    · rw [layout_w, layout_h, layout_value, hrv]
      field_simp
    · obtain ⟨i, c0, h0, rfl⟩ := child_box _ _ _ _ _ _ _ hc
      rw [hrc] at h0
      have hmem : c0 ∈ cs := List.getElem?_mem h0
      have hne : cs ≠ [] := List.ne_nil_of_mem hmem
      have hT : totalValue cs = v := by
        have := (hval _ (self_mem_subtrees _)).2 (by rw [hrc]; exact hne)
        rwa [hrc, hrv] at this
      have hval0 : ∀ m ∈ subtrees c0,
          0 < m.value ∧ (m.children ≠ [] → totalValue m.children = m.value) := fun m hm =>
        hval m (subtrees_child (by rw [hrc]; exact hmem) hm)
      have hc0 : 0 < c0.value := (hval0 c0 (self_mem_subtrees _)).1
      rw [hrc, hT] at hnc
      rw [hrv]
      cases b
      · simp only [Bool.false_eq_true, if_false] at hnc
        rw [ih c0 hmem hval0 _ _ _ _ _ n hnc]
        field_simp
        ring
      · simp only [if_true] at hnc
        rw [ih c0 hmem hval0 _ _ _ _ _ n hnc]
        field_simp
        ring

/-- C13 (amended): in exact arithmetic, for a tree in which every leaf has a
positive raw value and a canvas W x H, after `calcValues` and
`computeTreemapLayout` the area of every node's rectangle is proportional to
its aggregated weight: node.w * node.h = W * H * node.value / root.value. -/
theorem C13_area_proportional_to_value (t : Tree) (W H : ℚ)
    (hleaf : ∀ n ∈ subtrees t, n.children = [] → 0 < n.value) :
    ∀ n ∈ subtrees (computeTreemapLayout (calcValues t).1 0 0 W H true),
      n.w * n.h =
        W * H * n.value / (computeTreemapLayout (calcValues t).1 0 0 W H true).value := by
  intro n hn
  rw [layout_value]
  exact layout_area (calcValues t).1 (calcValues_pos t hleaf).2 0 0 W H true n hn

theorem exampleTree_leaves : ∀ n ∈ subtrees exampleTree, n.children = [] → 0 < n.value := by
  intro n hn
  simp [exampleTree, subtrees, subtreesList] at hn
  rcases hn with rfl | rfl | rfl <;> norm_num [Tree.value, Tree.children]

/-- Witness for C13 (amended): the example tree (leaves of values 3 and 1) on an
800 x 600 canvas. -/
theorem C13_area_proportional_to_value_witness :
    (∀ n ∈ subtrees exampleTree, n.children = [] → 0 < n.value) ∧
    ∀ n ∈ subtrees (computeTreemapLayout (calcValues exampleTree).1 0 0 800 600 true),
      n.w * n.h =
        800 * 600 * n.value /
          (computeTreemapLayout (calcValues exampleTree).1 0 0 800 600 true).value :=
  ⟨exampleTree_leaves, C13_area_proportional_to_value exampleTree 800 600 exampleTree_leaves⟩

/-! ## Alternation of the split axis -/

theorem mem_foldr_append {α β : Type} (f : α → List β) (l : List α) (b : β) :
    b ∈ l.foldr (fun c acc => f c ++ acc) [] ↔ ∃ c ∈ l, b ∈ f c := by
  induction l with
  | nil => simp
  | cons a rest ih => simp [ih]

theorem mem_atDepth_succ {p t : Tree} {d : Nat} :
    p ∈ atDepth (d + 1) t ↔ ∃ c ∈ t.children, p ∈ atDepth d c := by
  rw [atDepth, mem_foldr_append]

theorem layout_axis (d : Nat) :
    ∀ (t : Tree) (x y w h : ℚ) (b : Bool),
      ∀ p ∈ atDepth d (computeTreemapLayout t x y w h b), ∀ c ∈ p.children,
        ((if d % 2 = 0 then b else !b) = true → c.x = p.x ∧ c.w = p.w) ∧
        ((if d % 2 = 0 then b else !b) = false → c.y = p.y ∧ c.h = p.h) := by
  induction d with
  | zero =>
    intro t x y w h b p hp c hc
    simp only [atDepth, List.mem_singleton] at hp
    subst hp
    obtain ⟨i, c0, -, rfl⟩ := child_box _ _ _ _ _ _ _ hc
    cases b <;> simp
  | succ d ih =>
    intro t x y w h b p hp c hc
    obtain ⟨c1, hc1, hp1⟩ := mem_atDepth_succ.1 hp
    obtain ⟨i, c0, -, rfl⟩ := child_box _ _ _ _ _ _ _ hc1
    have hflag : (if (d + 1) % 2 = 0 then b else !b) = (if d % 2 = 0 then !b else !(!b)) := by
      rcases Nat.mod_two_eq_zero_or_one d with h0 | h1
      · have : (d + 1) % 2 = 1 := by omega
        simp [h0, this]
      · have : (d + 1) % 2 = 0 := by omega
        simp [h1, this]
    rw [hflag]
    cases b
    · simp only [Bool.false_eq_true, if_false] at hp1
      exact ih c0 _ _ _ _ _ p hp1 c hc
    · simp only [if_true] at hp1
      exact ih c0 _ _ _ _ _ p hp1 c hc

/-- C14: with the root (depth 0) split vertically, every node at even depth
gives each child its own x and width (the children differ only in y and
height), and every node at odd depth gives each child its own y and height
(the children differ only in x and width): the split axis of a node is the
opposite of its parent's. -/
theorem C14_split_axis_alternates_with_depth (t : Tree) (x y w h : ℚ) (d : Nat) :
    ∀ p ∈ atDepth d (computeTreemapLayout t x y w h true), ∀ c ∈ p.children,
      (d % 2 = 0 → c.x = p.x ∧ c.w = p.w) ∧ (d % 2 = 1 → c.y = p.y ∧ c.h = p.h) := by
  intro p hp c hc
  have key := layout_axis d t x y w h true p hp c hc
  constructor
  · intro hd
    exact key.1 (by simp [hd])
  · intro hd
    exact key.2 (by simp [hd])
theorem nestedTree_layout :
    computeTreemapLayout nestedTree 0 0 800 600 true =
      .node 0 4 0 0 800 600
        [.node 1 2 0 0 800 300 [.node 3 1 0 0 400 300 [], .node 4 1 400 0 400 300 []],
          .node 2 2 0 300 800 300 []] := by
  simp [nestedTree, computeTreemapLayout, layoutChildren, totalValue, Tree.value]
  norm_num

/-- Witness for C14: in the layout of the nested example on an 800 x 600 canvas
the node at depth 1 passes its own y and height to its first child. -/
theorem C14_split_axis_alternates_with_depth_witness :
    Tree.node 1 2 0 0 800 300 [.node 3 1 0 0 400 300 [], .node 4 1 400 0 400 300 []]
      ∈ atDepth 1 (computeTreemapLayout nestedTree 0 0 800 600 true) ∧
    Tree.node 3 1 0 0 400 300 [] ∈
      (Tree.node 1 2 0 0 800 300
        [.node 3 1 0 0 400 300 [], .node 4 1 400 0 400 300 []]).children ∧
    1 % 2 = 1 ∧
    (Tree.node 3 1 0 0 400 300 []).y =
      (Tree.node 1 2 0 0 800 300 [.node 3 1 0 0 400 300 [], .node 4 1 400 0 400 300 []]).y ∧
    (Tree.node 3 1 0 0 400 300 []).h =
      (Tree.node 1 2 0 0 800 300 [.node 3 1 0 0 400 300 [], .node 4 1 400 0 400 300 []]).h := by
  have h1 : Tree.node 1 2 0 0 800 300 [.node 3 1 0 0 400 300 [], .node 4 1 400 0 400 300 []]
      ∈ atDepth 1 (computeTreemapLayout nestedTree 0 0 800 600 true) := by
    rw [nestedTree_layout]
    simp [atDepth, Tree.children]
  have h2 : Tree.node 3 1 0 0 400 300 [] ∈
      (Tree.node 1 2 0 0 800 300
        [.node 3 1 0 0 400 300 [], .node 4 1 400 0 400 300 []]).children := by
    simp [Tree.children]
  exact ⟨h1, h2, rfl,
    (C14_split_axis_alternates_with_depth nestedTree 0 0 800 600 1 _ h1 _ h2).2 rfl⟩

/-! ## The walk from the root is a finite tree -/

theorem map_some_congr (l : List Nat) (ts : List Tree) (f g : Nat → Option Tree)
    (h : l.map f = ts.map some) (hfg : ∀ k t, f k = some t → g k = some t) :
    l.map g = ts.map some := by
  induction l generalizing ts with
  | nil =>
    cases ts with
    | nil => rfl
    | cons u us => simp at h
  | cons a rest ih =>
    cases ts with
    | nil => simp at h
    | cons u us =>
      simp only [List.map_cons, List.cons.injEq] at h ⊢
      exact ⟨hfg a u h.1, ih us h.2⟩

theorem toTree_succ (heap : List Node) (fuel : Nat) :
    ∀ (i : Nat) (t : Tree), toTree heap fuel i = some t → toTree heap (fuel + 1) i = some t := by
  induction fuel with
  | zero =>
    intro i t h
    simp [toTree] at h
  | succ fuel ih =>
    intro i t h
    rw [toTree] at h ⊢
    cases ho : heap[i]? with
    | none => simp [ho] at h
    | some o =>
      simp only [ho] at h ⊢
      cases hts : allSome (o.children.map (toTree heap fuel)) with
      | none => simp [hts] at h
      | some ts =>
        simp only [hts, Option.map_some', Option.some.injEq] at h
        have h1 := (allSome_eq_some _ _).1 hts
        have h2 := map_some_congr _ _ _ (toTree heap (fuel + 1)) h1 ih
        rw [(allSome_eq_some _ _).2 h2]
        simp [h]

theorem toTree_le (heap : List Node) (fuel fuel2 i : Nat) (t : Tree) (hle : fuel ≤ fuel2)
    (h : toTree heap fuel i = some t) : toTree heap fuel2 i = some t := by
  induction hle with
  | refl => exact h
  | step _ ih => exact toTree_succ heap _ i t ih

/-- Whenever the hierarchy loop returns with a root (duplicate ids,
self-parenting records and cycles among the parent references included), the
walk over the children lists from the root ends, with the same tree for every
fuel from the number of records on; no object occurs twice in that tree (no
record is reached from the root along two paths, or from itself); and
`processGraph` completes aggregation, layout and emission on it for every
canvas. -/
theorem tree_below_root_is_finite (flatNodes : List Record) (st : List Node × Option Nat)
    (r : Nat) (hst : buildHierarchy flatNodes = some st) (hroot : st.2 = some r) :
    ∃ t, toTree st.1 flatNodes.length r = some t ∧
      (∀ fuel, flatNodes.length ≤ fuel → toTree st.1 fuel r = some t) ∧
      (refs t).Nodup ∧
      (∀ j ∈ refs t, ∃ e, ancestor flatNodes e j = some r) ∧
      ∀ W H : ℤ, ∃ heap tree cells,
        processGraph flatNodes W H = .done heap tree cells ∧ refs tree = refs t := by
  obtain ⟨hc, rfl⟩ := buildHierarchy_some hst
  obtain ⟨t, ht⟩ := toTree_root flatNodes r hroot
  obtain ⟨hr, -⟩ := parentIndex_root flatNodes r hroot
  refine ⟨t, ht, fun fuel hle => toTree_le _ _ _ _ _ hle ht,
    toTree_refs_nodup flatNodes r hr t _ r 0 ht rfl,
    descendant_of_mem_refs flatNodes t _ r ht, ?_⟩
  intro W H
  obtain ⟨heap, tree, cells, hrun⟩ := processGraph_runs flatNodes W H r hc hroot
  refine ⟨heap, tree, cells, hrun, ?_⟩
  obtain ⟨r2, t2, hroot2, ht2, rfl, -, -⟩ := processGraph_done hrun
  rw [hroot] at hroot2
  cases hroot2
  rw [ht] at ht2
  cases ht2
  exact refs_run t 0 0 W H true

/-- C15 (code evaluated at the failing input): for the records A (no parent)
and B (parent "constructor") the hierarchy loop finds the root A in its first
iteration, and throws a TypeError in the second: `nodeMap["constructor"]` is
the function `Object` inherited from `Object.prototype`, which has no
`children`.  A root is found, yet neither `calcValues` nor
`computeTreemapLayout` is reached and the layout does not complete. -/
theorem C15_root_is_found_and_layout_is_not_reached :
    linkAll (buildMap [⟨"A", none, 1, "A"⟩, ⟨"B", some "constructor", 1, "B"⟩] 0 (fun _ => none))
        [⟨"A", none, 1, "A"⟩] 0
        (initNodes [⟨"A", none, 1, "A"⟩, ⟨"B", some "constructor", 1, "B"⟩], none) =
      some (initNodes [⟨"A", none, 1, "A"⟩, ⟨"B", some "constructor", 1, "B"⟩], some 0) ∧
    buildHierarchy [⟨"A", none, 1, "A"⟩, ⟨"B", some "constructor", 1, "B"⟩] = none ∧
    processGraph [⟨"A", none, 1, "A"⟩, ⟨"B", some "constructor", 1, "B"⟩] 800 600 = .typeError ∧
    (processGraph [⟨"A", none, 1, "A"⟩, ⟨"B", some "constructor", 1, "B"⟩] 800 600).tree
      = none := by
  have h : processGraph [⟨"A", none, 1, "A"⟩, ⟨"B", some "constructor", 1, "B"⟩] 800 600
      = .typeError := by
    simp [processGraph, buildHierarchy, linkAll, parentIsForeign, inherited, fieldTruthy,
      objectPrototypeKeys, initNodes, initNode, parentOf, truthy, buildMap]
  refine ⟨?_, ?_, h, ?_⟩
  · simp [linkAll, parentIsForeign, inherited, fieldTruthy, objectPrototypeKeys, initNodes,
      initNode, parentOf, truthy, buildMap]
  · simp [buildHierarchy, linkAll, parentIsForeign, inherited, fieldTruthy,
      objectPrototypeKeys, initNodes, initNode, parentOf, truthy, buildMap]
  · rw [h]; rfl

/-! ## Dangling parent references and children lists -/

/-- C16 (code evaluated at the failing input): for the records A (no parent) and
B (parent "zz", which is not the id of any record) the cell of B is emitted with
the parent reference "cell_zz", and no emitted cell has the id "cell_zz". -/
theorem C16_unresolved_parent_is_emitted_as_container :
    ((processGraph [⟨"A", none, 1, "A"⟩, ⟨"B", some "zz", 2, "B"⟩] 800 600).cells.getD []).map
        (fun c => (c.id, c.parent))
      = [("0", none), ("1", some "0"), ("cell_A", some "1"), ("cell_B", some "cell_zz")] ∧
    "cell_zz" ∉
      ((processGraph [⟨"A", none, 1, "A"⟩, ⟨"B", some "zz", 2, "B"⟩] 800 600).cells.getD []).map
        Cell.id := by
  have h : ((processGraph [⟨"A", none, 1, "A"⟩, ⟨"B", some "zz", 2, "B"⟩] 800 600).cells.getD
      []).map (fun c => (c.id, c.parent))
      = [("0", none), ("1", some "0"), ("cell_A", some "1"), ("cell_B", some "cell_zz")] := by
    simp [processGraph, Outcome.cells, buildHierarchy, linkAll, parentIsForeign, inherited, fieldTruthy, objectPrototypeKeys, initNodes, initNode, parentOf,
      truthy, toTree, allSome, calcValues, calcChildren, computeTreemapLayout, layoutChildren,
      writeBack, writeBackList, modifyAt, generateDrawioXML, emitCell, buildMap]
  refine ⟨h, ?_⟩
  have h2 := congrArg (List.map Prod.fst) h
  simp only [List.map_map] at h2
  have h3 : (Prod.fst ∘ fun c : Cell => (c.id, c.parent)) = Cell.id := rfl
  rw [h3] at h2
  rw [h2]
  decide

theorem nodeMap_of_unique_ids (flatNodes : List Record) (hids : (flatNodes.map Record.id).Nodup)
    (p : Nat) (n : Record) (hn : flatNodes[p]? = some n) (s : String) :
    buildMap flatNodes 0 (fun _ => none) s = some p ↔ n.id = s := by
  have hinj : ∀ q m, flatNodes[q]? = some m → m.id = n.id → q = p := by
    intro q m hm hid
    have hq : q < (flatNodes.map Record.id).length := by
      rw [List.length_map]
      exact (List.getElem?_eq_some.1 hm).1
    apply List.getElem?_inj hq hids
    rw [List.getElem?_map, List.getElem?_map, hm, hn]
    simp [hid]
  constructor
  · intro h
    rcases buildMap_some _ _ _ _ _ h with h1 | ⟨-, m, hm, hid⟩
    · cases h1
    · simp only [Nat.sub_zero] at hm
      rw [hn] at hm
      cases hm
      exact hid
  · intro h
    have hsome : (buildMap flatNodes 0 (fun _ => none) s).isSome = true := by
      rw [buildMap_isSome]
      simp only [Option.isSome_none, Bool.false_or, List.any_eq_true, beq_iff_eq]
      exact ⟨n, List.getElem?_mem hn, h⟩
    obtain ⟨q, hq⟩ := Option.isSome_iff_exists.1 hsome
    rcases buildMap_some _ _ _ _ _ hq with h1 | ⟨-, m, hm, hid⟩
    · cases h1
    · simp only [Nat.sub_zero] at hm
      have := hinj q m hm (hid.trans h.symm)
      rw [hq, this]

theorem childrenOf_eq_recordsWithParent (nodeMap : NodeMap) (k : String) (p : Nat)
    (l : List Record) (i : Nat)
    (h : ∀ m ∈ l, (parentOf nodeMap m.parent = some p ↔ m.parent = some k)) :
    childrenOf nodeMap l i p = recordsWithParent k l i := by
  induction l generalizing i with
  | nil => rfl
  | cons a rest ih =>
    have ha := h a (List.mem_cons_self _ _)
    have hrest := ih (i + 1) (fun m hm => h m (List.mem_cons_of_mem _ hm))
    rw [childrenOf, recordsWithParent, hrest]
    by_cases hp : a.parent = some k
    · rw [if_pos hp, if_pos (ha.2 hp)]
    · rw [if_neg hp, if_neg (fun hc => hp (ha.1 hc))]

theorem childrenOf_eq_nil (nodeMap : NodeMap) (p : Nat) (l : List Record) (i : Nat)
    (h : ∀ m ∈ l, parentOf nodeMap m.parent ≠ some p) :
    childrenOf nodeMap l i p = [] := by
  induction l generalizing i with
  | nil => rfl
  | cons a rest ih =>
    rw [childrenOf, if_neg (h a (List.mem_cons_self _ _))]
    exact ih (i + 1) (fun m hm => h m (List.mem_cons_of_mem _ hm))

/-- C17 (counterexample): the ids "" and "B" are unique and the parent field of
the second record equals the id "" of the first, yet the children list of the
first node is empty: an empty parent field never attaches a record. -/
theorem C17_empty_parent_field_is_not_attached :
    ([(⟨"", none, 1, "root"⟩ : Record), ⟨"B", some "", 2, "B"⟩].map Record.id).Nodup ∧
    recordsWithParent "" [⟨"", none, 1, "root"⟩, ⟨"B", some "", 2, "B"⟩] 0 = [1] ∧
    (buildHierarchy [⟨"", none, 1, "root"⟩, ⟨"B", some "", 2, "B"⟩]).map
        (fun st => st.1.map Node.children)
      = some [[], []] := by
  refine ⟨by decide, by decide, ?_⟩
  simp [buildHierarchy, linkAll, parentIsForeign, inherited, fieldTruthy, objectPrototypeKeys, initNodes, initNode,
    parentOf, truthy]

/-- C17 (amended): for a record list with unique ids on which the tree builder
completes (the hierarchy loop returns a state), the children list of a node
whose id is not empty is exactly the sequence of records whose parent field
equals that id, in input order, wherever the parent stands in the input; the
children list of a node whose id is empty is empty. -/
theorem C17_children_are_records_with_nonempty_parent_id
    (flatNodes : List Record) (hids : (flatNodes.map Record.id).Nodup)
    (st : List Node × Option Nat) (hst : buildHierarchy flatNodes = some st)
    (p : Nat) (n : Record) (hn : flatNodes[p]? = some n) :
    st.1[p]?.map Node.children =
      some (if n.id = "" then [] else recordsWithParent n.id flatNodes 0) := by
  obtain ⟨-, rfl⟩ := buildHierarchy_some hst
  rw [hierarchy_get, hn]
  simp only [Option.map_some', Option.some.injEq]
  by_cases hid : n.id = ""
  · rw [if_pos hid]
    apply childrenOf_eq_nil
    intro m _ hm
    unfold parentOf at hm
    split at hm
    · rename_i ht
      have := (nodeMap_of_unique_ids flatNodes hids p n hn _).1 hm
      rw [hid] at this
      cases hpar : m.parent with
      | none => simp [truthy, hpar] at ht
      | some s =>
        simp only [hpar, Option.getD_some] at this
        subst this
        simp [truthy, hpar] at ht
    · cases hm
  · rw [if_neg hid]
    apply childrenOf_eq_recordsWithParent
    intro m _
    unfold parentOf
    constructor
    · intro hm
      split at hm
      · have := (nodeMap_of_unique_ids flatNodes hids p n hn _).1 hm
        cases hpar : m.parent with
        | none =>
          rename_i ht
          simp [truthy, hpar] at ht
        | some s =>
          simp only [hpar, Option.getD_some] at this
          rw [this]
      · cases hm
    · intro hm
      have ht : truthy m.parent = true := by
        simp [truthy, hm, hid]
      rw [if_pos ht, hm]
      exact (nodeMap_of_unique_ids flatNodes hids p n hn _).2 rfl

/-- Witness for C17 (amended): the child B stands before its parent A in the
input, the child C after it. -/
theorem C17_children_are_records_with_nonempty_parent_id_witness :
    ([(⟨"B", some "A", 3, "B"⟩ : Record), ⟨"A", none, 0, "A"⟩, ⟨"C", some "A", 1, "C"⟩].map
      Record.id).Nodup ∧
    buildHierarchy [⟨"B", some "A", 3, "B"⟩, ⟨"A", none, 0, "A"⟩, ⟨"C", some "A", 1, "C"⟩] =
      some ([⟨"B", some "A", 3, "B", [], 0, 0, 0, 0⟩, ⟨"A", none, 0, "A", [0, 2], 0, 0, 0, 0⟩,
        ⟨"C", some "A", 1, "C", [], 0, 0, 0, 0⟩], some 1) ∧
    some [0, 2] = some (if (⟨"A", none, 0, "A"⟩ : Record).id = "" then []
      else recordsWithParent (⟨"A", none, 0, "A"⟩ : Record).id
        [⟨"B", some "A", 3, "B"⟩, ⟨"A", none, 0, "A"⟩, ⟨"C", some "A", 1, "C"⟩] 0) := by
  have hids : ([(⟨"B", some "A", 3, "B"⟩ : Record), ⟨"A", none, 0, "A"⟩,
      ⟨"C", some "A", 1, "C"⟩].map Record.id).Nodup := by decide
  have hst : buildHierarchy [⟨"B", some "A", 3, "B"⟩, ⟨"A", none, 0, "A"⟩,
      ⟨"C", some "A", 1, "C"⟩] =
      some ([⟨"B", some "A", 3, "B", [], 0, 0, 0, 0⟩, ⟨"A", none, 0, "A", [0, 2], 0, 0, 0, 0⟩,
        ⟨"C", some "A", 1, "C", [], 0, 0, 0, 0⟩], some 1) := by
    simp [buildHierarchy, linkAll, parentIsForeign, inherited, fieldTruthy, objectPrototypeKeys, initNodes, initNode,
      parentOf, truthy, buildMap, pushChild, modifyAt]
  exact ⟨hids, hst,
    C17_children_are_records_with_nonempty_parent_id
      [⟨"B", some "A", 3, "B"⟩, ⟨"A", none, 0, "A"⟩, ⟨"C", some "A", 1, "C"⟩] hids _ hst 1
      ⟨"A", none, 0, "A"⟩ rfl⟩

/-! ## Aggregated values are sums of floored leaf weights -/

theorem leafWeightList_eq (cs : List Tree) :
    leafWeightList cs = (cs.map leafWeight).sum := by
  induction cs with
  | nil => simp [leafWeightList]
  | cons d ds ih => simp [leafWeightList, ih]

theorem leafCountList_eq (cs : List Tree) :
    leafCountList cs = (cs.map leafCount).sum := by
  induction cs with
  | nil => simp [leafCountList]
  | cons d ds ih => simp [leafCountList, ih]

theorem leafWeight_eq (t : Tree) :
    leafWeight t =
      if t.children.length > 0 then (t.children.map leafWeight).sum
      else if 0 < t.value then t.value else 1 := by
  cases t with
  | node r v x y w h cs => simp [leafWeight, leafWeightList_eq, Tree.children, Tree.value]

theorem leafCount_eq (t : Tree) :
    leafCount t = if t.children.length > 0 then (t.children.map leafCount).sum else 1 := by
  cases t with
  | node r v x y w h cs => simp [leafCount, leafCountList_eq, Tree.children]

theorem calcValues_children_length (t : Tree) :
    (calcValues t).1.children.length = t.children.length := by
  rw [calcValues_children, List.length_map]

theorem leafWeight_calcValues (t : Tree) :
    leafWeight (calcValues t).1 = leafWeight t ∧ leafCount (calcValues t).1 = leafCount t := by
  induction t using Tree.induct with
  | step r v x y w h cs ih =>
    rw [leafWeight_eq, leafWeight_eq (Tree.node r v x y w h cs), leafCount_eq,
      leafCount_eq (Tree.node r v x y w h cs), calcValues_children_length, calcValues_children,
      List.map_map, List.map_map]
    have hrc : (Tree.node r v x y w h cs).children = cs := rfl
    rw [hrc]
    by_cases hcs : cs.length > 0
    · rw [if_pos hcs, if_pos hcs, if_pos hcs, if_pos hcs]
      constructor
      · congr 1
        exact List.map_congr_left (fun c hc => (ih c hc).1)
      · congr 1
        exact List.map_congr_left (fun c hc => (ih c hc).2)
    · rw [if_neg hcs, if_neg hcs, if_neg hcs, if_neg hcs]
      have hnil : cs = [] := List.length_eq_zero.1 (by omega)
      rw [calcValues_value_leaf _ (by rw [hrc]; exact hnil)]
      exact ⟨rfl, rfl⟩

theorem calcValues_eq_leafWeight (t : Tree) :
    (∀ n ∈ subtrees t, n.children = [] → 0 ≤ n.value) →
      (calcValues t).2 = leafWeight t ∧ 0 < leafWeight t ∧
      (t.children ≠ [] → (calcValues t).1.value = leafWeight t) := by
  induction t using Tree.induct with
  | step r v x y w h cs ih =>
    intro hleaf
    have hrc : (Tree.node r v x y w h cs).children = cs := rfl
    have hrv : (Tree.node r v x y w h cs).value = v := rfl
    have hch : ∀ c ∈ cs, (calcValues c).2 = leafWeight c ∧ 0 < leafWeight c := fun c hc =>
      ⟨(ih c hc (fun n hn => hleaf n (subtrees_child (by rw [hrc]; exact hc) hn))).1,
        (ih c hc (fun n hn => hleaf n (subtrees_child (by rw [hrc]; exact hc) hn))).2.1⟩
    by_cases hcs : cs.length > 0
    · have hne : cs ≠ [] := List.length_pos.1 hcs
      have hval : (calcValues (Tree.node r v x y w h cs)).1.value
          = leafWeight (Tree.node r v x y w h cs) := by
        rw [calcValues_value, leafWeight_eq, hrc, if_pos hcs, if_pos hcs]
        congr 1
        exact List.map_congr_left (fun c hc => (hch c hc).1)
      have hpos : 0 < leafWeight (Tree.node r v x y w h cs) := by
        rw [leafWeight_eq, hrc, if_pos hcs]
        apply sum_pos_of_pos
        · simpa using hne
        · intro a ha
          obtain ⟨c, hc, rfl⟩ := List.mem_map.1 ha
          exact (hch c hc).2
      refine ⟨?_, hpos, fun _ => hval⟩
      rw [calcValues_snd, hval, if_neg (ne_of_gt hpos)]
    · have hnil : cs = [] := List.length_eq_zero.1 (by omega)
      have hv : 0 ≤ v := hleaf _ (self_mem_subtrees _) (by rw [hrc]; exact hnil)
      have hval : (calcValues (Tree.node r v x y w h cs)).1.value = v :=
        calcValues_value_leaf _ (by rw [hrc]; exact hnil)
      have hlw : leafWeight (Tree.node r v x y w h cs) = if 0 < v then v else 1 := by
        rw [leafWeight_eq, hrc, if_neg hcs, hrv]
      refine ⟨?_, ?_, fun hne => absurd hnil (by rw [hrc] at hne; exact hne)⟩
      · rw [calcValues_snd, hval, hlw]
        by_cases h0 : v = 0
        · rw [if_pos h0, if_neg (by rw [h0]; exact lt_irrefl 0)]
        · rw [if_neg h0, if_pos (lt_of_le_of_ne hv (Ne.symm h0))]
      · rw [hlw]
        by_cases h0 : 0 < v
        · rw [if_pos h0]; exact h0
        · rw [if_neg h0]; exact one_pos

theorem sum_leafCount_le (cs : List Tree) (hch : ∀ c ∈ cs, (leafCount c : ℚ) ≤ leafWeight c) :
    (((cs.map leafCount).sum : Nat) : ℚ) ≤ (cs.map leafWeight).sum := by
  induction cs with
  | nil => simp
  | cons d ds ihds =>
    simp only [List.map_cons, List.sum_cons, Nat.cast_add]
    have h1 := hch d (List.mem_cons_self _ _)
    have h2 := ihds (fun c hc => hch c (List.mem_cons_of_mem _ hc))
    linarith

theorem leafCount_le_leafWeight (t : Tree) :
    (∀ l ∈ subtrees t, l.children = [] → l.value = 0 ∨ 1 ≤ l.value) →
      (leafCount t : ℚ) ≤ leafWeight t := by
  induction t using Tree.induct with
  | step r v x y w h cs ih =>
    intro hl
    have hrc : (Tree.node r v x y w h cs).children = cs := rfl
    have hrv : (Tree.node r v x y w h cs).value = v := rfl
    rw [leafCount_eq, leafWeight_eq, hrc, hrv]
    by_cases hcs : cs.length > 0
    · rw [if_pos hcs, if_pos hcs]
      have hch : ∀ c ∈ cs, (leafCount c : ℚ) ≤ leafWeight c := fun c hc =>
        ih c hc (fun l hl2 => hl l (subtrees_child (by rw [hrc]; exact hc) hl2))
      exact sum_leafCount_le cs hch
    · rw [if_neg hcs, if_neg hcs]
      have hnil : cs = [] := List.length_eq_zero.1 (by omega)
      rcases hl _ (self_mem_subtrees _) (by rw [hrc]; exact hnil) with h0 | h1
      · rw [hrv] at h0
        rw [if_neg (by rw [h0]; exact lt_irrefl 0)]
        simp
      · rw [hrv] at h1
        rw [if_pos (by linarith)]
        simpa using h1

theorem subtrees_trans {m s t : Tree} (hs : s ∈ subtrees t) (hm : m ∈ subtrees s) :
    m ∈ subtrees t := by
  induction t using Tree.induct with
  | step r v x y w h cs ih =>
    rcases mem_subtrees.1 hs with rfl | ⟨d, hd, hsd⟩
    · exact hm
    · exact subtrees_child hd (ih d hd hsd)

/-- C19 (amended): in exact arithmetic, for a tree whose leaves have
non-negative raw values, after `calcValues` the stored value of every node that
has children is the sum, over the leaves of its subtree, of the floored leaf
weight (the leaf's raw value if it is positive, otherwise 1); when the raw
values of those leaves are 0 or at least 1 it is at least the number of the
leaves.  The node is the image of a node of the raw tree with the same
leaves. -/
theorem C19_stored_value_is_sum_of_floored_leaf_weights (t : Tree)
    (hleaf : ∀ n ∈ subtrees t, n.children = [] → 0 ≤ n.value) :
    ∀ n ∈ subtrees (calcValues t).1, n.children ≠ [] →
      n.value = leafWeight n ∧
      (∃ s ∈ subtrees t, n = (calcValues s).1 ∧ leafWeight n = leafWeight s ∧
        leafCount n = leafCount s) ∧
      ((∀ l ∈ subtrees n, l.children = [] → l.value = 0 ∨ 1 ≤ l.value) →
        (leafCount n : ℚ) ≤ n.value) := by
  intro n hn hne
  rw [subtrees_calcValues] at hn
  obtain ⟨s, hs, rfl⟩ := List.mem_map.1 hn
  have hsne : s.children ≠ [] := by
    intro hnil
    apply hne
    rw [calcValues_children, hnil]
    rfl
  have hleaf_s : ∀ m ∈ subtrees s, m.children = [] → 0 ≤ m.value := fun m hm =>
    hleaf m (subtrees_trans hs hm)
  have h1 := (calcValues_eq_leafWeight s hleaf_s).2.2 hsne
  have h2 := leafWeight_calcValues s
  have hval : (calcValues s).1.value = leafWeight (calcValues s).1 := by rw [h1, h2.1]
  refine ⟨hval, ⟨s, hs, rfl, h2.1, h2.2⟩, ?_⟩
  intro hl
  rw [hval]
  exact leafCount_le_leafWeight _ hl

theorem zeroLeafTree_leaves :
    ∀ n ∈ subtrees zeroLeafTree, n.children = [] → 0 ≤ n.value := by
  intro n hn
  simp [zeroLeafTree, subtrees, subtreesList] at hn
  rcases hn with rfl | rfl | rfl <;> norm_num [Tree.value, Tree.children]

theorem zeroLeafTree_calc :
    (calcValues zeroLeafTree).1 = .node 0 4 0 0 0 0 [.node 1 0 0 0 0 0 [], .node 2 3 0 0 0 0 []] := by
  simp [zeroLeafTree, calcValues, calcChildren]
  norm_num

/-- Witness for C19 (amended): a root with two leaves of raw values 0 and 3 gets the
stored value 1 + 3 = 4. -/
theorem C19_stored_value_is_sum_of_floored_leaf_weights_witness :
    (∀ n ∈ subtrees zeroLeafTree, n.children = [] → 0 ≤ n.value) ∧
    Tree.node 0 4 0 0 0 0 [.node 1 0 0 0 0 0 [], .node 2 3 0 0 0 0 []]
      ∈ subtrees (calcValues zeroLeafTree).1 ∧
    (Tree.node 0 4 0 0 0 0 [.node 1 0 0 0 0 0 [], .node 2 3 0 0 0 0 []]).children ≠ [] ∧
    (Tree.node 0 4 0 0 0 0 [.node 1 0 0 0 0 0 [], .node 2 3 0 0 0 0 []]).value =
      leafWeight (.node 0 4 0 0 0 0 [.node 1 0 0 0 0 0 [], .node 2 3 0 0 0 0 []]) := by
  have h1 : Tree.node 0 4 0 0 0 0 [.node 1 0 0 0 0 0 [], .node 2 3 0 0 0 0 []]
      ∈ subtrees (calcValues zeroLeafTree).1 := by
    rw [zeroLeafTree_calc]
    exact self_mem_subtrees _
  have h2 : (Tree.node 0 4 0 0 0 0 [.node 1 0 0 0 0 0 [], .node 2 3 0 0 0 0 []]).children ≠ [] := by
    simp [Tree.children]
  exact ⟨zeroLeafTree_leaves, h1, h2,
    (C19_stored_value_is_sum_of_floored_leaf_weights zeroLeafTree zeroLeafTree_leaves _ h1 h2).1⟩

/-! ## Values of internal nodes are never read -/

theorem dropInternalList_eq (cs : List Tree) : dropInternalList cs = cs.map dropInternal := by
  induction cs with
  | nil => rfl
  | cons d ds ih => simp [dropInternalList, ih]

theorem dropInternal_eq (t : Tree) :
    dropInternal t =
      .node t.ref (if t.children.length > 0 then 0 else t.value) t.x t.y t.w t.h
        (t.children.map dropInternal) := by
  cases t with
  | node r v x y w h cs => simp [dropInternal, dropInternalList_eq, Tree.ref, Tree.value,
      Tree.x, Tree.y, Tree.w, Tree.h, Tree.children]

theorem calcChildren_congr (f : Tree → Tree) (cs : List Tree)
    (h : ∀ c ∈ cs, calcValues (f c) = calcValues c) (acc : ℚ) :
    calcChildren (cs.map f) acc = calcChildren cs acc := by
  induction cs generalizing acc with
  | nil => rfl
  | cons d ds ih =>
    simp only [List.map_cons, calcChildren]
    rw [h d (List.mem_cons_self _ _), ih (fun c hc => h c (List.mem_cons_of_mem _ hc))]

theorem calcValues_dropInternal (t : Tree) : calcValues (dropInternal t) = calcValues t := by
  induction t using Tree.induct with
  | step r v x y w h cs ih =>
    rw [dropInternal, dropInternalList_eq, calcValues, calcValues, calcChildren_congr _ cs ih,
      List.length_map]
    by_cases hcs : cs.length > 0
    · simp [hcs]
    · simp [hcs]

theorem calcValues_congr {t t2 : Tree} (h : dropInternal t2 = dropInternal t) :
    calcValues t2 = calcValues t := by
  rw [← calcValues_dropInternal t2, h, calcValues_dropInternal]

theorem buildMap_congr (l l2 : List Record) (h : l2.map Record.id = l.map Record.id) (i : Nat)
    (m : NodeMap) : buildMap l2 i m = buildMap l i m := by
  induction l generalizing l2 i m with
  | nil =>
    cases l2 with
    | nil => rfl
    | cons a rest => simp at h
  | cons b rest ih =>
    cases l2 with
    | nil => simp at h
    | cons a rest2 =>
      simp only [List.map_cons, List.cons.injEq] at h
      rw [buildMap, buildMap, h.1, ih rest2 h.2]

theorem childrenOf_congr (nodeMap : NodeMap) (l l2 : List Record)
    (h : l2.map Record.parent = l.map Record.parent) (i p : Nat) :
    childrenOf nodeMap l2 i p = childrenOf nodeMap l i p := by
  induction l generalizing l2 i with
  | nil =>
    cases l2 with
    | nil => rfl
    | cons a rest => simp at h
  | cons b rest ih =>
    cases l2 with
    | nil => simp at h
    | cons a rest2 =>
      simp only [List.map_cons, List.cons.injEq] at h
      rw [childrenOf, childrenOf, h.1, ih rest2 h.2]

theorem firstRoot_congr (nodeMap : NodeMap) (l l2 : List Record)
    (h : l2.map Record.parent = l.map Record.parent) (i : Nat) :
    firstRoot nodeMap l2 i = firstRoot nodeMap l i := by
  induction l generalizing l2 i with
  | nil =>
    cases l2 with
    | nil => rfl
    | cons a rest => simp at h
  | cons b rest ih =>
    cases l2 with
    | nil => simp at h
    | cons a rest2 =>
      simp only [List.map_cons, List.cons.injEq] at h
      rw [firstRoot, firstRoot, h.1, ih rest2 h.2]

theorem map_some_rel (l : List Nat) (ts : List Tree) (f g : Nat → Option Tree)
    (h : l.map f = ts.map some)
    (hfg : ∀ k t, f k = some t → ∃ t2, g k = some t2 ∧ dropInternal t2 = dropInternal t) :
    ∃ ts2 : List Tree, l.map g = ts2.map some ∧ ts2.map dropInternal = ts.map dropInternal := by
  induction l generalizing ts with
  | nil =>
    cases ts with
    | nil => exact ⟨[], rfl, rfl⟩
    | cons u us => simp at h
  | cons a rest ih =>
    cases ts with
    | nil => simp at h
    | cons u us =>
      simp only [List.map_cons, List.cons.injEq] at h
      obtain ⟨t2, h1, h2⟩ := hfg a u h.1
      obtain ⟨ts2, h3, h4⟩ := ih us h.2
      exact ⟨t2 :: ts2, by simp [h1, h3], by simp [h2, h4]⟩

theorem toTree_congr (heapA heapB : List Node)
    (hrel : ∀ (j : Nat) (oA : Node), heapA[j]? = some oA → ∃ oB : Node, heapB[j]? = some oB ∧
      oB.children = oA.children ∧ oB.x = oA.x ∧ oB.y = oA.y ∧ oB.w = oA.w ∧ oB.h = oA.h ∧
      (oA.children = [] → oB.value = oA.value)) :
    ∀ (fuel i : Nat) (t : Tree), toTree heapA fuel i = some t →
      ∃ t2, toTree heapB fuel i = some t2 ∧ dropInternal t2 = dropInternal t := by
  intro fuel
  induction fuel with
  | zero =>
    intro i t h
    simp [toTree] at h
  | succ fuel ih =>
    intro i t h
    rw [toTree] at h
    cases ho : heapA[i]? with
    | none => simp [ho] at h
    | some oA =>
      simp only [ho] at h
      cases hts : allSome (oA.children.map (toTree heapA fuel)) with
      | none => simp [hts] at h
      | some ts =>
        simp only [hts, Option.map_some', Option.some.injEq] at h
        subst h
        obtain ⟨oB, hoB, hch, hx, hy, hw, hh, hv⟩ := hrel i oA ho
        have h1 := (allSome_eq_some _ _).1 hts
        obtain ⟨ts2, h2, h3⟩ := map_some_rel _ _ _ (toTree heapB fuel) h1 (ih)
        have hlen : ts2.length = ts.length := by
          have := congrArg List.length h3
          simpa using this
        refine ⟨.node i oB.value oB.x oB.y oB.w oB.h ts2, ?_, ?_⟩
        · rw [toTree, hoB]
          simp only [hch, (allSome_eq_some _ _).2 h2, Option.map_some']
        · rw [dropInternal, dropInternal, dropInternalList_eq, dropInternalList_eq, h3, hlen,
            hx, hy, hw, hh]
          by_cases hpos : ts.length > 0
          · simp [hpos]
          · have hnil : oA.children = [] := by
              have := congrArg List.length h1
              simp only [List.length_map] at this
              exact List.length_eq_zero.1 (by omega)
            simp [hpos, hv hnil]

theorem processGraph_of_tree (flatNodes : List Record) (W H : ℤ) (r : Nat) (t : Tree)
    (hc : throwsTypeError flatNodes = false)
    (hroot : (pureHierarchy flatNodes).2 = some r)
    (ht : toTree (pureHierarchy flatNodes).1 flatNodes.length r = some t) :
    processGraph flatNodes W H =
      .done (writeBack (computeTreemapLayout (calcValues t).1 0 0 W H true)
          (pureHierarchy flatNodes).1)
        (computeTreemapLayout (calcValues t).1 0 0 W H true)
        (generateDrawioXML
          (writeBack (computeTreemapLayout (calcValues t).1 0 0 W H true)
            (pureHierarchy flatNodes).1)
          (buildMap flatNodes 0 (fun _ => none))) := by
  rw [processGraph_of_completes W H hc]
  simp only [hroot, ht]

theorem run_heap_get {flatNodes : List Record} {W H : ℤ} {heap : List Node} {tree : Tree}
    {cells : List Cell} (hrun : processGraph flatNodes W H = .done heap tree cells) (j : Nat) :
    (∃ s ∈ subtrees tree, s.ref = j ∧ ∃ o, (pureHierarchy flatNodes).1[j]? = some o ∧
        s.children.map Tree.ref = o.children ∧ (s.children = [] → s.value = o.value) ∧
        heap[j]? = some (storeOn s o)) ∨
    (j ∉ refs tree ∧ heap[j]? = (pureHierarchy flatNodes).1[j]?) := by
  obtain ⟨-, -, hnodes⟩ := run_nodes hrun
  by_cases hj : j ∈ refs tree
  · left
    obtain ⟨s, hs, rfl⟩ := List.mem_map.1 hj
    obtain ⟨o, ho, hch, hv, hheap⟩ := hnodes s hs
    exact ⟨s, hs, rfl, o, ho, hch, hv, hheap⟩
  · right
    obtain ⟨-, -, -, -, -, hheap, -⟩ := processGraph_done hrun
    refine ⟨hj, ?_⟩
    rw [hheap]
    exact writeBack_untouched j tree _ hj

theorem getElem?_of_length_eq {α β : Type} (l : List α) (l2 : List β)
    (hlen : l2.length = l.length) (j : Nat) :
    (∃ a b, l[j]? = some a ∧ l2[j]? = some b) ∨ (l[j]? = none ∧ l2[j]? = none) := by
  by_cases hj : j < l.length
  · left
    exact ⟨l[j], l2[j], List.getElem?_eq_getElem hj, List.getElem?_eq_getElem (by omega)⟩
  · right
    exact ⟨List.getElem?_eq_none (by omega), List.getElem?_eq_none (by omega)⟩

theorem run_congr (flatNodes flatNodes2 : List Record) (W H : ℤ) (heap : List Node)
    (tree : Tree) (cells : List Cell)
    (hrun : processGraph flatNodes W H = .done heap tree cells)
    (hc2 : throwsTypeError flatNodes2 = false)
    (hlen : flatNodes2.length = flatNodes.length)
    (hsame : ∀ (j : Nat) (n n2 : Record), flatNodes[j]? = some n → flatNodes2[j]? = some n2 →
      n2.id = n.id ∧ n2.parent = n.parent ∧ n2.label = n.label)
    (hval : ∀ (j : Nat) (n n2 : Record), flatNodes[j]? = some n → flatNodes2[j]? = some n2 →
      n2.value ≠ n.value → ∃ s ∈ subtrees tree, s.ref = j ∧ s.children ≠ []) :
    processGraph flatNodes2 W H = .done heap tree cells := by
  have hid : flatNodes2.map Record.id = flatNodes.map Record.id := by
    apply List.ext_getElem?
    intro j
    rw [List.getElem?_map, List.getElem?_map]
    rcases getElem?_of_length_eq flatNodes flatNodes2 hlen j with ⟨n, n2, h1, h2⟩ | ⟨h1, h2⟩
    · rw [h1, h2, Option.map_some', Option.map_some', (hsame j n n2 h1 h2).1]
    · rw [h1, h2]
  have hpar : flatNodes2.map Record.parent = flatNodes.map Record.parent := by
    apply List.ext_getElem?
    intro j
    rw [List.getElem?_map, List.getElem?_map]
    rcases getElem?_of_length_eq flatNodes flatNodes2 hlen j with ⟨n, n2, h1, h2⟩ | ⟨h1, h2⟩
    · rw [h1, h2, Option.map_some', Option.map_some', (hsame j n n2 h1 h2).2.1]
    · rw [h1, h2]
  have hmap : buildMap flatNodes2 0 (fun _ => none) = buildMap flatNodes 0 (fun _ => none) :=
    buildMap_congr _ _ hid 0 _
  have hroot2 : (pureHierarchy flatNodes2).2 = (pureHierarchy flatNodes).2 := by
    rw [hierarchy_root, hierarchy_root, hmap, firstRoot_congr _ _ _ hpar]
  have hget2 : ∀ p, (pureHierarchy flatNodes2).1[p]? =
      flatNodes2[p]?.map (fun n =>
        { initNode n with
          children := childrenOf (buildMap flatNodes 0 (fun _ => none)) flatNodes 0 p }) := by
    intro p
    rw [hierarchy_get, hmap, childrenOf_congr _ _ _ hpar]
  obtain ⟨hnd, -, hnodes⟩ := run_nodes hrun
  obtain ⟨r, t, hroot, ht, htree, hheap, hcells⟩ := processGraph_done hrun
  -- the two object graphs agree up to the values of nodes with children
  have hrel : ∀ (j : Nat) (oA : Node), (pureHierarchy flatNodes).1[j]? = some oA →
      ∃ oB : Node, (pureHierarchy flatNodes2).1[j]? = some oB ∧
        oB.children = oA.children ∧ oB.x = oA.x ∧ oB.y = oA.y ∧ oB.w = oA.w ∧ oB.h = oA.h ∧
        (oA.children = [] → oB.value = oA.value) := by
    intro j oA hoA
    have hoA2 := hoA
    rw [hierarchy_get] at hoA2
    rcases getElem?_of_length_eq flatNodes flatNodes2 hlen j with ⟨n, n2, h1, h2⟩ | ⟨h1, h2⟩
    · simp only [h1, Option.map_some', Option.some.injEq] at hoA2
      subst hoA2
      refine ⟨{ initNode n2 with
          children := childrenOf (buildMap flatNodes 0 (fun _ => none)) flatNodes 0 j },
        by rw [hget2, h2]; rfl, rfl, rfl, rfl, rfl, rfl, ?_⟩
      intro hleaf
      by_contra hne
      obtain ⟨s, hs, hsj, hsne⟩ := hval j n n2 h1 h2 hne
      obtain ⟨o, ho, hch, -, -⟩ := hnodes s hs
      rw [hsj, hoA] at ho
      cases ho
      apply hsne
      rw [hleaf] at hch
      simpa using hch
    · simp [h1] at hoA2
  obtain ⟨t2, ht2, hdrop⟩ := toTree_congr _ _ hrel _ _ _ ht
  rw [← hlen] at ht2
  rw [← hroot2] at hroot
  rw [processGraph_of_tree flatNodes2 W H r t2 hc2 hroot ht2, calcValues_congr hdrop, ← htree, hmap]
  have hheap2 : writeBack tree (pureHierarchy flatNodes2).1 = heap := by
    apply List.ext_getElem?
    intro j
    rcases run_heap_get hrun j with ⟨s, hs, hsj, o, ho, -, -, hh⟩ | ⟨hj, hh⟩
    · subst hsj
      rw [writeBack_get tree _ hnd s hs, hh]
      obtain ⟨oB, hoB, -⟩ := hrel s.ref o ho
      rw [hoB]
      rw [hierarchy_get] at ho
      rw [hget2] at hoB
      rcases getElem?_of_length_eq flatNodes flatNodes2 hlen s.ref with
        ⟨n, n2, h1, h2⟩ | ⟨h1, h2⟩
      · simp only [h1, h2, Option.map_some', Option.some.injEq] at ho hoB
        subst ho hoB
        obtain ⟨e1, e2, e3⟩ := hsame s.ref n n2 h1 h2
        simp [storeOn, initNode, e1, e2, e3]
      · simp [h1] at ho
    · rw [writeBack_untouched j tree _ hj, hh, hget2, hierarchy_get]
      rcases getElem?_of_length_eq flatNodes flatNodes2 hlen j with ⟨n, n2, h1, h2⟩ | ⟨h1, h2⟩
      · rw [h1, h2]
        obtain ⟨e1, e2, e3⟩ := hsame j n n2 h1 h2
        have e4 : n2.value = n.value := by
          by_contra hne
          obtain ⟨s, hs, hsj, -⟩ := hval j n n2 h1 h2 hne
          exact hj (List.mem_map.2 ⟨s, hs, hsj⟩)
        simp [initNode, e1, e2, e3, e4]
      · rw [h1, h2]
  rw [hheap2, hcells]

/-- C20 (counterexample): the record lists [A, B, C] with A and B unparented and
C a child of B differ only in the value of B (5 or 7), and B has the child C,
yet the value stored on B after the run differs: B is not below the root A, so
`calcValues` never overwrites it. -/
theorem C20_value_of_unreached_parent_is_kept :
    (buildHierarchy [⟨"A", none, 1, "A"⟩, ⟨"B", none, 5, "B"⟩, ⟨"C", some "B", 1, "C"⟩]).map
        (fun st => st.1.map Node.children) = some [[], [2], []] ∧
    ((processGraph [⟨"A", none, 1, "A"⟩, ⟨"B", none, 5, "B"⟩, ⟨"C", some "B", 1, "C"⟩]
        800 600).heap.getD []).map Node.value = [1, 5, 1] ∧
    ((processGraph [⟨"A", none, 1, "A"⟩, ⟨"B", none, 7, "B"⟩, ⟨"C", some "B", 1, "C"⟩]
        800 600).heap.getD []).map Node.value = [1, 7, 1] := by
  refine ⟨?_, ?_, ?_⟩
  · simp [buildHierarchy, linkAll, parentIsForeign, inherited, fieldTruthy, objectPrototypeKeys, initNodes, initNode, parentOf, truthy, buildMap, pushChild,
      modifyAt]
  · simp [processGraph, Outcome.heap, buildHierarchy, linkAll, parentIsForeign, inherited, fieldTruthy, objectPrototypeKeys, initNodes, initNode, parentOf,
      truthy, toTree, allSome, calcValues, calcChildren, computeTreemapLayout, layoutChildren,
      writeBack, writeBackList, modifyAt, buildMap, pushChild]
  · simp [processGraph, Outcome.heap, buildHierarchy, linkAll, parentIsForeign, inherited, fieldTruthy, objectPrototypeKeys, initNodes, initNode, parentOf,
      truthy, toTree, allSome, calcValues, calcChildren, computeTreemapLayout, layoutChildren,
      writeBack, writeBackList, modifyAt, buildMap, pushChild]

/-- C20 (amended): when two record lists of the same length agree in id, parent
and label at every position and differ in value only at records that are nodes
with children of the tree below the root, and the hierarchy loop throws on
neither of them, `processGraph` produces the same objects (stored value, x, y,
w, h of every record), the same tree and the same cells for both. -/
theorem C20_values_of_internal_tree_nodes_are_ignored
    (flatNodes flatNodes2 : List Record) (W H : ℤ) (heap : List Node) (tree : Tree)
    (cells : List Cell)
    (hrun : processGraph flatNodes W H = .done heap tree cells)
    (hrun2 : processGraph flatNodes2 W H ≠ .typeError)
    (hlen : flatNodes2.length = flatNodes.length)
    (hsame : ∀ (j : Nat) (n n2 : Record), flatNodes[j]? = some n → flatNodes2[j]? = some n2 →
      n2.id = n.id ∧ n2.parent = n.parent ∧ n2.label = n.label)
    (hval : ∀ (j : Nat) (n n2 : Record), flatNodes[j]? = some n → flatNodes2[j]? = some n2 →
      n2.value ≠ n.value → ∃ s ∈ subtrees tree, s.ref = j ∧ s.children ≠ []) :
    processGraph flatNodes2 W H = .done heap tree cells := by
  have hc2 : throwsTypeError flatNodes2 = false := by
    cases h : throwsTypeError flatNodes2 with
    | false => rfl
    | true => exact absurd ((processGraph_typeError_iff flatNodes2 W H).2 h) hrun2
  exact run_congr flatNodes flatNodes2 W H heap tree cells hrun hc2 hlen hsame hval

/-- Witness for C20 (amended): the worked example, and the same records with
the raw value of the root A changed from 0 to 99. -/
theorem C20_values_of_internal_tree_nodes_are_ignored_witness :
    processGraph abcRecords 800 600 = .done abcHeap abcTree abcCells ∧
    processGraph [⟨"A", none, 99, "A"⟩, ⟨"B", some "A", 3, "B"⟩, ⟨"C", some "A", 1, "C"⟩] 800 600
      = .done abcHeap abcTree abcCells := by
  refine ⟨abc_done, ?_⟩
  refine C20_values_of_internal_tree_nodes_are_ignored abcRecords
    [⟨"A", none, 99, "A"⟩, ⟨"B", some "A", 3, "B"⟩, ⟨"C", some "A", 1, "C"⟩] 800 600 abcHeap
    abcTree abcCells abc_done ?_ rfl ?_ ?_
  · rw [ne_eq, processGraph_typeError_iff]
    simp [throwsTypeError, parentIsForeign, inherited, fieldTruthy, objectPrototypeKeys,
      initNodes, initNode, truthy, buildMap]
  · intro j n n2 h1 h2
    rcases j with _ | _ | _ | j
    · simp [abcRecords] at h1 h2
      subst h1 h2
      exact ⟨rfl, rfl, rfl⟩
    · simp [abcRecords] at h1 h2
      subst h1 h2
      exact ⟨rfl, rfl, rfl⟩
    · simp [abcRecords] at h1 h2
      subst h1 h2
      exact ⟨rfl, rfl, rfl⟩
    · simp [abcRecords] at h1
  · intro j n n2 h1 h2 hne
    rcases j with _ | _ | _ | j
    · exact ⟨abcTree, self_mem_subtrees _, rfl, by simp [abcTree, Tree.children]⟩
    · simp [abcRecords] at h1 h2
      subst h1 h2
      exact absurd rfl hne
    · simp [abcRecords] at h1 h2
      subst h1 h2
      exact absurd rfl hne
    · simp [abcRecords] at h1

/-! ## A second run on the mutated records -/

theorem run_heap_length {flatNodes : List Record} {W H : ℤ} {heap : List Node} {tree : Tree}
    {cells : List Cell} (hrun : processGraph flatNodes W H = .done heap tree cells) :
    heap.length = flatNodes.length := by
  obtain ⟨-, -, -, -, -, hheap, -⟩ := processGraph_done hrun
  have h1 := congrArg List.length (writeBack_map_id tree (pureHierarchy flatNodes).1)
  have h2 := congrArg List.length (hierarchy_map_id flatNodes)
  simp only [List.length_map] at h1 h2
  rw [hheap, h1, h2]

/-- Whenever the hierarchy loop does not throw on the records as a first run
left them (value overwritten on nodes with children; `children`, `x`, `y`, `w`,
`h` are reset by the first loop), the second run ends with the same objects, so
with the same value, x, y, w and h on every node, the same tree and the same
cells. -/
theorem second_run_reproduces_first
    (flatNodes : List Record) (W H : ℤ) (heap : List Node) (tree : Tree) (cells : List Cell)
    (hrun : processGraph flatNodes W H = .done heap tree cells)
    (hc2 : throwsTypeError (toRecords heap) = false) :
    processGraph (toRecords heap) W H = .done heap tree cells := by
  have hfacts : ∀ (j : Nat) (n n2 : Record), flatNodes[j]? = some n →
      (toRecords heap)[j]? = some n2 →
      n2.id = n.id ∧ n2.parent = n.parent ∧ n2.label = n.label ∧
      (n2.value ≠ n.value → ∃ s ∈ subtrees tree, s.ref = j ∧ s.children ≠ []) := by
    intro j n n2 h1 h2
    simp only [toRecords, List.getElem?_map] at h2
    rcases run_heap_get hrun j with ⟨s, hs, hsj, o, ho, -, hleaf, hh⟩ | ⟨hj, hh⟩
    · obtain ⟨m, hm, e1, e2, e3, e4, -⟩ := hierarchy_node flatNodes j o ho
      rw [h1] at hm
      cases hm
      rw [hh] at h2
      simp only [Option.map_some', Option.some.injEq] at h2
      subst h2
      refine ⟨e1, e2, e4, ?_⟩
      intro hne
      refine ⟨s, hs, hsj, ?_⟩
      intro hnil
      apply hne
      show s.value = n.value
      rw [hleaf hnil, e3]
    · cases ho : (pureHierarchy flatNodes).1[j]? with
      | none =>
        rw [hh, ho] at h2
        simp at h2
      | some o =>
        obtain ⟨m, hm, e1, e2, e3, e4, -⟩ := hierarchy_node flatNodes j o ho
        rw [h1] at hm
        cases hm
        rw [hh, ho] at h2
        simp only [Option.map_some', Option.some.injEq] at h2
        subst h2
        exact ⟨e1, e2, e4, fun hne => absurd e3 hne⟩
  apply run_congr flatNodes (toRecords heap) W H heap tree cells hrun hc2
  · rw [toRecords, List.length_map]
    exact run_heap_length hrun
  · intro j n n2 h1 h2
    obtain ⟨e1, e2, e3, -⟩ := hfacts j n n2 h1 h2
    exact ⟨e1, e2, e3⟩
  · intro j n n2 h1 h2
    exact (hfacts j n n2 h1 h2).2.2.2

/-- C18 (code evaluated at the failing input): the records P (id "__proto__",
no parent, value 0), C (parent "__proto__", value 3) and B (parent "value").
`nodeMap["__proto__"] = P` makes P the prototype of `nodeMap`, so
`nodeMap["value"]` reads the field `value` of P.  In the first run it is 0, B
is left unparented and the run completes, storing the sum 3 on P.  In the
second run, on the records as the first run left them, `nodeMap["value"]` is 3,
which is truthy and has no `children`: the hierarchy loop throws a TypeError at
B and no node keeps the geometry of the first run (`x`, `y`, `w`, `h` were
reset to 0 by the first loop). -/
theorem C18_second_run_throws_below_prototype_record :
    ∃ heap tree cells,
      processGraph [⟨"__proto__", none, 0, "__proto__"⟩, ⟨"C", some "__proto__", 3, "C"⟩,
          ⟨"B", some "value", 0, "B"⟩] 800 600 = .done heap tree cells ∧
      toRecords heap = [⟨"__proto__", none, 3, "__proto__"⟩, ⟨"C", some "__proto__", 3, "C"⟩,
          ⟨"B", some "value", 0, "B"⟩] ∧
      heap.map (fun o => (o.x, o.y, o.w, o.h)) = [(0, 0, 800, 600), (0, 0, 800, 600), (0, 0, 0, 0)] ∧
      processGraph (toRecords heap) 800 600 = .typeError := by
  have h2 : processGraph [⟨"__proto__", none, 3, "__proto__"⟩, ⟨"C", some "__proto__", 3, "C"⟩,
      ⟨"B", some "value", 0, "B"⟩] 800 600 = .typeError := by
    simp [processGraph, buildHierarchy, linkAll, parentIsForeign, inherited, fieldTruthy,
      objectPrototypeKeys, initNodes, initNode, parentOf, truthy, buildMap, pushChild, modifyAt]
  have h1 : toRecords (writeBack (.node 0 3 0 0 800 600 [.node 1 3 0 0 800 600 []])
      [⟨"__proto__", none, 0, "__proto__", [1], 0, 0, 0, 0⟩,
        ⟨"C", some "__proto__", 3, "C", [], 0, 0, 0, 0⟩,
        ⟨"B", some "value", 0, "B", [], 0, 0, 0, 0⟩]) =
      [⟨"__proto__", none, 3, "__proto__"⟩, ⟨"C", some "__proto__", 3, "C"⟩,
        ⟨"B", some "value", 0, "B"⟩] := by
    simp [toRecords, toRecord, writeBack, writeBackList, modifyAt]
  have hrun : processGraph [⟨"__proto__", none, 0, "__proto__"⟩, ⟨"C", some "__proto__", 3, "C"⟩,
      ⟨"B", some "value", 0, "B"⟩] 800 600 =
      .done (writeBack (.node 0 3 0 0 800 600 [.node 1 3 0 0 800 600 []])
          [⟨"__proto__", none, 0, "__proto__", [1], 0, 0, 0, 0⟩,
            ⟨"C", some "__proto__", 3, "C", [], 0, 0, 0, 0⟩,
            ⟨"B", some "value", 0, "B", [], 0, 0, 0, 0⟩])
        (.node 0 3 0 0 800 600 [.node 1 3 0 0 800 600 []])
        (generateDrawioXML (writeBack (.node 0 3 0 0 800 600 [.node 1 3 0 0 800 600 []])
          [⟨"__proto__", none, 0, "__proto__", [1], 0, 0, 0, 0⟩,
            ⟨"C", some "__proto__", 3, "C", [], 0, 0, 0, 0⟩,
            ⟨"B", some "value", 0, "B", [], 0, 0, 0, 0⟩])
          (buildMap [⟨"__proto__", none, 0, "__proto__"⟩, ⟨"C", some "__proto__", 3, "C"⟩,
            ⟨"B", some "value", 0, "B"⟩] 0 (fun _ => none))) := by
    simp [processGraph, buildHierarchy, linkAll, parentIsForeign, inherited, fieldTruthy,
      objectPrototypeKeys, initNodes, initNode, parentOf, truthy, toTree, allSome, calcValues,
      calcChildren, computeTreemapLayout, layoutChildren, buildMap, pushChild, modifyAt,
      totalValue, Tree.value]
  refine ⟨_, _, _, hrun, h1, ?_, ?_⟩
  · simp [writeBack, writeBackList, modifyAt]
  · rw [h1]
    exact h2

/-! ## Binary64: known values, and the claims about exact quantities -/

theorem ofRat_third : Dbl.ofRat (1 / 3) = .fin (6004799503160661 / 18014398509481984) := by
  decide!

theorem ofRat_tenth : Dbl.ofRat (1 / 10) = .fin (3602879701896397 / 36028797018963968) := by
  decide!

theorem tenth_add_fifth :
    Dbl.ofRat (1 / 10) + Dbl.ofRat (2 / 10) = .fin (1351079888211149 / 4503599627370496) := by
  decide!

theorem ofRat_small_integers : Dbl.ofRat 800 = .fin 800 ∧ Dbl.ofRat (-3) = .fin (-3) := by
  decide!

theorem ofRat_overflow :
    Dbl.ofRat (2 ^ 1024) = .inf false ∧
    Dbl.ofRat (2 ^ 1024 - 2 ^ 970) = .inf false ∧
    Dbl.ofRat (2 ^ 1024 - 2 ^ 970 - 1) = .fin (2 ^ 1024 - 2 ^ 971) := by
  decide!

theorem ofRat_underflow :
    Dbl.ofRat (1 / 2 ^ 1075) = .fin 0 ∧ Dbl.ofRat (3 / 2 ^ 1075) = .fin (1 / 2 ^ 1073) := by
  decide!

/-- The worked example A (value 0), B (child of A, value 3), C (child of A,
value 1) on an 800 x 600 canvas in the arithmetic of the source: the quotients
3 / 4 and 1 / 4 and the products are exact, and the run stores A.value = 4,
B = (0, 0, 800, 450), C = (0, 450, 800, 150). -/
theorem abc_run_binary64 :
    ((D.processGraph [⟨"A", none, 0, "A"⟩, ⟨"B", some "A", .fin 3, "B"⟩, ⟨"C", some "A", 1, "C"⟩]
        800 600).heap.getD []).map (fun o => (o.id, o.value, o.x, o.y, o.w, o.h)) =
      [("A", .fin 4, 0, 0, .fin 800, .fin 600), ("B", .fin 3, 0, 0, .fin 800, .fin 450),
       ("C", 1, 0, .fin 450, .fin 800, .fin 150)] := by
  decide!

/-- C7 (counterexample): the records R (no parent) and a, b, c (children of R,
value 1 each) on a 100 x 100 canvas, in the arithmetic of the source.  The
values of the children sum to T = 3, and every child gets the height
`100 * (1 / 3)` with both operations rounded: 33.33333333333333
(2345624805922133 / 2 ^ 46), which is neither H * v / T = 100 / 3 nor the
binary64 number nearest to it; the third child gets y = 66.66666666666666
(2345624805922133 / 2 ^ 45), not 200 / 3. -/
theorem C7_binary64_height_is_not_the_exact_share :
    ((D.processGraph threeLeafRecords 100 100).heap.getD []).map
        (fun o => (o.id, o.value, o.x, o.y, o.w, o.h)) =
      [("R", .fin 3, 0, 0, .fin 100, .fin 100),
       ("a", 1, 0, 0, .fin 100, .fin (2345624805922133 / 70368744177664)),
       ("b", 1, 0, .fin (2345624805922133 / 70368744177664), .fin 100,
         .fin (2345624805922133 / 70368744177664)),
       ("c", 1, 0, .fin (2345624805922133 / 35184372088832), .fin 100,
         .fin (2345624805922133 / 70368744177664))] ∧
    (2345624805922133 / 70368744177664 : ℚ) ≠ 100 * 1 / 3 ∧
    Dbl.fin (2345624805922133 / 70368744177664) ≠ Dbl.ofRat (100 * 1 / 3) ∧
    (2345624805922133 / 35184372088832 : ℚ) ≠ 100 * (1 + 1) / 3 := by
  refine ⟨by decide!, by decide!, by decide!, by decide!⟩

/-- C12 (counterexample): the records R (no parent), A (child of R, value
`Infinity`, which `parseFloat("Infinity") || 0` keeps) and B (child of R, value
1) on an 800 x 600 canvas, in the arithmetic of the source.  All values are
non-negative and the children total of the only internal node is `Infinity`,
which is positive.  The ratio of A is `Infinity / Infinity = NaN`, so A gets
the height `NaN`, and B, whose ratio is `1 / Infinity = 0`, gets the height 0
at `y = 0 + NaN = NaN`.  The emitted height of A and the emitted Y of B are
`NaN`: neither `0 <= Y` nor `Y + Height <= ParentHeight + 1` holds. -/
theorem C12_infinite_value_is_emitted_as_NaN :
    ((D.processGraph infiniteLeafRecords 800 600).heap.getD []).map
        (fun o => (o.id, o.value, o.children)) =
      [("R", .inf false, [1, 2]), ("A", .inf false, []), ("B", 1, [])] ∧
    ((D.processGraph infiniteLeafRecords 800 600).cells.getD []).map
        (fun c => (c.id, c.geometry)) =
      [("0", none), ("1", none),
       ("cell_R", some { x := 0, y := 0, width := .fin 800, height := .fin 600 }),
       ("cell_A", some { x := 0, y := 0, width := .fin 800, height := .nan }),
       ("cell_B", some { x := 0, y := .nan, width := .fin 800, height := 0 })] := by
  refine ⟨by decide!, by decide!⟩

/-- C13 (counterexample): a root with three leaves of raw value 1 on a
100 x 100 canvas, in the arithmetic of the source.  After `calcValues` and
`computeTreemapLayout` the root has the value 3 and every leaf the box
100 x 33.33333333333333, whose area is not W * H * value / root.value =
10000 / 3; evaluated in binary64 the two sides of the claimed equation are
3333.333333333333 (3665038759253333 / 2 ^ 40) and 3333.3333333333335
(7330077518506667 / 2 ^ 41). -/
theorem C13_binary64_area_is_not_the_exact_share :
    (D.computeTreemapLayout (D.calcValues threeLeaves).1 0 0 (.fin 100) (.fin 100) true).value
      = .fin 3 ∧
    (D.computeTreemapLayout (D.calcValues threeLeaves).1 0 0 (.fin 100) (.fin 100)
        true).children.map (fun c => (c.value, c.w, c.h, c.w * c.h)) =
      [(1, .fin 100, .fin (2345624805922133 / 70368744177664),
         .fin (3665038759253333 / 1099511627776)),
       (1, .fin 100, .fin (2345624805922133 / 70368744177664),
         .fin (3665038759253333 / 1099511627776)),
       (1, .fin 100, .fin (2345624805922133 / 70368744177664),
         .fin (3665038759253333 / 1099511627776))] ∧
    (Dbl.fin 100 * Dbl.fin 100 * 1 / Dbl.fin 3 : Dbl) = .fin (7330077518506667 / 2199023255552) ∧
    (100 * (2345624805922133 / 70368744177664) : ℚ) ≠ 100 * 100 * 1 / 3 := by
  refine ⟨by decide!, by decide!, by decide!, by decide!⟩

/-- C19 (counterexample): the records R (no parent), A (child of R, value 0.1),
M (child of R) and B, C (children of M, values 0.2 and 0.3), all raw values
non-negative, in the arithmetic of the source.  `calcValues` stores
0.2 + 0.3 = 0.5 on M and 0.1 + 0.5 = 0.6 (5404319552844595 / 2 ^ 53) on R.  The
leaves below R are A, B and C; the sum of their weights is not the stored
value, neither as the exact sum of the three binary64 numbers nor as their
binary64 sum taken in order, 0.6000000000000001 (1351079888211149 / 2 ^ 51). -/
theorem C19_binary64_sum_depends_on_the_tree :
    ((D.processGraph decimalLeafRecords 800 600).heap.getD []).map
        (fun o => (o.id, o.value, o.children)) =
      [("R", .fin (5404319552844595 / 9007199254740992), [1, 2]),
       ("A", .fin (3602879701896397 / 36028797018963968), []),
       ("M", .fin (1 / 2), [3, 4]),
       ("B", .fin (3602879701896397 / 18014398509481984), []),
       ("C", .fin (5404319552844595 / 18014398509481984), [])] ∧
    (3602879701896397 / 36028797018963968 + 3602879701896397 / 18014398509481984
        + 5404319552844595 / 18014398509481984 : ℚ) ≠ 5404319552844595 / 9007199254740992 ∧
    (Dbl.fin (3602879701896397 / 36028797018963968)
        + Dbl.fin (3602879701896397 / 18014398509481984)
        + Dbl.fin (5404319552844595 / 18014398509481984) : Dbl)
      = .fin (1351079888211149 / 2251799813685248) ∧
    Dbl.fin (1351079888211149 / 2251799813685248)
      ≠ Dbl.fin (5404319552844595 / 9007199254740992) := by
  refine ⟨by decide!, by decide!, by decide!, by decide!⟩

end Treemap
